import Mathlib

/-!
# nesfab IR core: SSA/CFG graph, order, dominator, loop analyses, local scheduler

A shallow embedding of `src/ir.hpp`, `src/ir_util.cpp` and `src/mapper.cpp`.

* Node handles (`ssa_node_t*`, `cfg_ht`, `ssa_ht`) are natural numbers; a null
  handle is `none`.
* Per-node storage (`input_vec`, `output_vec`, the `cfg_util_pool`) is a
  function from handles to the stored value.
* `std::vector::push_back` is `xs ++ [x]`.
-/

namespace Nesfab

/-! ## Value references and SSA edges (`ir.hpp`) -/

/-- The tagged word `ssa_value_t` (`ir.hpp:22`): `value` is the 64-bit
representation; the low bit clear means a node pointer, set means a constant. -/
structure ssa_value_t where
  value : Nat
deriving DecidableEq, Repr

/-- `ssa_value_t::is_ptr` (`ir.hpp:47`): `(value & 1) == 0`. -/
def ssa_value_t.is_ptr (v : ssa_value_t) : Bool := (v.value &&& 1) == 0

/-- `ssa_value_t::is_const` (`ir.hpp:48`): `(value & 1) == 1`. -/
def ssa_value_t.is_const (v : ssa_value_t) : Bool := (v.value &&& 1) == 1

/-- `ssa_value_t::ptr` (`ir.hpp:52`): the word reinterpreted as a node address. -/
def ssa_value_t.ptr (v : ssa_value_t) : Nat := v.value

/-- `ssa_forward_edge_t : link_t<ssa_value_t>` (`ir.hpp:78`): held by the
consumer; `node` is the operand, `index` the position of the matching reverse
edge in the producer's `output_vec`. -/
structure ssa_forward_edge_t where
  node : ssa_value_t
  index : Nat
deriving DecidableEq, Repr

/-- `ssa_reverse_edge_t : link_t<ssa_node_t*>` (`ir.hpp:82`): held by the
producer; `node` is the consumer, `index` the position of the matching forward
edge in the consumer's `input_vec`. -/
structure ssa_reverse_edge_t where
  node : Nat
  index : Nat
deriving DecidableEq, Repr

/-- The SSA nodes of an `ir_t`, addressed by node pointer: the `input_vec` and
`output_vec` members of every `ssa_node_t` (`ir.hpp:100-101`). -/
structure ssa_graph where
  input_vec : Nat → List ssa_forward_edge_t
  output_vec : Nat → List ssa_reverse_edge_t

/-- `ssa_forward_edge_t::output` (`ir.hpp:293`): null for a constant operand,
otherwise the producer's reverse edge at `index`. -/
def ssa_forward_edge_t.output (g : ssa_graph) (e : ssa_forward_edge_t) :
    Option ssa_reverse_edge_t :=
  if e.node.is_ptr then (g.output_vec e.node.ptr)[e.index]? else none

/-- `ssa_reverse_edge_t::input` (`ir.hpp:301`): the consumer's forward edge at
`index`. -/
def ssa_reverse_edge_t.input (g : ssa_graph) (r : ssa_reverse_edge_t) :
    Option ssa_forward_edge_t :=
  (g.input_vec r.node)[r.index]?

/-- A graph of freshly created nodes: `create` (`ir.hpp:144`) asserts that both
vectors are empty. -/
def ssa_graph.fresh : ssa_graph := ⟨fun _ => [], fun _ => []⟩

/-! ## Edge mutation primitives (spec §4.1; bodies live in the absent `ir.cpp`) -/

/-- Overwrite the `index` field of the forward edge at position `k`. -/
def set_forward_index (l : List ssa_forward_edge_t) (k j : Nat) : List ssa_forward_edge_t :=
  match l[k]? with
  | some f => l.set k { f with index := j }
  | none => l

/-- Modelled from the spec: `ssa_node_t::link_append_input`, whose body is in
the absent `ir.cpp`. Adds `value` at the end of the input sequence of `n`; if
it references a producer, a new reverse edge is appended to the producer's
output collection and its index recorded in the new forward edge. -/
def link_append_input (g : ssa_graph) (n : Nat) (value : ssa_value_t) : ssa_graph :=
  let i := (g.input_vec n).length
  if value.is_ptr then
    let p := value.ptr
    let j := (g.output_vec p).length
    { input_vec := Function.update g.input_vec n (g.input_vec n ++ [⟨value, j⟩])
      output_vec := Function.update g.output_vec p (g.output_vec p ++ [⟨n, i⟩]) }
  else
    { g with input_vec := Function.update g.input_vec n (g.input_vec n ++ [⟨value, 0⟩]) }

/-- Modelled from the spec: `ssa_node_t::remove_inputs_output` (declared at
`ir.hpp:160`, body in the absent `ir.cpp`). Detaches the reverse edge of input
`i` of `n` from its producer by swap-with-last removal; the forward edge of the
relocated reverse edge is re-indexed to its new position. -/
def remove_inputs_output (g : ssa_graph) (n i : Nat) : ssa_graph :=
  match (g.input_vec n)[i]? with
  | none => g
  | some e =>
    if e.node.is_ptr then
      let p := e.node.ptr
      match (g.output_vec p).getLast? with
      | none => g
      | some last =>
        { input_vec := Function.update g.input_vec last.node
            (set_forward_index (g.input_vec last.node) last.index e.index)
          output_vec := Function.update g.output_vec p
            (((g.output_vec p).set e.index last).dropLast) }
    else g

/-- The producers of the inputs after the removed one record an input position
one lower: for every listed `(k, e)` the reverse edge of `e` becomes `(n, k-1)`. -/
def reindex_outputs (n : Nat) :
    (Nat → List ssa_reverse_edge_t) → List (Nat × ssa_forward_edge_t) →
      (Nat → List ssa_reverse_edge_t)
  | out, [] => out
  | out, (k, e) :: rest =>
    if e.node.is_ptr then
      reindex_outputs n
        (Function.update out e.node.ptr ((out e.node.ptr).set e.index ⟨n, k - 1⟩)) rest
    else reindex_outputs n out rest

/-- Modelled from the spec: `ssa_node_t::link_remove_input`, whose body is in
the absent `ir.cpp`. Removes input `i` of `n`: the reverse edge is detached,
the inputs after `i` shift down by one and the reverse-edge indices recorded on
their producers are decremented. `none` when `i` is not an input position. -/
def link_remove_input (g : ssa_graph) (n i : Nat) : Option ssa_graph :=
  if i < (g.input_vec n).length then
    let g1 := remove_inputs_output g n i
    let later := ((g1.input_vec n).enum).drop (i + 1)
    let out := reindex_outputs n g1.output_vec later
    some { input_vec := Function.update g1.input_vec n ((g1.input_vec n).eraseIdx i)
           output_vec := out }
  else none

/-- Modelled from the spec: `ssa_node_t::link_change_input`, whose body is in
the absent `ir.cpp`. Detach-old then attach-new at position `i`, reusing the
slot. `none` when `i` is not an input position. -/
def link_change_input (g : ssa_graph) (n i : Nat) (new_value : ssa_value_t) :
    Option ssa_graph :=
  if i < (g.input_vec n).length then
    let g1 := remove_inputs_output g n i
    if new_value.is_ptr then
      let p := new_value.ptr
      let j := (g1.output_vec p).length
      some { input_vec := Function.update g1.input_vec n ((g1.input_vec n).set i ⟨new_value, j⟩)
             output_vec := Function.update g1.output_vec p (g1.output_vec p ++ [⟨n, i⟩]) }
    else
      some { g1 with
             input_vec := Function.update g1.input_vec n ((g1.input_vec n).set i ⟨new_value, 0⟩) }
  else none

/-- Repeated removal of the last input, `k` times. -/
def clear_inputs (n : Nat) : Nat → ssa_graph → ssa_graph
  | 0, g => g
  | k + 1, g =>
    match link_remove_input g n k with
    | some g1 => clear_inputs n k g1
    | none => g

/-- Modelled from the spec: `ssa_node_t::link_clear_input`, whose body is in
the absent `ir.cpp`. Removes all inputs, as repeated removal. -/
def link_clear_input (g : ssa_graph) (n : Nat) : ssa_graph :=
  clear_inputs n (g.input_vec n).length g

/-- One call of a mutation primitive on node `n`. -/
inductive link_call where
  | append_input (n : Nat) (value : ssa_value_t)
  | remove_input (n i : Nat)
  | change_input (n i : Nat) (new_value : ssa_value_t)
  | clear_input (n : Nat)

/-- Effect of one call; `none` when an index argument is out of range. -/
def link_call.run (g : ssa_graph) : link_call → Option ssa_graph
  | .append_input n value => some (link_append_input g n value)
  | .remove_input n i => link_remove_input g n i
  | .change_input n i v => link_change_input g n i v
  | .clear_input n => some (link_clear_input g n)

/-- Effect of a finite sequence of calls, in order. -/
def run_calls : ssa_graph → List link_call → Option ssa_graph
  | g, [] => some g
  | g, c :: cs =>
    match c.run g with
    | some g1 => run_calls g1 cs
    | none => none

/-- Edge symmetry: for every node `n` and input position `i` whose value
references a producer, the producer's output collection holds exactly one
reverse edge recording `(n, i)`. -/
def edge_symmetry (g : ssa_graph) : Prop :=
  ∀ (n i : Nat) (e : ssa_forward_edge_t), (g.input_vec n)[i]? = some e → e.node.is_ptr = true →
    (g.output_vec e.node.ptr).count ⟨n, i⟩ = 1

/-- The bidirectional index invariant: each forward edge to a producer finds
its reverse edge at the recorded index, and each reverse edge finds its forward
edge at the recorded index. -/
def linked (g : ssa_graph) : Prop :=
  (∀ (n i : Nat) (e : ssa_forward_edge_t),
      (g.input_vec n)[i]? = some e → e.node.is_ptr = true →
        e.output g = some ⟨n, i⟩) ∧
  (∀ (p j : Nat) (r : ssa_reverse_edge_t), (g.output_vec p)[j]? = some r →
      r.input g = some ⟨⟨p⟩, j⟩ ∧ ssa_value_t.is_ptr ⟨p⟩ = true)

/-- The invariant with input slot `(n, i)` detached: its reverse edge has been
removed, every other edge pair is consistent. -/
def linked_except (n i : Nat) (g : ssa_graph) : Prop :=
  (∀ (m k : Nat) (e : ssa_forward_edge_t), (m, k) ≠ (n, i) →
      (g.input_vec m)[k]? = some e → e.node.is_ptr = true →
        e.output g = some ⟨m, k⟩) ∧
  (∀ (p j : Nat) (r : ssa_reverse_edge_t), (g.output_vec p)[j]? = some r →
      r ≠ ⟨n, i⟩ ∧ r.input g = some ⟨⟨p⟩, j⟩ ∧ ssa_value_t.is_ptr ⟨p⟩ = true)

/-- The reverse edge recorded for an input of `n` at a position in `(i, t)`,
moved one position down; any other reverse edge unchanged. -/
def shift_down (n i t : Nat) (r : ssa_reverse_edge_t) : ssa_reverse_edge_t :=
  if r.node = n ∧ i < r.index ∧ r.index < t then ⟨n, r.index - 1⟩ else r

end Nesfab

namespace Nesfab

/-! ## Control-flow graph (`ir.hpp`) -/

/-- `cfg_forward_edge_t : link_t<cfg_node_t*>` (`ir.hpp:70`): held in the
`input_vec` of a block, `node` is the predecessor and `index` the position of
the matching edge in the predecessor's `output_vec`. -/
structure cfg_forward_edge_t where
  node : Nat
  index : Nat
deriving DecidableEq, Repr

/-- `cfg_reverse_edge_t : link_t<cfg_node_t*>` (`ir.hpp:74`): held in the
`output_vec` of a block, `node` is the successor and `index` the position of
the matching edge in the successor's `input_vec`. -/
structure cfg_reverse_edge_t where
  node : Nat
  index : Nat
deriving DecidableEq, Repr

/-- The edge vectors of a `cfg_node_t` (`ir.hpp:175-176`). -/
structure cfg_node_t where
  input_vec : List cfg_forward_edge_t
  output_vec : List cfg_reverse_edge_t
deriving Repr

/-- The blocks of an `ir_t` (`ir.hpp:237`): the pool of CFG nodes, a handle
being a position in the pool, and the root block. -/
structure ir_t where
  cfg_pool : List cfg_node_t
  root : Nat
deriving Repr

/-- `cfg_pool::array_size()` / `ir.cfg_size()`: the number of blocks. -/
def ir_t.cfg_size (ir : ir_t) : Nat := ir.cfg_pool.length

/-- Dereference of a `cfg_ht`. -/
def ir_t.cfg (ir : ir_t) (h : Nat) : cfg_node_t := ir.cfg_pool.getD h ⟨[], []⟩

/-- `cfg_node_t::output_size` (`ir.hpp:204`). -/
def ir_t.output_size (ir : ir_t) (h : Nat) : Nat := (ir.cfg h).output_vec.length

/-- The successors `h->output(0), h->output(1), ...` in edge order (`ir.hpp:203`). -/
def ir_t.outputs (ir : ir_t) (h : Nat) : List Nat := (ir.cfg h).output_vec.map (·.node)

/-- The predecessors `h->input(0), h->input(1), ...` in edge order (`ir.hpp:200`). -/
def ir_t.inputs (ir : ir_t) (h : Nat) : List Nat := (ir.cfg h).input_vec.map (·.node)

/-- Every edge endpoint is a block of the pool, and so is the root. -/
def ir_t.wf (ir : ir_t) : Prop :=
  ir.root < ir.cfg_size ∧
  ∀ n ∈ ir.cfg_pool, (∀ e ∈ n.output_vec, e.node < ir.cfg_size) ∧
    (∀ e ∈ n.input_vec, e.node < ir.cfg_size)

instance (ir : ir_t) : Decidable ir.wf := by
  unfold ir_t.wf; infer_instance

/-- The bidirectional index invariant of the CFG edges (spec §3): the successor
edge number `i` of `h` is matched by the predecessor edge of the successor at the
recorded index, and conversely. -/
def ir_t.linked (ir : ir_t) : Prop :=
  (∀ (h i : Nat) (e : cfg_reverse_edge_t), (ir.cfg h).output_vec[i]? = some e →
      (ir.cfg e.node).input_vec[e.index]? = some ⟨h, i⟩) ∧
  (∀ (h i : Nat) (e : cfg_forward_edge_t), (ir.cfg h).input_vec[i]? = some e →
      (ir.cfg e.node).output_vec[e.index]? = some ⟨h, i⟩)

/-- Block `b` is reachable from `a` along successor edges. -/
def ir_t.reachable (ir : ir_t) (a b : Nat) : Prop :=
  Relation.ReflTransGen (fun x y => y ∈ ir.outputs x) a b

/-! ## Analysis scratch state (`ir_util.cpp:6-9`, `cfg_util_d`) -/

/-- Modelled from the spec: `cfg_util_d` is declared in the absent
`ir_util.hpp`; these are the fields `ir_util.cpp` reads and writes. The order
numbers hold `none` for the `UNVISITED` sentinel and a null handle is `none`. -/
structure cfg_util_d where
  preorder_i : Option Nat
  postorder_i : Option Nat
  idom : Option Nat
  iloop_header : Option Nat
  is_loop_header : Bool
  reentry_in : Nat
  reentry_out : Nat
deriving DecidableEq, Repr

/-- The thread-local analysis state of `ir_util.cpp:6-9`, with the
`FLAG_IRREDUCIBLE` bit that the loop pass sets on the blocks. -/
structure util_state where
  cfg_util_pool : Nat → cfg_util_d
  postorder : List Nat
  preorder : List Nat
  loop_headers : List Nat
  irreducible : Nat → Bool

/-- `util(h)`. -/
def util_state.util (s : util_state) (h : Nat) : cfg_util_d := s.cfg_util_pool h

/-- Store a new `cfg_util_d` for `h`. -/
def util_state.set_util (s : util_state) (h : Nat) (u : cfg_util_d) : util_state :=
  { s with cfg_util_pool := Function.update s.cfg_util_pool h u }

/-- Modelled from the spec: `UNVISITED` is declared in the absent `ir_util.hpp`;
it is the largest unsigned value, so as an order number it compares above every
assigned number. `order_lt a b` is the unsigned comparison `a < b`. -/
def order_lt : Option Nat → Option Nat → Bool
  | some a, some b => decide (a < b)
  | some _, none => true
  | none, _ => false

/-- How a call ends: it returns, throws `std::runtime_error`, fails an `assert`
(or dereferences a null handle), or the model ran out of fuel. -/
inductive outcome (α : Type) where
  | ok (a : α)
  | error (msg : String)
  | assert_fail
  | out_of_fuel
deriving Repr

/-! ## Order analysis (`ir_util.cpp:15-55`) -/

/-- The successor loop of `_visit_order` (`ir_util.cpp:22-29`), with the
recursive call passed in. -/
def visit_order_succs (visit : util_state → Nat → Option util_state) :
    List Nat → util_state → Option util_state
  | [], s => some s
  | succ :: rest, s =>
    if (s.util succ).preorder_i = none then
      match visit s succ with
      | none => none
      | some s1 => visit_order_succs visit rest s1
    else visit_order_succs visit rest s

/-- `u.preorder_i = preorder.size(); preorder.push_back(h);`
(`ir_util.cpp:19-20`, `107-108`). -/
def push_preorder (s : util_state) (h : Nat) : util_state :=
  { s.set_util h { s.util h with preorder_i := some s.preorder.length } with
    preorder := s.preorder ++ [h] }

/-- `u.postorder_i = postorder.size(); postorder.push_back(h);`
(`ir_util.cpp:30-31`, `173-174`). -/
def push_postorder (s : util_state) (h : Nat) : util_state :=
  { s.set_util h { s.util h with postorder_i := some s.postorder.length } with
    postorder := s.postorder ++ [h] }

/-- `_visit_order` (`ir_util.cpp:15`); `none` when the recursion depth exceeds
the fuel. -/
def _visit_order (ir : ir_t) : Nat → util_state → Nat → Option util_state
  | 0 => fun _ _ => none
  | fuel + 1 => fun s h =>
    match visit_order_succs (_visit_order ir fuel) (ir.outputs h) (push_preorder s h) with
    | none => none
    | some s2 => some (push_postorder s2 h)

/-- The reset at the start of `build_order` (`ir_util.cpp:37-46`). -/
def order_reset (s : util_state) : util_state :=
  { s with
    cfg_util_pool := fun h => { s.cfg_util_pool h with preorder_i := none, postorder_i := none }
    preorder := []
    postorder := [] }

/-- `build_order` (`ir_util.cpp:35`), run on the analysis state left by earlier
passes. -/
def build_order (fuel : Nat) (ir : ir_t) (s : util_state) : Option util_state :=
  _visit_order ir fuel (order_reset s) ir.root

/-! ### Invariants of the depth-first traversal -/

/-- The state invariant of the traversal from `ir.root`: the order numbers
index the order vectors, a finished block is a visited one whose successors are
all visited, every visited block is reachable, and every visited block other
than the root has a predecessor visited before it that finishes after it. -/
structure order_inv (ir : ir_t) (s : util_state) : Prop where
  pre_iff : ∀ (v i : Nat), (s.util v).preorder_i = some i ↔ s.preorder[i]? = some v
  post_iff : ∀ (v i : Nat), (s.util v).postorder_i = some i ↔ s.postorder[i]? = some v
  post_pre : ∀ v : Nat, (s.util v).postorder_i ≠ none → (s.util v).preorder_i ≠ none
  closed : ∀ v : Nat, (s.util v).postorder_i ≠ none →
    ∀ w ∈ ir.outputs v, (s.util w).preorder_i ≠ none
  reach : ∀ v : Nat, (s.util v).preorder_i ≠ none → ir.reachable ir.root v
  parent : ∀ (v b : Nat), (s.util v).preorder_i = some b → v = ir.root ∨
    ∃ p a, v ∈ ir.outputs p ∧ (s.util p).preorder_i = some a ∧ a < b ∧
      ∀ j, (s.util p).postorder_i = some j → ∃ i, (s.util v).postorder_i = some i ∧ i < j

/-- What a completed traversal step guarantees about the state `t` it leaves,
started in state `s`: blocks visited before are untouched, newly visited blocks
are finished, and both order vectors only grew. -/
structure order_step (ir : ir_t) (s t : util_state) : Prop where
  inv : order_inv ir t
  frame : ∀ v : Nat, (s.util v).preorder_i ≠ none → t.util v = s.util v
  fin : ∀ v : Nat, (s.util v).preorder_i = none → (t.util v).preorder_i ≠ none →
    (t.util v).postorder_i ≠ none
  pre_ext : ∃ l, t.preorder = s.preorder ++ l
  post_ext : ∃ l, t.postorder = s.postorder ++ l

/-- The number of blocks of the pool not yet visited. -/
def unvisited (ir : ir_t) (s : util_state) : Nat :=
  ((Finset.range ir.cfg_size).filter (fun v => (s.util v).preorder_i = none)).card

/-- What one completed call `_visit_order(h)` guarantees. -/
def visit_order_post (ir : ir_t) (s : util_state) (h : Nat) (t : util_state) : Prop :=
  order_step ir s t ∧ (t.util h).postorder_i ≠ none ∧
    (∃ l, t.preorder = s.preorder ++ h :: l) ∧ (∃ l, t.postorder = s.postorder ++ l ++ [h])

/-- The precondition of a call `_visit_order(h)`: `h` is unvisited, reachable,
and is the root or a successor of a block that is still being traversed. -/
def visit_order_pre (ir : ir_t) (s : util_state) (h : Nat) : Prop :=
  order_inv ir s ∧ (s.util h).preorder_i = none ∧ ir.reachable ir.root h ∧
    (h = ir.root ∨ ∃ p a, h ∈ ir.outputs p ∧ (s.util p).preorder_i = some a ∧
      (s.util p).postorder_i = none)

end Nesfab

namespace Nesfab

/-! ## Local scheduler (`ir_util.cpp:289-342`) -/

/-- Modelled from the spec: the members of an SSA node that the scheduler reads
through accessors declared in headers that are not under `src/` (`op()`,
`cfg_node()`, `input(i)` with `holds_ref()` / `handle()`, `output(i)`,
`in_daisy()`, `prev()`). An input is `some h` when it holds a reference to node
`h` and `none` when it is a constant; `prev` is the node before this one in the
list of its block, `none` at the front. -/
structure sched_node_t where
  is_phi : Bool
  cfg_node : Nat
  input : List (Option Nat)
  output : List Nat
  in_daisy : Bool
  prev : Option Nat
deriving Repr

/-- Modelled from the spec: what the scheduler reads of the graph; `ssa_list c`
is the iteration `cfg_node->ssa_begin(), ++` over block `c` and `last_daisy c`
is `cfg_node->last_daisy()`, a null handle when the block has no daisy chain. -/
structure sched_ir_t where
  ssa : Nat → sched_node_t
  ssa_list : Nat → List Nat
  last_daisy : Nat → Option Nat

/-- The node marks `MARK_NONE`, `MARK_TEMPORARY`, `MARK_PERMANENT`. -/
inductive mark_t where
  | MARK_NONE
  | MARK_TEMPORARY
  | MARK_PERMANENT
deriving DecidableEq, Repr

/-- The marks of all nodes and the entries written through `vec` so far. -/
structure sched_state where
  mark : Nat → mark_t
  vec : List Nat

/-- `node->set_mark(m)`. -/
def sched_state.set_mark (s : sched_state) (node : Nat) (m : mark_t) : sched_state :=
  { s with mark := Function.update s.mark node m }

/-- The nodes `_toposort_visit(node)` recurses into, in call order
(`ir_util.cpp:297-307`): every input that holds a reference to a node of the
same block, then the list predecessor when `node` is in the daisy chain. -/
def toposort_deps (ir : sched_ir_t) (node : Nat) : List Nat :=
  (ir.ssa node).input.filterMap (fun input =>
    match input with
    | some h => if (ir.ssa h).cfg_node = (ir.ssa node).cfg_node then some h else none
    | none => none) ++
  (if (ir.ssa node).in_daisy then (ir.ssa node).prev.toList else [])

/-- The recursive calls of `_toposort_visit` in sequence, stopping at the first
one that does not return. -/
def toposort_visit_all (visit : sched_state → Nat → outcome sched_state) :
    List Nat → sched_state → outcome sched_state
  | [], s => .ok s
  | x :: rest, s =>
    match visit s x with
    | .ok s1 => toposort_visit_all visit rest s1
    | .error msg => .error msg
    | .assert_fail => .assert_fail
    | .out_of_fuel => .out_of_fuel

/-- `_toposort_visit` (`ir_util.cpp:289`), with the asserts of lines 294-295
active: a node met while it is marked `MARK_TEMPORARY` fails the assert. -/
def _toposort_visit (ir : sched_ir_t) : Nat → sched_state → Nat → outcome sched_state
  | 0 => fun _ _ => .out_of_fuel
  | fuel + 1 => fun s node =>
    if s.mark node = .MARK_PERMANENT then .ok s
    else if s.mark node = .MARK_TEMPORARY then .assert_fail
    else
      match toposort_visit_all (_toposort_visit ir fuel) (toposort_deps ir node)
          (s.set_mark node .MARK_TEMPORARY) with
      | .ok s2 => .ok { mark := Function.update s2.mark node .MARK_PERMANENT
                        vec := s2.vec ++ [node] }
      | .error msg => .error msg
      | .assert_fail => .assert_fail
      | .out_of_fuel => .out_of_fuel

/-- The first loop of `toposort_cfg_node` (`ir_util.cpp:315-325`): phi nodes are
written out and marked permanent, every other node of the block is unmarked. -/
def toposort_phis (ir : sched_ir_t) : List Nat → sched_state → sched_state
  | [], s => s
  | ssa_it :: rest, s =>
    if (ir.ssa ssa_it).is_phi then
      toposort_phis ir rest
        { mark := Function.update s.mark ssa_it .MARK_PERMANENT, vec := s.vec ++ [ssa_it] }
    else toposort_phis ir rest (s.set_mark ssa_it .MARK_NONE)

/-- The leaf test of `toposort_cfg_node` (`ir_util.cpp:332-338`): true when some
output is a non-phi node of the block (`goto not_leaf`). -/
def not_leaf (ir : sched_ir_t) (cfg_node ssa_it : Nat) : Bool :=
  (ir.ssa ssa_it).output.any (fun output =>
    decide ((ir.ssa output).cfg_node = cfg_node) && !(ir.ssa output).is_phi)

/-- The second loop of `toposort_cfg_node` (`ir_util.cpp:327-341`). -/
def toposort_leaves (ir : sched_ir_t) (fuel cfg_node : Nat) :
    List Nat → sched_state → outcome sched_state
  | [], s => .ok s
  | ssa_it :: rest, s =>
    if (ir.ssa ssa_it).in_daisy ∧ some ssa_it ≠ ir.last_daisy cfg_node then
      toposort_leaves ir fuel cfg_node rest s
    else if not_leaf ir cfg_node ssa_it then
      toposort_leaves ir fuel cfg_node rest s
    else
      match _toposort_visit ir fuel s ssa_it with
      | .ok s1 => toposort_leaves ir fuel cfg_node rest s1
      | .error msg => .error msg
      | .assert_fail => .assert_fail
      | .out_of_fuel => .out_of_fuel

/-- `toposort_cfg_node` (`ir_util.cpp:313`): the entries written to `vec`, given
the marks the nodes carry on entry. -/
def toposort_cfg_node (ir : sched_ir_t) (fuel cfg_node : Nat) (mark : Nat → mark_t) :
    outcome (List Nat) :=
  match toposort_leaves ir fuel cfg_node (ir.ssa_list cfg_node)
      (toposort_phis ir (ir.ssa_list cfg_node) ⟨mark, []⟩) with
  | .ok s => .ok s.vec
  | .error msg => .error msg
  | .assert_fail => .assert_fail
  | .out_of_fuel => .out_of_fuel

/-- Entry `x` is written before entry `y` in `vec`. -/
def written_before (vec : List Nat) (x y : Nat) : Prop :=
  ∃ i j : Nat, vec[i]? = some x ∧ vec[j]? = some y ∧ i < j

/-- The same-block data dependencies and daisy-chain links of the block are
acyclic: no node reaches itself through `toposort_deps`. -/
def sched_acyclic (ir : sched_ir_t) : Prop :=
  ∀ v, ¬ Relation.TransGen (fun y x => x ∈ toposort_deps ir y) v v

/-- The block `c` is well formed:
* its list holds each node once, and holds exactly the referenced nodes whose
  `cfg_node()` is `c`;
* `prev()` is the list predecessor;
* every output edge has its input edge (edge symmetry);
* the daisy chain is a run of consecutive non-phi nodes of the list that ends at
  `last_daisy()`. -/
structure sched_wf (ir : sched_ir_t) (c : Nat) : Prop where
  nodup : (ir.ssa_list c).Nodup
  cfg_node_eq : ∀ v ∈ ir.ssa_list c, (ir.ssa v).cfg_node = c
  input_mem : ∀ y ∈ ir.ssa_list c, ∀ input ∈ (ir.ssa y).input, ∀ h ∈ input,
    (ir.ssa h).cfg_node = c → h ∈ ir.ssa_list c
  output_mem : ∀ x ∈ ir.ssa_list c, ∀ y ∈ (ir.ssa x).output,
    (ir.ssa y).cfg_node = c → y ∈ ir.ssa_list c
  prev_eq : ∀ (i : Nat) (hi : i < (ir.ssa_list c).length),
    (ir.ssa (ir.ssa_list c)[i]).prev = if i = 0 then none else (ir.ssa_list c)[i - 1]?
  output_input : ∀ x ∈ ir.ssa_list c, ∀ y ∈ (ir.ssa x).output, some x ∈ (ir.ssa y).input
  daisy_run : ∀ (i : Nat) (hi : i < (ir.ssa_list c).length),
    (ir.ssa (ir.ssa_list c)[i]).in_daisy = true → some (ir.ssa_list c)[i] ≠ ir.last_daisy c →
    ∃ w ∈ ir.ssa_list c, (ir.ssa_list c)[i + 1]? = some w ∧ (ir.ssa w).in_daisy = true
  daisy_not_phi : ∀ v ∈ ir.ssa_list c, (ir.ssa v).in_daisy = true → (ir.ssa v).is_phi = false

/-! ### Invariants of the scheduler -/

/-- The phi nodes of block `c`, in list order. -/
def block_phis (ir : sched_ir_t) (c : Nat) : List Nat :=
  (ir.ssa_list c).filter (fun v => (ir.ssa v).is_phi)

/-- The state invariant of `toposort_cfg_node` after its first loop: the
written entries are the permanently marked nodes of the block, each once; the
phis come first; every non-phi entry comes after all the nodes it depends on. -/
structure sched_inv (ir : sched_ir_t) (c : Nat) (s : sched_state) : Prop where
  vec_iff : ∀ v, v ∈ s.vec ↔ (v ∈ ir.ssa_list c ∧ s.mark v = .MARK_PERMANENT)
  nodup : s.vec.Nodup
  deps_before : ∀ y ∈ s.vec, (ir.ssa y).is_phi = false →
    ∀ x ∈ toposort_deps ir y, written_before s.vec x y
  split : ∃ r, s.vec = block_phis ir c ++ r ∧ ∀ x ∈ r, (ir.ssa x).is_phi = false

/-- What a completed visit guarantees about the state `t` it leaves, started in
state `s`. -/
structure sched_step (ir : sched_ir_t) (c : Nat) (s t : sched_state) : Prop where
  inv : sched_inv ir c t
  perm_mono : ∀ v, s.mark v = .MARK_PERMANENT → t.mark v = .MARK_PERMANENT
  temp_same : ∀ v, t.mark v = .MARK_TEMPORARY ↔ s.mark v = .MARK_TEMPORARY
  ext : ∃ e, t.vec = s.vec ++ e

/-- The number of nodes of block `c` that carry no mark. -/
def none_count (ir : sched_ir_t) (c : Nat) (s : sched_state) : Nat :=
  ((ir.ssa_list c).toFinset.filter (fun v => s.mark v = .MARK_NONE)).card

/-- The nodes at which the second loop of `toposort_cfg_node` starts a visit. -/
def sched_start (ir : sched_ir_t) (c v : Nat) : Prop :=
  ¬ ((ir.ssa v).in_daisy ∧ some v ≠ ir.last_daisy c) ∧ not_leaf ir c v = false

/-- The precondition of a visit of `x`: every node of the block that is in
progress depends on `x`. -/
def visit_ready (ir : sched_ir_t) (c : Nat) (s : sched_state) (x : Nat) : Prop :=
  ∀ t ∈ ir.ssa_list c, s.mark t = .MARK_TEMPORARY →
    Relation.TransGen (fun y x => x ∈ toposort_deps ir y) t x

/-- The part of the scheduler invariant that needs no acyclicity: the phis of
the block are permanently marked, and the written entries are these phis in
list order followed by non-phi nodes only. -/
def phis_first (ir : sched_ir_t) (c : Nat) (s : sched_state) : Prop :=
  (∀ v ∈ ir.ssa_list c, (ir.ssa v).is_phi = true → s.mark v = .MARK_PERMANENT) ∧
  ∃ r, s.vec = block_phis ir c ++ r ∧ ∀ x ∈ r, (ir.ssa x).is_phi = false

end Nesfab

namespace Nesfab

/-! ## Loop analysis (`ir_util.cpp:61-223`) -/

/-- Modelled from the spec: the bit widths `sizeof_bits<decltype(u.reentry_in)>`
and `sizeof_bits<decltype(u.reentry_out)>`; the types are declared in the
absent `ir_util.hpp`. -/
structure util_layout where
  reentry_in_bits : Nat
  reentry_out_bits : Nat

/-- The `while` loop of `_tag_loop_header` with the store that follows it
(`ir_util.cpp:71-98`); `steps` bounds the number of iterations. -/
def tag_loop_header_loop : Nat → util_state → Nat → Nat → outcome util_state
  | 0 => fun _ _ _ => .out_of_fuel
  | steps + 1 => fun s node header =>
    match (s.util node).iloop_header with
    | none => .ok (s.set_util node { s.util node with iloop_header := some header })
    | some iloop_header =>
      if iloop_header = header then .ok s
      else
        let header_u := s.util header
        let iloop_header_u := s.util iloop_header
        if ¬ (iloop_header_u.preorder_i ≠ none ∧ iloop_header_u.postorder_i = none) then
          .assert_fail
        else if header_u.preorder_i = none then .assert_fail
        else if header_u.postorder_i ≠ none ∧
            order_lt iloop_header_u.preorder_i header_u.preorder_i = true then
          tag_loop_header_loop steps
            (s.set_util node { s.util node with iloop_header := some header })
            header iloop_header
        else tag_loop_header_loop steps s iloop_header header

/-- `_tag_loop_header` (`ir_util.cpp:66`). -/
def _tag_loop_header (steps : Nat) (s : util_state) (node : Nat) (header : Option Nat) :
    outcome util_state :=
  match header with
  | none => .ok s
  | some header =>
    if node = header then .ok s else tag_loop_header_loop steps s node header

/-- `header->set_flags(FLAG_IRREDUCIBLE)`. -/
def util_state.set_irreducible (s : util_state) (header : Nat) : util_state :=
  { s with irreducible := Function.update s.irreducible header true }

/-- The `while(header_u.iloop_header)` loop of `_visit_loops`
(`ir_util.cpp:156-168`). `header_u` is the reference bound at line 130 to the
util of the header found first, `header0` here; the loop re-reads that same
util on every test and every assignment. -/
def reentry_walk : Nat → util_state → Nat → Nat → outcome util_state
  | 0 => fun _ _ _ => .out_of_fuel
  | steps + 1 => fun s node header0 =>
    match (s.util header0).iloop_header with
    | none => .ok s
    | some header =>
      if (s.util header).postorder_i = none then
        if (s.util header).preorder_i = none then .assert_fail
        else _tag_loop_header steps s node (some header)
      else reentry_walk steps (s.set_irreducible header) node header0

/-- One iteration of the successor loop of `_visit_loops` (`ir_util.cpp:113-170`)
for successor edge number `i` of `node`, with the recursive call passed in. -/
def visit_loops_edge (lay : util_layout)
    (visit : util_state → Nat → outcome (util_state × Option Nat)) (steps node i : Nat)
    (e : cfg_reverse_edge_t) (s : util_state) : outcome util_state :=
  let succ := e.node
  if (s.util succ).preorder_i = none then
    match visit s succ with
    | .ok (s1, r) => _tag_loop_header steps s1 node r
    | .error msg => .error msg
    | .assert_fail => .assert_fail
    | .out_of_fuel => .out_of_fuel
  else if (s.util succ).postorder_i = none then
    let s1 : util_state :=
      if (s.util succ).is_loop_header then s
      else
        { s.set_util succ { s.util succ with is_loop_header := true } with
          loop_headers := s.loop_headers ++ [succ] }
    _tag_loop_header steps s1 node (some succ)
  else
    match (s.util succ).iloop_header with
    | none => .ok s
    | some header =>
      if (s.util header).postorder_i = none then
        if (s.util header).preorder_i = none then .assert_fail
        else _tag_loop_header steps s node (some header)
      else
        let out_i := i
        let in_i := e.index
        if lay.reentry_out_bits ≤ out_i then .error "CFG node has too many outputs."
        else if lay.reentry_in_bits ≤ in_i then .error "CFG node has too many inputs."
        else
          let s1 := s.set_util node
            { s.util node with reentry_out := (s.util node).reentry_out ||| (1 <<< out_i) }
          let s2 := s1.set_util succ
            { s1.util succ with reentry_in := (s1.util succ).reentry_in ||| (1 <<< in_i) }
          reentry_walk steps (s2.set_irreducible header) node header

/-- The successor loop of `_visit_loops` (`ir_util.cpp:111-171`) over the
output edges paired with their positions. -/
def visit_loops_succs (lay : util_layout)
    (visit : util_state → Nat → outcome (util_state × Option Nat)) (steps node : Nat) :
    List (Nat × cfg_reverse_edge_t) → util_state → outcome util_state
  | [], s => .ok s
  | (i, e) :: rest, s =>
    match visit_loops_edge lay visit steps node i e s with
    | .ok s1 => visit_loops_succs lay visit steps node rest s1
    | .error msg => .error msg
    | .assert_fail => .assert_fail
    | .out_of_fuel => .out_of_fuel

/-- `_visit_loops` (`ir_util.cpp:103`): the state left and the header
returned. `fuel` bounds the recursion depth, `steps` the iterations of each
inner `while` loop. -/
def _visit_loops (lay : util_layout) (ir : ir_t) (steps : Nat) :
    Nat → util_state → Nat → outcome (util_state × Option Nat)
  | 0 => fun _ _ => .out_of_fuel
  | fuel + 1 => fun s node =>
    match visit_loops_succs lay (_visit_loops lay ir steps fuel) steps node
        ((ir.cfg node).output_vec.enum) (push_preorder s node) with
    | .ok s2 =>
      let s3 := push_postorder s2 node
      .ok (s3, (s3.util node).iloop_header)
    | .error msg => .error msg
    | .assert_fail => .assert_fail
    | .out_of_fuel => .out_of_fuel

/-- The reset at the start of `build_loops_and_order` (`ir_util.cpp:181-202`). -/
def loops_reset (s : util_state) : util_state :=
  { cfg_util_pool := fun h =>
      { s.cfg_util_pool h with
        preorder_i := none, postorder_i := none, iloop_header := none,
        is_loop_header := false, reentry_in := 0, reentry_out := 0 }
    preorder := []
    postorder := []
    loop_headers := []
    irreducible := fun _ => false }

/-- `build_loops_and_order` (`ir_util.cpp:179`). -/
def build_loops_and_order (lay : util_layout) (steps fuel : Nat) (ir : ir_t) (s : util_state) :
    outcome util_state :=
  match _visit_loops lay ir steps fuel (loops_reset s) ir.root with
  | .ok (t, _) => .ok t
  | .error msg => .error msg
  | .assert_fail => .assert_fail
  | .out_of_fuel => .out_of_fuel

/-- The counting loop of `loop_depth` (`ir_util.cpp:219-220`); `none` when the
walk has not reached a null header within `steps` iterations. -/
def loop_depth_loop (s : util_state) : Nat → Option Nat → Nat → Option Nat
  | 0, _, _ => none
  | _ + 1, none, depth => some depth
  | steps + 1, some cfg, depth => loop_depth_loop s steps (s.util cfg).iloop_header (depth + 1)

/-- `loop_depth` (`ir_util.cpp:210`). -/
def loop_depth (steps : Nat) (s : util_state) (cfg : Nat) : Option Nat :=
  loop_depth_loop s steps
    (if (s.util cfg).is_loop_header then some cfg else (s.util cfg).iloop_header) 0

/-! ## Dominator analysis (`ir_util.cpp:229-283`) -/

/-- `dom_intersect` (`ir_util.cpp:229`); the assert of line 239 and the use of a
null `a` in line 237 are `assert_fail`. -/
def dom_intersect (s : util_state) : Nat → Nat → Nat → outcome Nat
  | 0 => fun _ _ => .out_of_fuel
  | steps + 1 => fun a b =>
    if a = b then .ok a
    else
      match (if order_lt (s.util a).postorder_i (s.util b).postorder_i = true
             then (s.util a).idom else some a) with
      | none => .assert_fail
      | some a1 =>
        match (if order_lt (s.util b).postorder_i (s.util a1).postorder_i = true
               then (s.util b).idom else some b) with
        | none => .assert_fail
        | some b1 => dom_intersect s steps a1 b1

/-- The predecessor loop of `build_dominators_from_order` (`ir_util.cpp:267-273`). -/
def new_idom_loop (ir : ir_t) (steps : Nat) (s : util_state) :
    List Nat → Option Nat → outcome (Option Nat)
  | [], new_idom => .ok new_idom
  | pred :: rest, new_idom =>
    if pred = ir.root ∨ (s.util pred).idom ≠ none then
      match new_idom with
      | none => new_idom_loop ir steps s rest (some pred)
      | some n =>
        match dom_intersect s steps n pred with
        | .ok r => new_idom_loop ir steps s rest (some r)
        | .error msg => .error msg
        | .assert_fail => .assert_fail
        | .out_of_fuel => .out_of_fuel
    else new_idom_loop ir steps s rest new_idom

/-- One pass over the blocks in reverse postorder (`ir_util.cpp:260-280`). -/
def dom_pass (ir : ir_t) (steps : Nat) :
    List Nat → util_state → Bool → outcome (util_state × Bool)
  | [], s, changed => .ok (s, changed)
  | h :: rest, s, changed =>
    if h = ir.root then .assert_fail
    else
      match new_idom_loop ir steps s (ir.inputs h) none with
      | .ok new_idom =>
        if new_idom ≠ (s.util h).idom then
          dom_pass ir steps rest (s.set_util h { s.util h with idom := new_idom }) true
        else dom_pass ir steps rest s changed
      | .error msg => .error msg
      | .assert_fail => .assert_fail
      | .out_of_fuel => .out_of_fuel

/-- The `do ... while(changed)` loop (`ir_util.cpp:254-282`); `fuel` bounds the
number of passes. -/
def dom_iterate (ir : ir_t) (steps : Nat) : Nat → util_state → outcome util_state
  | 0 => fun _ => .out_of_fuel
  | fuel + 1 => fun s =>
    match dom_pass ir steps s.postorder.reverse.tail s false with
    | .ok (s1, changed) => if changed then dom_iterate ir steps fuel s1 else .ok s1
    | .error msg => .error msg
    | .assert_fail => .assert_fail
    | .out_of_fuel => .out_of_fuel

/-- `build_dominators_from_order` (`ir_util.cpp:249`). -/
def build_dominators_from_order (steps fuel : Nat) (ir : ir_t) (s : util_state) :
    outcome util_state :=
  dom_iterate ir steps fuel
    { s with cfg_util_pool := fun h => { s.cfg_util_pool h with idom := none } }

/-- The blocks met by following immediate loop headers from `start` until the
null header, in order. -/
def header_chain (s : util_state) : Option Nat → List Nat → Prop
  | none, [] => True
  | some h, x :: rest => x = h ∧ header_chain s (s.util h).iloop_header rest
  | none, _ :: _ => False
  | some _, [] => False

end Nesfab

namespace Nesfab

/-! ## Dominator analysis: the invariants of the iteration -/

/-- What the dominator iteration uses of the graph and of the order analysis:
the root, the postorder number `po` of the visited blocks `V`, the predecessor
lists, and for every visited block but the root a predecessor `par` with a
larger postorder number. -/
structure dom_ctx where
  root : Nat
  po : Nat → Nat
  V : Nat → Prop
  preds : Nat → List Nat
  succs : Nat → List Nat
  par : Nat → Nat
  N : Nat
  root_V : V root
  po_lt : ∀ v, V v → po v < N
  po_root : ∀ v, V v → po v ≤ po root
  po_inj : ∀ a b, V a → V b → po a = po b → a = b
  par_V : ∀ v, V v → v ≠ root → V (par v)
  par_pred : ∀ v, V v → v ≠ root → par v ∈ preds v
  par_po : ∀ v, V v → v ≠ root → po v < po (par v)
  pred_succ : ∀ p v, p ∈ preds v ↔ v ∈ succs p
  reach_V : ∀ v, V v ↔ Relation.ReflTransGen (fun x y => y ∈ succs x) root v

/-- `b` is met when immediate dominators are followed from `a` (`a` itself
included). -/
def idom_chain (I : Nat → Option Nat) (a b : Nat) : Prop :=
  Relation.ReflTransGen (fun x y => I x = some y) a b

/-- `b` is met when the predecessors `par` are followed from `a`. -/
def par_chain (C : dom_ctx) (a b : Nat) : Prop :=
  Relation.ReflTransGen (fun x y => C.V x ∧ x ≠ C.root ∧ C.par x = y) a b

/-- A block counts as already processed when it is the root or has an
immediate dominator assigned (`ir_util.cpp:271`). -/
def processed (C : dom_ctx) (I : Nat → Option Nat) (x : Nat) : Prop :=
  x = C.root ∨ I x ≠ none

/-- `m` is the meet of the processed predecessors of `v`: the first block common
to their immediate-dominator chains. -/
def is_meet (C : dom_ctx) (I : Nat → Option Nat) (v m : Nat) : Prop :=
  (∀ p ∈ C.preds v, processed C I p → idom_chain I p m) ∧
  ∀ c, (∀ p ∈ C.preds v, processed C I p → idom_chain I p c) → idom_chain I m c

/-- There is a path from `a` to `b` along successor edges none of whose blocks
after `a` is `d`. -/
def avoiding (C : dom_ctx) (d a b : Nat) : Prop :=
  Relation.ReflTransGen (fun x y => y ∈ C.succs x ∧ y ≠ d) a b

/-- `d` dominates `b`: no path from the root to `b` avoids `d`. -/
def ctx_dominates (C : dom_ctx) (d b : Nat) : Prop :=
  d = C.root ∨ ¬ avoiding C d C.root b

/-- The immediate dominators assigned so far form a tree towards the root:
assigned blocks are visited non-root blocks, their immediate dominator is
processed, has a larger postorder number and lies on the `par` chain. -/
structure tree_ok (C : dom_ctx) (I : Nat → Option Nat) : Prop where
  assigned : ∀ v t, I v = some t →
    C.V v ∧ v ≠ C.root ∧ C.V t ∧ processed C I t ∧ C.po v < C.po t
  par_proc : ∀ v t, I v = some t → processed C I (C.par v)
  on_par : ∀ v t, I v = some t → par_chain C (C.par v) t
  dom_above : ∀ v t, I v = some t → ∀ d, d ≠ v → ctx_dominates C d v → idom_chain I t d

/-- The invariant inside a pass, `f` blocks (those with postorder number below
`f`) still to be processed. -/
structure pass_ok (C : dom_ctx) (I : Nat → Option Nat) (f : Nat) : Prop where
  done : ∀ v, C.V v → v ≠ C.root → f ≤ C.po v → I v ≠ none
  on_par_chain : ∀ v t, I v = some t →
    idom_chain I (C.par v) t ∨ (C.po v < f ∧ f ≤ C.po t)
  below_meet : ∀ v t c, I v = some t →
    (∀ p ∈ C.preds v, processed C I p → idom_chain I p c) → idom_chain I t c

/-- One plus the postorder number of an assigned immediate dominator, zero
when none is assigned. -/
def idom_rank (C : dom_ctx) : Option Nat → Nat
  | none => 0
  | some t => C.po t + 1

/-- The sum of `idom_rank` over the listed blocks; every change of the
iteration increases it. -/
def dom_potential (C : dom_ctx) (I : Nat → Option Nat) : List Nat → Nat
  | [] => 0
  | v :: rest => idom_rank C (I v) + dom_potential C I rest

/-! ## Dominator analysis: the program states -/

/-- The immediate dominators stored in a state. -/
def util_state.idoms (s : util_state) : Nat → Option Nat := fun v => (s.util v).idom

/-- The context `C` describes the graph `ir` and the postorder numbers of the
state `s`. -/
structure ctx_of (C : dom_ctx) (ir : ir_t) (s : util_state) : Prop where
  root : C.root = ir.root
  preds : C.preds = ir.inputs
  succs : C.succs = ir.outputs
  po : ∀ v, C.V v → (s.util v).postorder_i = some (C.po v)
  size : s.postorder.length = C.N
  nth : ∀ i v, s.postorder[i]? = some v ↔ C.V v ∧ C.po v = i
  last : C.po C.root + 1 = C.N

/-- `n` is the first block common to the immediate-dominator chains of the
processed blocks of `L`. -/
def meet_of (C : dom_ctx) (I : Nat → Option Nat) (L : List Nat) (n : Nat) : Prop :=
  (∀ p ∈ L, processed C I p → idom_chain I p n) ∧
  ∀ c, (∀ p ∈ L, processed C I p → idom_chain I p c) → idom_chain I n c

/-- What the predecessor loop has in `new_idom` after the predecessors `L`. -/
def new_idom_ok (C : dom_ctx) (I : Nat → Option Nat) (L : List Nat) : Option Nat → Prop
  | none => ∀ p ∈ L, ¬ processed C I p
  | some n => C.V n ∧ processed C I n ∧ meet_of C I L n

/-- State `t` differs from state `s` at most in the `idom` fields. -/
def idom_frame (s t : util_state) : Prop :=
  t.postorder = s.postorder ∧ t.preorder = s.preorder ∧ t.loop_headers = s.loop_headers ∧
    t.irreducible = s.irreducible ∧
    ∀ v, t.util v = { s.util v with idom := (t.util v).idom }

/-- What a completed order analysis leaves: the traversal invariant, every
visited block finished, and the root finished last. -/
def order_done (ir : ir_t) (t : util_state) : Prop :=
  order_inv ir t ∧ (∀ v, (t.util v).preorder_i ≠ none → (t.util v).postorder_i ≠ none) ∧
    (t.util ir.root).postorder_i ≠ none ∧ ∃ l, t.postorder = l ++ [ir.root]

/-- The blocks `l` continue a path that stands at `a` to a path that ends in
`b`, each block a successor of the one before it. -/
def ir_t.is_path (ir : ir_t) : Nat → List Nat → Nat → Prop
  | a, [], b => a = b
  | a, x :: rest, b => x ∈ ir.outputs a ∧ ir.is_path x rest b

/-- Block `d` dominates block `b`: every path from the root to `b` passes
through `d` (spec, glossary "Dominator"). -/
def ir_t.dominates (ir : ir_t) (d b : Nat) : Prop :=
  ∀ l, ir.is_path ir.root l b → d ∈ ir.root :: l

end Nesfab

namespace Nesfab

/-! ## Relating the two traversals -/

/-- Two states hold the same order analysis results: the same `preorder` and
`postorder` sequences and the same `preorder_i` / `postorder_i` in every block. -/
def same_order (s t : util_state) : Prop :=
  s.preorder = t.preorder ∧ s.postorder = t.postorder ∧
  ∀ v, (s.util v).preorder_i = (t.util v).preorder_i ∧
    (s.util v).postorder_i = (t.util v).postorder_i

/-- The recursive call `visitL` of the loop pass, whenever it returns, leaves
the order results that the recursive call `visitO` of the order pass leaves. -/
def visit_sim (visitL : util_state → Nat → outcome (util_state × Option Nat))
    (visitO : util_state → Nat → Option util_state) : Prop :=
  ∀ (s s' : util_state) (w : Nat) (t : util_state) (r : Option Nat), same_order s s' →
    visitL s w = .ok (t, r) → ∃ t', visitO s' w = some t' ∧ same_order t t'

/-- The edge invariant `ir_t.linked` as a check over the blocks of the pool. -/
def ir_t.linked_check (ir : ir_t) : Prop :=
  (∀ h < ir.cfg_size, ∀ i < (ir.cfg h).output_vec.length,
    (ir.cfg ((ir.cfg h).output_vec.getD i ⟨0, 0⟩).node).input_vec[
      ((ir.cfg h).output_vec.getD i ⟨0, 0⟩).index]? = some ⟨h, i⟩) ∧
  (∀ h < ir.cfg_size, ∀ i < (ir.cfg h).input_vec.length,
    (ir.cfg ((ir.cfg h).input_vec.getD i ⟨0, 0⟩).node).output_vec[
      ((ir.cfg h).input_vec.getD i ⟨0, 0⟩).index]? = some ⟨h, i⟩)

instance (ir : ir_t) : Decidable ir.linked_check := by
  unfold ir_t.linked_check; infer_instance

end Nesfab

namespace Nesfab

/-! ## Queries and closing assertions -/

/-- The two assertions that close `build_order` and `build_loops_and_order`
(`ir_util.cpp:53-54`, `206-207`). -/
def order_asserts (ir : ir_t) (t : util_state) : Bool :=
  (t.preorder.isEmpty || t.preorder.head? == some ir.root) &&
  (t.postorder.isEmpty || t.postorder.getLast? == some ir.root)

/-- Modelled from the spec: `cfg_node_t::dominates` is declared in `ir.hpp:222`
and its body is in the absent `ir.cpp`. Spec section 4.3: `dominates(a, b)` holds
iff `a == b` or `a` is met when immediate dominators are followed from `b`.
`steps` bounds the walk, `none` when it is used up. -/
def cfg_node_t.dominates (s : util_state) : Nat → Nat → Nat → Option Bool
  | 0, _, _ => none
  | steps + 1, a, b =>
    if a = b then some true
    else
      match (s.util b).idom with
      | none => some false
      | some d => cfg_node_t.dominates s steps a d

/-! ## Re-entry edges and the structural limit -/

/-- Successor edge `e` is a re-entry edge in state `s` (`ir_util.cpp:116-137`):
its target is finished, the target has an immediate loop header, and that
header is finished too. -/
def reentry_edge (s : util_state) (e : cfg_reverse_edge_t) : Prop :=
  (s.util e.node).preorder_i ≠ none ∧ (s.util e.node).postorder_i ≠ none ∧
  ∃ header, (s.util e.node).iloop_header = some header ∧ (s.util header).postorder_i ≠ none

/-- The structural-limit tests of `ir_util.cpp:143-146` for successor edge
number `i` whose position in the predecessor list of its target is `e.index`:
which test fails, with its message. -/
def too_many (lay : util_layout) (i : Nat) (e : cfg_reverse_edge_t) (msg : String) : Prop :=
  (lay.reentry_out_bits ≤ i ∧ msg = "CFG node has too many outputs.") ∨
  (i < lay.reentry_out_bits ∧ lay.reentry_in_bits ≤ e.index ∧
    msg = "CFG node has too many inputs.")

/-- Message `msg` belongs to a successor edge of the graph that fails a
structural-limit test and is a re-entry edge in some analysis state `st` (the
state is not tied to the run). -/
def limit_exceeded (lay : util_layout) (ir : ir_t) (msg : String) : Prop :=
  ∃ (node i : Nat) (e : cfg_reverse_edge_t) (st : util_state),
    (ir.cfg node).output_vec[i]? = some e ∧ reentry_edge st e ∧ too_many lay i e msg

/-! ## One iteration of the header weaving -/

/-- One iteration of the `while` loop of `_tag_loop_header`
(`ir_util.cpp:71-96`), or the store of line 98 when the loop condition fails:
the state left, and the `node` and `header` with which the loop goes on, `none`
when the function returns. -/
def tag_loop_header_iter (s : util_state) (node header : Nat) :
    outcome (util_state × Option (Nat × Nat)) :=
  match (s.util node).iloop_header with
  | none => .ok (s.set_util node { s.util node with iloop_header := some header }, none)
  | some iloop_header =>
    if iloop_header = header then .ok (s, none)
    else
      let header_u := s.util header
      let iloop_header_u := s.util iloop_header
      if ¬ (iloop_header_u.preorder_i ≠ none ∧ iloop_header_u.postorder_i = none) then
        .assert_fail
      else if header_u.preorder_i = none then .assert_fail
      else if header_u.postorder_i ≠ none ∧
          order_lt iloop_header_u.preorder_i header_u.preorder_i = true then
        .ok (s.set_util node { s.util node with iloop_header := some header },
          some (header, iloop_header))
      else .ok (s, some (iloop_header, header))

/-- The `while` loop of `_tag_loop_header` as the repetition of
`tag_loop_header_iter`. -/
def tag_loop_header_iterate : Nat → util_state → Nat → Nat → outcome util_state
  | 0 => fun _ _ _ => .out_of_fuel
  | steps + 1 => fun s node header =>
    match tag_loop_header_iter s node header with
    | .ok (s1, none) => .ok s1
    | .ok (s1, some (node1, header1)) => tag_loop_header_iterate steps s1 node1 header1
    | .error msg => .error msg
    | .assert_fail => .assert_fail
    | .out_of_fuel => .out_of_fuel

/-! ## Postorder numbers along the edges -/

/-- The invariant of the traversal for the successor edges of finished blocks:
a successor `w` of a finished block `v` either finished before `v`, or was
visited no later than `v` and does not finish before it (it is `v` itself or is
still on the DFS path when `v` finishes). -/
def edge_inv (ir : ir_t) (s : util_state) : Prop :=
  ∀ (v j : Nat), (s.util v).postorder_i = some j → ∀ w ∈ ir.outputs v,
    (∃ i, (s.util w).postorder_i = some i ∧ i < j) ∨
    (∃ a b, (s.util w).preorder_i = some a ∧ (s.util v).preorder_i = some b ∧ a ≤ b ∧
      ∀ i, (s.util w).postorder_i = some i → j ≤ i)

end Nesfab

namespace Nesfab

/-! ## Concrete graphs used as test scenarios -/

/-- The analysis state before any pass has run. -/
def util_state.init : util_state :=
  { cfg_util_pool := fun _ => ⟨none, none, none, none, false, 0, 0⟩
    postorder := []
    preorder := []
    loop_headers := []
    irreducible := fun _ => false }

/-- The diamond `root(0) → A(1)`, `root → B(2)`, `A → exit(3)`, `B → exit`, with
one more block `4 → exit` that no path from the root reaches. -/
def diamond_ir : ir_t :=
  { cfg_pool :=
      [ ⟨[], [⟨1, 0⟩, ⟨2, 0⟩]⟩,
        ⟨[⟨0, 0⟩], [⟨3, 0⟩]⟩,
        ⟨[⟨0, 1⟩], [⟨3, 1⟩]⟩,
        ⟨[⟨1, 0⟩, ⟨2, 0⟩, ⟨4, 0⟩], []⟩,
        ⟨[], [⟨3, 2⟩]⟩ ]
    root := 0 }

/-- The diamond of four blocks `root(0) → A(1)`, `root → B(2)`, `A → exit(3)`,
`B → exit`. -/
def diamond4_ir : ir_t :=
  { cfg_pool :=
      [ ⟨[], [⟨1, 0⟩, ⟨2, 0⟩]⟩,
        ⟨[⟨0, 0⟩], [⟨3, 0⟩]⟩,
        ⟨[⟨0, 1⟩], [⟨3, 1⟩]⟩,
        ⟨[⟨1, 0⟩, ⟨2, 0⟩], []⟩ ]
    root := 0 }

/-- A graph whose only block is block `0`, holding the listed nodes in list
order (node `v` is the entry number `v`). -/
def sched_block (nodes : List sched_node_t) (last_daisy : Option Nat) : sched_ir_t :=
  { ssa := fun v => nodes.getD v ⟨false, 1, [], [], false, none⟩
    ssa_list := fun c => if c = 0 then List.range nodes.length else []
    last_daisy := fun c => if c = 0 then last_daisy else none }

/-- A block of two nodes: node `0` is an ordinary instruction without inputs,
node `1` is a phi that has node `0` as input. -/
def phi_block : sched_ir_t :=
  sched_block
    [ ⟨false, 0, [], [1], false, none⟩,
      ⟨true, 0, [some 0], [], false, some 0⟩ ]
    none

/-- A block of six nodes: `0` a phi fed from another block, `1` uses `0` and a
constant, `2` and `3` form the daisy chain (`3` last), `2` uses `1`, `4` uses
`2`, `3` uses `4`, `5` uses `4` and a constant. -/
def chain_block : sched_ir_t :=
  sched_block
    [ ⟨true, 0, [none], [1], false, none⟩,
      ⟨false, 0, [some 0, none], [2], false, some 0⟩,
      ⟨false, 0, [some 1], [4], true, some 1⟩,
      ⟨false, 0, [some 4], [], true, some 2⟩,
      ⟨false, 0, [some 2], [5, 3], false, some 3⟩,
      ⟨false, 0, [some 4, none], [], false, some 4⟩ ]
    (some 3)

/-- The bit widths used in the scenarios. -/
def layout64 : util_layout := ⟨64, 64⟩

/-- The loop `root(0) → header(1)`, `header → body(2)`, `header → exit(3)`,
`body → header`. -/
def loop_ir : ir_t :=
  { cfg_pool :=
      [ ⟨[], [⟨1, 0⟩]⟩,
        ⟨[⟨0, 0⟩, ⟨2, 0⟩], [⟨2, 0⟩, ⟨3, 0⟩]⟩,
        ⟨[⟨1, 0⟩], [⟨1, 1⟩]⟩,
        ⟨[⟨1, 1⟩], []⟩ ]
    root := 0 }

/-- The irreducible scenario `root(0) → X(1)`, `root → Y(2)`, `X → Y`, `Y → X`. -/
def irreducible_ir : ir_t :=
  { cfg_pool :=
      [ ⟨[], [⟨1, 0⟩, ⟨2, 0⟩]⟩,
        ⟨[⟨0, 0⟩, ⟨2, 0⟩], [⟨2, 1⟩]⟩,
        ⟨[⟨0, 1⟩, ⟨1, 0⟩], [⟨1, 1⟩]⟩ ]
    root := 0 }

/-- Two nested loops whose latch branches to both headers, the outer one first:
`root(0) → A(1)`, `A → B(2)`, `A → exit(4)`, `B → N(3)`, `N → A`, `N → B`. -/
def nested_ir : ir_t :=
  { cfg_pool :=
      [ ⟨[], [⟨1, 0⟩]⟩,
        ⟨[⟨0, 0⟩, ⟨3, 0⟩], [⟨2, 0⟩, ⟨4, 0⟩]⟩,
        ⟨[⟨1, 0⟩, ⟨3, 1⟩], [⟨3, 0⟩]⟩,
        ⟨[⟨2, 0⟩], [⟨1, 1⟩, ⟨2, 1⟩]⟩,
        ⟨[⟨1, 1⟩], []⟩ ]
    root := 0 }

/-- Two nested loops with a second entry into the inner body:
`root(0) → A(1)`, `root → C(3)`, `A → B(2)`, `B → C`, `C → B`, `C → A`. -/
def reentry_ir : ir_t :=
  { cfg_pool :=
      [ ⟨[], [⟨1, 0⟩, ⟨3, 0⟩]⟩,
        ⟨[⟨0, 0⟩, ⟨3, 1⟩], [⟨2, 0⟩]⟩,
        ⟨[⟨1, 0⟩, ⟨3, 0⟩], [⟨3, 1⟩]⟩,
        ⟨[⟨0, 1⟩, ⟨2, 0⟩], [⟨2, 1⟩, ⟨1, 1⟩]⟩ ]
    root := 0 }

/-- The analysis state of `reentry_ir` when the traversal of the first
successor of the root has returned: blocks `1`, `2`, `3` are finished, `2` is the
immediate loop header of `3` and `1` that of `2`. -/
def reentry_state : util_state :=
  match visit_loops_edge layout64 (_visit_loops layout64 reentry_ir 2 3) 2 0 0 ⟨1, 0⟩
      (push_preorder (loops_reset util_state.init) 0) with
  | .ok s => s
  | _ => util_state.init

/-- Two loops with the same latch: `root(0) → 1`, `1 → 2`, `2 → 1`, `2 → root`. -/
def two_loops_ir : ir_t :=
  { cfg_pool :=
      [ ⟨[⟨2, 1⟩], [⟨1, 0⟩]⟩,
        ⟨[⟨0, 0⟩, ⟨2, 0⟩], [⟨2, 0⟩]⟩,
        ⟨[⟨1, 0⟩], [⟨1, 1⟩, ⟨0, 0⟩]⟩ ]
    root := 0 }

/-- The analysis state in which `_tag_loop_header(2, 0)` is called during the
loop pass over `two_loops_ir`: the three blocks are
on the DFS path, block `1` is the immediate loop header of block `2`, and the
back edge `2 → root` has just made the root a loop header. -/
def weave_state : util_state :=
  { cfg_util_pool := fun h =>
      if h = 0 then ⟨some 0, none, none, none, true, 0, 0⟩
      else if h = 1 then ⟨some 1, none, none, none, true, 0, 0⟩
      else if h = 2 then ⟨some 2, none, none, some 1, false, 0, 0⟩
      else ⟨none, none, none, none, false, 0, 0⟩
    postorder := []
    preorder := [0, 1, 2]
    loop_headers := [1, 0]
    irreducible := fun _ => false }

end Nesfab

namespace Nesfab

/-! ## Integer constants in value references (`ir.hpp:22-62`) -/

/-- The width in bits of `uint_type`,
`std::common_type<std::uint64_t, std::uintptr_t>::type` (`ir.hpp:24`). -/
def uint_type_bits : Nat := 64

/-- Implicit int construction `ssa_value_t(std::uint32_t value)` (`ir.hpp:34`):
`((uint_type)value << 40) | 1`, the shift taken in the 64 bits of `uint_type`. -/
def ssa_value_t.of_uint32 (value : Nat) : ssa_value_t :=
  ⟨(((value % 2 ^ 32) <<< 40) % 2 ^ uint_type_bits) ||| 1⟩

/-- `ssa_value_t::whole` (`ir.hpp:49`): `value >> 40`, returned as
`std::uint32_t`. -/
def ssa_value_t.whole (v : ssa_value_t) : Nat := (v.value >>> 40) % 2 ^ 32

/-- `ssa_value_t::operator==` (`ir.hpp:56`): `value == o.value`. -/
def ssa_value_t.eq (v o : ssa_value_t) : Bool := v.value == o.value

/-! ## Cartridge header (`mapper.cpp`) -/

/-- `mapper_mirroring_t`, declared in the absent `mapper.hpp`: the three values
that `mapper.cpp` names (`mapper.cpp:64-66`). -/
inductive mapper_mirroring_t where
  | MIRROR_H
  | MIRROR_V
  | MIRROR_4
deriving DecidableEq, Repr

/-- `mapper_t`, declared in the absent `mapper.hpp`: the fields that
`mapper.cpp:10-42` initialises. `type` is the numeric value of the
`mapper_type_t` enumerator; the three counts are unsigned numbers. -/
structure mapper_t where
  type : Nat
  mirroring : mapper_mirroring_t
  num_32k_banks : Nat
  num_8k_chr_rom : Nat
  num_8k_chr_ram : Nat
deriving DecidableEq, Repr

/-- `mapper_t::nrom` (`mapper.cpp:8`); the value of the enumerator
`MAPPER_NROM` is a parameter. -/
def mapper_t.nrom (MAPPER_NROM : Nat) (mirroring : mapper_mirroring_t) : mapper_t :=
  { type := MAPPER_NROM
    mirroring := mirroring
    num_32k_banks := 1
    num_8k_chr_rom := 1
    num_8k_chr_ram := 0 }

/-- `mapper_t::bnrom` (`mapper.cpp:20`); the value of the enumerator
`MAPPER_BNROM` is a parameter. -/
def mapper_t.bnrom (MAPPER_BNROM : Nat) (mirroring : mapper_mirroring_t) (banks_32k : Nat) :
    outcome mapper_t :=
  if ¬ (mirroring ≠ mapper_mirroring_t.MIRROR_4) then .assert_fail
  else
    .ok
      { type := MAPPER_BNROM
        mirroring := mirroring
        num_32k_banks := banks_32k
        num_8k_chr_rom := 0
        num_8k_chr_ram := 1 }

/-- `mapper_t::gtrom` (`mapper.cpp:33`); the value of the enumerator
`MAPPER_GTROM` is a parameter. -/
def mapper_t.gtrom (MAPPER_GTROM : Nat) (banks_32k : Nat) : mapper_t :=
  { type := MAPPER_GTROM
    mirroring := mapper_mirroring_t.MIRROR_4
    num_32k_banks := banks_32k
    num_8k_chr_rom := 0
    num_8k_chr_ram := 2 }

/-- The functions that `write_ines_header` calls and that are defined in the
absent `mapper.hpp` and `builtin.hpp`, taken as parameters:
`mapper_t::num_16k_banks`, `builtin::popcount` and `builtin::rclz`. -/
structure mapper_env where
  num_16k_banks : mapper_t → Nat
  popcount : Nat → Nat
  rclz : Nat → Nat

/-- `write_ines_header` (`mapper.cpp:45`): the sixteen bytes `at[0..15]` it has
written when it returns. `unsigned` is 32 bits wide: `unsigned(mapper.type)`
and the product of line 96 are taken modulo `2 ^ 32`, and so is
`rclz(...) - 1`; a `std::uint8_t` keeps the low eight bits. The shift of line
100 overflows `int` for counts of 25 and more, where the model keeps the low 32
bits (such counts raise "CHR RAM is too large." two lines later). A thrown
`std::runtime_error` is `error`, a failed `assert` is `assert_fail`. -/
def write_ines_header (env : mapper_env) (mapper : mapper_t) : outcome (List Nat) :=
  let magic_header : List Nat := [0x4E, 0x45, 0x53, 0x1A]
  let at4 := env.num_16k_banks mapper % 256
  let at5 := mapper.num_8k_chr_rom % 256
  let type := mapper.type % 2 ^ 32
  let flags6 := (0 ||| ((type <<< 4) % 2 ^ 32)) % 256
  let flags6 :=
    match mapper.mirroring with
    | .MIRROR_H => flags6
    | .MIRROR_V => (flags6 ||| (1 <<< 0)) % 256
    | .MIRROR_4 => (flags6 ||| (1 <<< 3)) % 256
  let flags7 := (0b00001000 ||| (type &&& 0b11110000)) % 256
  let flags8 := (0 ||| ((type >>> 8) &&& 0b1111)) % 256
  if (env.num_16k_banks mapper >>> 8) > 0b1111 then .error "Too many ROM banks."
  else if (mapper.num_8k_chr_rom >>> 8) > 0b1111 then .error "Too many CHR RAM banks."
  else
    let hi := (0 ||| ((env.num_16k_banks mapper >>> 8) &&& 0b1111)) % 256
    let hi := (hi ||| ((mapper.num_8k_chr_rom >>> 4) &&& 0b11110000)) % 256
    let chr_ram_chunks := (mapper.num_8k_chr_ram * 0x2000) % 2 ^ 32 / 64
    if chr_ram_chunks ≠ 0 ∧ env.popcount chr_ram_chunks ≠ 1 then
      .error "Invalid CHR RAM size."
    else
      let chr_shift :=
        if chr_ram_chunks ≠ 0 then (env.rclz chr_ram_chunks + (2 ^ 32 - 1)) % 2 ^ 32 else 0
      if ¬ (chr_ram_chunks = 0 ∨
          (64 <<< chr_shift) % 2 ^ 32 = (mapper.num_8k_chr_ram * 0x2000) % 2 ^ 32) then
        .assert_fail
      else if chr_shift > 0b1111 then .error "CHR RAM is too large."
      else
        .ok (magic_header ++
          [at4, at5, flags6, flags7, flags8, hi, 0, chr_shift &&& 0b1111, 0, 0, 0, 0])

/-- The number of one bits of a number, by its binary digits. -/
def popcount_bits : Nat → Nat → Nat
  | 0, _ => 0
  | fuel + 1, x => if x = 0 then 0 else x % 2 + popcount_bits fuel (x / 2)

/-- The position of the highest one bit of a number, counted from one (the
width less the leading zeros), zero for zero. -/
def rclz_bits : Nat → Nat → Nat
  | 0, _ => 0
  | fuel + 1, x => if x = 0 then 0 else 1 + rclz_bits fuel (x / 2)

/-- The three parameter functions with their usual meaning: twice the number
of 32k banks, the number of one bits of a 32-bit number, and the position of the
highest one bit of a 32-bit number counted from one. -/
def usual_env : mapper_env :=
  { num_16k_banks := fun m => m.num_32k_banks * 2
    popcount := fun x => popcount_bits 32 x
    rclz := fun x => rclz_bits 32 x }

end Nesfab

namespace Nesfab

/-! ## Edge symmetry (C1) -/

theorem count_eq_one_of_unique_index {α : Type} [DecidableEq α] (a : α) :
    ∀ (l : List α) (j : Nat), l[j]? = some a → (∀ k, l[k]? = some a → k = j) →
      l.count a = 1 := by
  intro l
  induction l with
  | nil => intro j h; simp at h
  | cons x xs ih =>
    intro j hj huniq
    cases j with
    | zero =>
      simp at hj
      subst hj
      have hnot : x ∉ xs := by
        intro hmem
        obtain ⟨k, hk⟩ := List.getElem?_of_mem hmem
        have := huniq (k + 1) (by simpa using hk)
        omega
      simp [List.count_eq_zero_of_not_mem hnot]
    | succ j0 =>
      have hx : x ≠ a := by
        intro hxa
        have := huniq 0 (by simp [hxa])
        omega
      have hxs : xs.count a = 1 := by
        apply ih j0 (by simpa using hj)
        intro k hk
        have := huniq (k + 1) (by simpa using hk)
        omega
      simp [List.count_cons, hxs, hx]

theorem linked_edge_symmetry (g : ssa_graph) (h : linked g) : edge_symmetry g := by
  intro n i e he hp
  have hA := h.1 n i e he hp
  simp only [ssa_forward_edge_t.output, hp, if_true] at hA
  apply count_eq_one_of_unique_index _ _ e.index hA
  intro k hk
  have hB := (h.2 _ _ _ hk).1
  simp only [ssa_reverse_edge_t.input] at hB
  rw [he] at hB
  injection hB with hB
  rw [hB]

theorem linked_fresh : linked ssa_graph.fresh := by
  constructor
  · intro n i e he; simp [ssa_graph.fresh] at he
  · intro p j r hr; simp [ssa_graph.fresh] at hr

theorem ssa_value_eta (v : ssa_value_t) : (⟨v.ptr⟩ : ssa_value_t) = v := rfl

theorem getElem?_append_single {α : Type} {l : List α} {x a : α} {k : Nat}
    (h : (l ++ [x])[k]? = some a) : l[k]? = some a ∨ (k = l.length ∧ a = x) := by
  rw [List.getElem?_append] at h
  split_ifs at h with hk
  · exact Or.inl h
  · right
    have hk' : k = l.length := by
      by_contra hc
      rw [List.getElem?_eq_none (by simp; omega)] at h
      exact absurd h (by simp)
    subst hk'
    simp at h
    exact ⟨rfl, h.symm⟩

theorem getElem?_append_mono {α : Type} {l l' : List α} {a : α} {k : Nat}
    (h : l[k]? = some a) : (l ++ l')[k]? = some a := by
  have hlt : k < l.length := by
    by_contra hc
    rw [List.getElem?_eq_none (by omega)] at h
    exact absurd h (by simp)
  rw [List.getElem?_append_left hlt]; exact h

theorem update_append_get {α : Type} {f : Nat → List α} {n m k : Nat} {x a : α}
    (h : (Function.update f n (f n ++ [x]) m)[k]? = some a) :
    (f m)[k]? = some a ∨ (m = n ∧ k = (f n).length ∧ a = x) := by
  by_cases hm : m = n
  · subst hm
    rw [Function.update_same] at h
    rcases getElem?_append_single h with h1 | ⟨h1, h2⟩
    · exact Or.inl h1
    · exact Or.inr ⟨rfl, h1, h2⟩
  · rw [Function.update_noteq hm] at h
    exact Or.inl h

theorem update_append_mono {α : Type} {f : Nat → List α} {n m k : Nat} {l : List α} {a : α}
    (h : (f m)[k]? = some a) : (Function.update f n (f n ++ l) m)[k]? = some a := by
  by_cases hm : m = n
  · subst hm
    rw [Function.update_same]
    exact getElem?_append_mono h
  · rw [Function.update_noteq hm]; exact h

theorem update_append_last {α : Type} {f : Nat → List α} {n : Nat} {x : α} :
    (Function.update f n (f n ++ [x]) n)[(f n).length]? = some x := by
  rw [Function.update_same]; simp

theorem linked_append_input (g : ssa_graph) (n : Nat) (v : ssa_value_t) (h : linked g) :
    linked (link_append_input g n v) := by
  obtain ⟨hA, hB⟩ := h
  unfold link_append_input
  cases hv : v.is_ptr
  · simp only [Bool.false_eq_true, if_false]
    constructor
    · intro m k e he hp
      simp only [ssa_forward_edge_t.output, hp, if_true]
      rcases update_append_get he with h1 | ⟨_, _, h3⟩
      · simpa only [ssa_forward_edge_t.output, hp, if_true] using hA m k e h1 hp
      · subst h3
        simp [hv] at hp
    · intro p j r hr
      have := hB _ _ _ hr
      exact ⟨update_append_mono this.1, this.2⟩
  · simp only [if_true]
    constructor
    · intro m k e he hp
      simp only [ssa_forward_edge_t.output, hp, if_true]
      rcases update_append_get he with h1 | ⟨h1, h2, h3⟩
      · have := hA m k e h1 hp
        simp only [ssa_forward_edge_t.output, hp, if_true] at this
        exact update_append_mono this
      · subst h1 h2 h3
        exact update_append_last
    · intro p j r hr
      simp only [ssa_reverse_edge_t.input]
      rcases update_append_get hr with h1 | ⟨h1, h2, h3⟩
      · have := hB _ _ _ h1
        exact ⟨update_append_mono this.1, this.2⟩
      · subst h1 h2 h3
        exact ⟨update_append_last, hv⟩

theorem lt_length_of_getElem? {α : Type} {l : List α} {k : Nat} {a : α}
    (h : l[k]? = some a) : k < l.length := by
  by_contra hc
  rw [List.getElem?_eq_none (by omega)] at h
  exact absurd h (by simp)

theorem length_set_forward_index (l : List ssa_forward_edge_t) (k j : Nat) :
    (set_forward_index l k j).length = l.length := by
  unfold set_forward_index
  split <;> simp

theorem getElem?_set_forward_index (l : List ssa_forward_edge_t) (k j k' : Nat) :
    (set_forward_index l k j)[k']? =
      if k' = k then (l[k]?).map (fun f => { f with index := j }) else l[k']? := by
  unfold set_forward_index
  split
  next f hf =>
    rw [List.getElem?_set]
    have := lt_length_of_getElem? hf
    by_cases hk : k = k'
    · subst hk; simp [hf, this]
    · have hk2 : ¬ k' = k := fun h => hk h.symm
      simp [hk, hk2]
  next hf =>
    by_cases hk : k' = k
    · subst hk; simp [hf]
    · simp [hk]

/-- The forward and reverse vectors after `remove_inputs_output` on a producer
input: the relocated edge's forward half, and the swap-removed output vector. -/
theorem remove_inputs_output_ptr (g : ssa_graph) (n i : Nat) (e : ssa_forward_edge_t)
    (last : ssa_reverse_edge_t) (he : (g.input_vec n)[i]? = some e)
    (hp : e.node.is_ptr = true) (hl : (g.output_vec e.node.ptr).getLast? = some last) :
    remove_inputs_output g n i =
      { input_vec := Function.update g.input_vec last.node
          (set_forward_index (g.input_vec last.node) last.index e.index)
        output_vec := Function.update g.output_vec e.node.ptr
          (((g.output_vec e.node.ptr).set e.index last).dropLast) } := by
  unfold remove_inputs_output
  simp only [he, hp, if_true, hl]

theorem remove_inputs_output_const (g : ssa_graph) (n i : Nat) (e : ssa_forward_edge_t)
    (he : (g.input_vec n)[i]? = some e) (hp : e.node.is_ptr = false) :
    remove_inputs_output g n i = g := by
  unfold remove_inputs_output
  simp only [he, hp, Bool.false_eq_true, if_false]

theorem remove_inputs_output_length (g : ssa_graph) (n i m : Nat) :
    ((remove_inputs_output g n i).input_vec m).length = (g.input_vec m).length := by
  cases he : (g.input_vec n)[i]? with
  | none => simp only [remove_inputs_output, he]
  | some e =>
    cases hp : e.node.is_ptr
    · rw [remove_inputs_output_const g n i e he hp]
    · cases hl : (g.output_vec e.node.ptr).getLast? with
      | none => simp only [remove_inputs_output, he, hp, if_true, hl]
      | some last =>
        rw [remove_inputs_output_ptr g n i e last he hp hl]
        simp only [Function.update_apply]
        split
        next h => rw [length_set_forward_index, h]
        next => rfl

theorem linked_except_remove_inputs_output (g : ssa_graph) (n i : Nat) (h : linked g)
    (hi : i < (g.input_vec n).length) : linked_except n i (remove_inputs_output g n i) := by
  obtain ⟨hA, hB⟩ := h
  obtain ⟨e, he⟩ : ∃ e, (g.input_vec n)[i]? = some e := ⟨_, List.getElem?_eq_getElem hi⟩
  cases hp : e.node.is_ptr
  · rw [remove_inputs_output_const g n i e he hp]
    refine ⟨fun m k e' _ he' hp' => hA m k e' he' hp', fun p j r hr => ?_⟩
    have := hB p j r hr
    refine ⟨?_, this⟩
    rintro rfl
    simp only [ssa_reverse_edge_t.input] at this
    rw [he] at this
    have h1 := this.1
    injection h1 with h1
    rw [h1] at hp
    rw [hp] at this
    exact absurd this.2 (by simp)
  · have hAe := hA n i e he hp
    simp only [ssa_forward_edge_t.output, hp, if_true] at hAe
    have hAlt := lt_length_of_getElem? hAe
    set L := (g.output_vec e.node.ptr).length with hL
    obtain ⟨last, hlast⟩ : ∃ last, (g.output_vec e.node.ptr)[L - 1]? = some last :=
      ⟨_, List.getElem?_eq_getElem (by omega)⟩
    have hgl : (g.output_vec e.node.ptr).getLast? = some last := by
      rw [List.getLast?_eq_getElem?]; exact hlast
    rw [remove_inputs_output_ptr g n i e last he hp hgl]
    have hBl := (hB _ _ _ hlast).1
    simp only [ssa_reverse_edge_t.input] at hBl
    -- characterisation of the new vectors
    have hin : ∀ m k, (Function.update g.input_vec last.node
          (set_forward_index (g.input_vec last.node) last.index e.index) m)[k]? =
        if m = last.node ∧ k = last.index then some ⟨⟨e.node.ptr⟩, e.index⟩
        else (g.input_vec m)[k]? := by
      intro m k
      by_cases hm : m = last.node
      · subst hm
        rw [Function.update_same, getElem?_set_forward_index]
        by_cases hk : k = last.index
        · subst hk; simp [hBl]
        · simp [hk]
      · rw [Function.update_noteq hm]; simp [hm]
    have hout : ∀ q j, (Function.update g.output_vec e.node.ptr
          (((g.output_vec e.node.ptr).set e.index last).dropLast) q)[j]? =
        if q = e.node.ptr then
          (if j < L - 1 then (if j = e.index then some last else (g.output_vec q)[j]?) else none)
        else (g.output_vec q)[j]? := by
      intro q j
      by_cases hq : q = e.node.ptr
      · subst hq
        rw [Function.update_same, List.getElem?_dropLast, List.length_set, List.getElem?_set]
        by_cases hj : j < L - 1
        · by_cases hje : j = e.index
          · subst hje; simp [hj, hAlt]
          · have : ¬ e.index = j := fun h => hje h.symm
            simp [hj, hje, this]
        · simp [hj]
      · rw [Function.update_noteq hq]; simp [hq]
    constructor
    · intro m k e' hne he' hp'
      simp only [ssa_forward_edge_t.output, hp', if_true]
      rw [hin] at he'
      rw [hout]
      by_cases hmk : m = last.node ∧ k = last.index
      · rw [if_pos hmk] at he'
        injection he' with he'
        subst he'
        obtain ⟨hm, hk⟩ := hmk
        subst hm hk
        have hlt : e.index < L - 1 := by
          by_contra hc
          have heq : e.index = L - 1 := by omega
          rw [heq, hlast] at hAe
          injection hAe with hAe
          apply hne
          rw [hAe]
        simp [ssa_value_t.ptr, hlt]
      · rw [if_neg hmk] at he'
        have h1 := hA m k e' he' hp'
        simp only [ssa_forward_edge_t.output, hp', if_true] at h1
        by_cases hq : e'.node.ptr = e.node.ptr
        · rw [if_pos hq]
          rw [hq] at h1
          have hlt' := lt_length_of_getElem? h1
          have hlt : e'.index < L - 1 := by
            by_contra hc
            have heq : e'.index = L - 1 := by omega
            rw [heq, hlast] at h1
            injection h1 with h1
            apply hmk
            rw [h1]; exact ⟨rfl, rfl⟩
          have hnee : e'.index ≠ e.index := by
            intro hc
            rw [hc, hAe] at h1
            injection h1 with h1
            apply hne
            injection h1 with h2 h3
            rw [h2, h3]
          rw [if_pos hlt, if_neg hnee, hq]; exact h1
        · rw [if_neg hq]; exact h1
    · intro q j r hr
      rw [hout] at hr
      simp only [ssa_reverse_edge_t.input]
      rw [hin]
      by_cases hq : q = e.node.ptr
      · rw [if_pos hq] at hr
        by_cases hj : j < L - 1
        · rw [if_pos hj] at hr
          by_cases hje : j = e.index
          · rw [if_pos hje] at hr
            injection hr with hr
            subst hr
            refine ⟨?_, ?_, ?_⟩
            · rintro hc
              rw [hc] at hBl
              simp only at hBl
              rw [he] at hBl
              injection hBl with hBl
              rw [hBl] at hje
              simp only at hje
              omega
            · simp [hq, hje]
            · rw [hq]; exact hp
          · rw [if_neg hje] at hr
            have h1 := hB _ _ _ hr
            simp only [ssa_reverse_edge_t.input] at h1
            refine ⟨?_, ?_, h1.2⟩
            · rintro hc
              rw [hc] at h1
              simp only at h1
              rw [he] at h1
              have h2 := h1.1
              injection h2 with h2
              rw [h2] at hje
              exact hje rfl
            · have hne : ¬ (r.node = last.node ∧ r.index = last.index) := by
                rintro ⟨h2, h3⟩
                rw [h2, h3, hBl] at h1
                have h4 := h1.1
                injection h4 with h4
                injection h4 with h5 h6
                omega
              rw [if_neg hne]; exact h1.1
        · rw [if_neg hj] at hr
          exact absurd hr (by simp)
      · rw [if_neg hq] at hr
        have h1 := hB _ _ _ hr
        simp only [ssa_reverse_edge_t.input] at h1
        refine ⟨?_, ?_, h1.2⟩
        · rintro hc
          rw [hc] at h1
          simp only at h1
          rw [he] at h1
          have h2 := h1.1
          injection h2 with h2
          apply hq
          rw [h2]; rfl
        · have hne : ¬ (r.node = last.node ∧ r.index = last.index) := by
            rintro ⟨h2, h3⟩
            rw [h2, h3, hBl] at h1
            have h4 := h1.1
            injection h4 with h4
            injection h4 with h5 h6
            injection h5 with h7
            exact hq h7.symm
          rw [if_neg hne]; exact h1.1

theorem getElem?_update_set {α : Type} (f : Nat → List α) (n i : Nat) (x : α)
    (hi : i < (f n).length) (m k : Nat) :
    (Function.update f n ((f n).set i x) m)[k]? =
      if m = n ∧ k = i then some x else (f m)[k]? := by
  by_cases hm : m = n
  · subst hm
    rw [Function.update_same, List.getElem?_set]
    by_cases hk : i = k
    · subst hk; simp [hi]
    · have : ¬ k = i := fun h => hk h.symm
      simp [hk, this]
  · rw [Function.update_noteq hm]; simp [hm]

theorem linked_attach (g : ssa_graph) (n i : Nat) (v : ssa_value_t)
    (h : linked_except n i g) (hi : i < (g.input_vec n).length) :
    linked
      (if v.is_ptr then
        { input_vec := Function.update g.input_vec n
            ((g.input_vec n).set i ⟨v, (g.output_vec v.ptr).length⟩)
          output_vec := Function.update g.output_vec v.ptr (g.output_vec v.ptr ++ [⟨n, i⟩]) }
      else
        { g with input_vec := Function.update g.input_vec n ((g.input_vec n).set i ⟨v, 0⟩) }) := by
  obtain ⟨hA, hB⟩ := h
  cases hv : v.is_ptr
  · simp only [Bool.false_eq_true, if_false]
    constructor
    · intro m k e he hp
      rw [getElem?_update_set _ _ _ _ hi] at he
      simp only [ssa_forward_edge_t.output, hp, if_true]
      by_cases hmk : m = n ∧ k = i
      · rw [if_pos hmk] at he
        injection he with he
        subst he
        simp [hv] at hp
      · rw [if_neg hmk] at he
        have hne : (m, k) ≠ (n, i) := by
          intro hc; injection hc with h1 h2; exact hmk ⟨h1, h2⟩
        simpa only [ssa_forward_edge_t.output, hp, if_true] using hA m k e hne he hp
    · intro p j r hr
      obtain ⟨h1, h2, h3⟩ := hB p j r hr
      refine ⟨?_, h3⟩
      simp only [ssa_reverse_edge_t.input] at h2 ⊢
      rw [getElem?_update_set _ _ _ _ hi]
      have hne : ¬ (r.node = n ∧ r.index = i) := by
        rintro ⟨h4, h5⟩
        apply h1
        cases r; simp only at h4 h5; rw [h4, h5]
      rw [if_neg hne]; exact h2
  · simp only [if_true]
    constructor
    · intro m k e he hp
      rw [getElem?_update_set _ _ _ _ hi] at he
      simp only [ssa_forward_edge_t.output, hp, if_true]
      by_cases hmk : m = n ∧ k = i
      · rw [if_pos hmk] at he
        injection he with he
        subst he
        obtain ⟨h1, h2⟩ := hmk
        subst h1 h2
        exact update_append_last
      · rw [if_neg hmk] at he
        have hne : (m, k) ≠ (n, i) := by
          intro hc; injection hc with h1 h2; exact hmk ⟨h1, h2⟩
        have := hA m k e hne he hp
        simp only [ssa_forward_edge_t.output, hp, if_true] at this
        exact update_append_mono this
    · intro p j r hr
      simp only [ssa_reverse_edge_t.input]
      rw [getElem?_update_set _ _ _ _ hi]
      rcases update_append_get hr with h0 | ⟨h1, h2, h3⟩
      · obtain ⟨h1, h2, h3⟩ := hB p j r h0
        refine ⟨?_, h3⟩
        simp only [ssa_reverse_edge_t.input] at h2
        have hne : ¬ (r.node = n ∧ r.index = i) := by
          rintro ⟨h4, h5⟩
          apply h1
          cases r; simp only at h4 h5; rw [h4, h5]
        rw [if_neg hne]; exact h2
      · subst h1 h2 h3
        simp [ssa_value_eta, hv]

theorem linked_change_input (g g1 : ssa_graph) (n i : Nat) (v : ssa_value_t) (h : linked g)
    (hr : link_change_input g n i v = some g1) : linked g1 := by
  unfold link_change_input at hr
  split_ifs at hr with hi hv
  · injection hr with hr
    subst hr
    have h1 := linked_except_remove_inputs_output g n i h hi
    have h2 := linked_attach _ n i v h1 (by rw [remove_inputs_output_length]; exact hi)
    simpa only [hv, if_true] using h2
  · injection hr with hr
    subst hr
    have h1 := linked_except_remove_inputs_output g n i h hi
    have h2 := linked_attach _ n i v h1 (by rw [remove_inputs_output_length]; exact hi)
    simpa only [hv] using h2

theorem shift_down_succ (n i t : Nat) (r : ssa_reverse_edge_t) (h : r ≠ ⟨n, t⟩) :
    shift_down n i (t + 1) r = shift_down n i t r := by
  unfold shift_down
  by_cases h1 : r.node = n ∧ i < r.index ∧ r.index < t
  · have h2 : r.node = n ∧ i < r.index ∧ r.index < t + 1 := ⟨h1.1, h1.2.1, by omega⟩
    rw [if_pos h1, if_pos h2]
  · have h2 : ¬ (r.node = n ∧ i < r.index ∧ r.index < t + 1) := by
      rintro ⟨h3, h4, h5⟩
      by_cases h6 : r.index = t
      · apply h; cases r; simp only at h3 h6; rw [h3, h6]
      · exact h1 ⟨h3, h4, by omega⟩
    rw [if_neg h1, if_neg h2]

/-- The decrement loop of `link_remove_input`, run over the inputs from position
`t` on, turns a reverse-edge table already shifted below `t` into the fully
shifted one. -/
theorem reindex_outputs_spec (g : ssa_graph) (n i : Nat) (h : linked_except n i g) :
    ∀ (l : List (Nat × ssa_forward_edge_t)) (t : Nat) (out : Nat → List ssa_reverse_edge_t),
      i < t → l = ((g.input_vec n).enum).drop t →
      (∀ (q j : Nat), (out q)[j]? = ((g.output_vec q)[j]?).map (shift_down n i t)) →
      ∀ (q j : Nat), (reindex_outputs n out l q)[j]? =
        ((g.output_vec q)[j]?).map (shift_down n i (g.input_vec n).length) := by
  obtain ⟨hA, hB⟩ := h
  intro l
  induction l with
  | nil =>
    intro t out _ hl hout q j
    simp only [reindex_outputs]
    rw [hout]
    have hlen : (g.input_vec n).length ≤ t := by
      have := congrArg List.length hl
      simp at this
      omega
    cases hr : (g.output_vec q)[j]? with
    | none => rfl
    | some r =>
      simp only [Option.map_some']
      congr 1
      obtain ⟨_, h2, _⟩ := hB q j r hr
      simp only [ssa_reverse_edge_t.input] at h2
      have hlt := lt_length_of_getElem? h2
      unfold shift_down
      by_cases hn : r.node = n
      · rw [hn] at hlt
        have e1 : (r.node = n ∧ i < r.index ∧ r.index < t) ↔
            (r.node = n ∧ i < r.index ∧ r.index < (g.input_vec n).length) := by
          constructor
          · rintro ⟨a, b, _⟩; exact ⟨a, b, hlt⟩
          · rintro ⟨a, b, _⟩; exact ⟨a, b, by omega⟩
        simp only [e1]
      · simp [hn]
  | cons x rest ih =>
    intro t out hit hl hout q j
    have hlen : t < (g.input_vec n).length := by
      have := congrArg List.length hl
      simp at this
      omega
    have hdrop := List.drop_eq_getElem_cons (l := (g.input_vec n).enum) (n := t)
      (by simpa using hlen)
    rw [hdrop] at hl
    injection hl with hx hrest
    have hx' : x = (t, (g.input_vec n)[t]) := by
      rw [hx]; simp [List.enum]
    obtain ⟨k, e⟩ := x
    injection hx' with hk he
    subst hk
    have het : (g.input_vec n)[k]? = some e := by
      rw [he]; exact List.getElem?_eq_getElem hlen
    simp only [reindex_outputs]
    have hne : (n, k) ≠ (n, i) := by
      intro hc; injection hc with _ h2; omega
    cases hp : e.node.is_ptr
    · simp only [Bool.false_eq_true, if_false]
      apply ih (k + 1) out (by omega) hrest
      intro q j
      rw [hout]
      cases hr : (g.output_vec q)[j]? with
      | none => rfl
      | some r =>
        simp only [Option.map_some']
        congr 1
        symm
        apply shift_down_succ
        rintro rfl
        obtain ⟨_, h2, h3⟩ := hB q j _ hr
        simp only [ssa_reverse_edge_t.input] at h2
        rw [het] at h2
        injection h2 with h2
        rw [h2] at hp
        rw [hp] at h3
        exact absurd h3 (by simp)
    · simp only [if_true]
      have hAe := hA n k e hne het hp
      simp only [ssa_forward_edge_t.output, hp, if_true] at hAe
      have hlt : e.index < (out e.node.ptr).length := by
        have := hout e.node.ptr e.index
        rw [hAe] at this
        exact lt_length_of_getElem? this
      apply ih (k + 1) _ (by omega) hrest
      intro q j
      rw [getElem?_update_set _ _ _ _ hlt]
      by_cases hqj : q = e.node.ptr ∧ j = e.index
      · obtain ⟨hq, hj⟩ := hqj
        subst hq hj
        simp only [and_self, if_true, hAe, Option.map_some']
        congr 1
        unfold shift_down
        simp only [true_and]
        rw [if_pos ⟨hit, by omega⟩]
      · rw [if_neg hqj, hout]
        cases hr : (g.output_vec q)[j]? with
        | none => rfl
        | some r =>
          simp only [Option.map_some']
          congr 1
          symm
          apply shift_down_succ
          rintro rfl
          obtain ⟨_, h2, h3⟩ := hB q j _ hr
          simp only [ssa_reverse_edge_t.input] at h2
          rw [het] at h2
          injection h2 with h2
          apply hqj
          rw [h2]
          exact ⟨rfl, rfl⟩

theorem getElem?_update_eraseIdx {α : Type} (f : Nat → List α) (n i m k : Nat) :
    (Function.update f n ((f n).eraseIdx i) m)[k]? =
      if m = n then (if k < i then (f n)[k]? else (f n)[k + 1]?) else (f m)[k]? := by
  by_cases hm : m = n
  · subst hm
    rw [Function.update_same, List.getElem?_eraseIdx]; simp
  · rw [Function.update_noteq hm]; simp [hm]

theorem linked_erase (g : ssa_graph) (n i : Nat) (h : linked_except n i g) :
    linked
      { input_vec := Function.update g.input_vec n ((g.input_vec n).eraseIdx i)
        output_vec := reindex_outputs n g.output_vec (((g.input_vec n).enum).drop (i + 1)) } := by
  have hspec := reindex_outputs_spec g n i h _ (i + 1) g.output_vec (by omega) rfl (by
    intro q j
    cases hr : (g.output_vec q)[j]? with
    | none => rfl
    | some r =>
      simp only [Option.map_some']
      congr 1
      unfold shift_down
      rw [if_neg]
      rintro ⟨_, h1, h2⟩
      omega)
  obtain ⟨hA, hB⟩ := h
  constructor
  · intro m k e he hp
    simp only [ssa_forward_edge_t.output, hp, if_true]
    rw [getElem?_update_eraseIdx] at he
    rw [hspec]
    by_cases hm : m = n
    · subst hm
      rw [if_pos rfl] at he
      by_cases hk : k < i
      · rw [if_pos hk] at he
        have hne : (m, k) ≠ (m, i) := by
          intro hc; injection hc with _ h2; omega
        have := hA m k e hne he hp
        simp only [ssa_forward_edge_t.output, hp, if_true] at this
        rw [this]
        simp only [Option.map_some']
        congr 1
        unfold shift_down
        rw [if_neg]
        rintro ⟨_, h1, _⟩
        simp only at h1
        omega
      · rw [if_neg hk] at he
        have hne : (m, k + 1) ≠ (m, i) := by
          intro hc; injection hc with _ h2; omega
        have := hA m (k + 1) e hne he hp
        simp only [ssa_forward_edge_t.output, hp, if_true] at this
        rw [this]
        simp only [Option.map_some']
        congr 1
        unfold shift_down
        have hlt := lt_length_of_getElem? he
        rw [if_pos ⟨rfl, by simp only; omega, hlt⟩]
        rfl
    · rw [if_neg hm] at he
      have hne : (m, k) ≠ (n, i) := by
        intro hc; injection hc with h1 _; exact hm h1
      have := hA m k e hne he hp
      simp only [ssa_forward_edge_t.output, hp, if_true] at this
      rw [this]
      simp only [Option.map_some']
      congr 1
      unfold shift_down
      rw [if_neg]
      rintro ⟨h1, _, _⟩
      exact hm h1
  · intro q j r' hr'
    rw [hspec] at hr'
    cases hr : (g.output_vec q)[j]? with
    | none => rw [hr] at hr'; exact absurd hr' (by simp)
    | some r =>
      rw [hr] at hr'
      simp only [Option.map_some'] at hr'
      injection hr' with hr'
      obtain ⟨h1, h2, h3⟩ := hB q j r hr
      refine ⟨?_, h3⟩
      simp only [ssa_reverse_edge_t.input] at h2 ⊢
      rw [getElem?_update_eraseIdx]
      unfold shift_down at hr'
      by_cases hc : r.node = n ∧ i < r.index ∧ r.index < (g.input_vec n).length
      · rw [if_pos hc] at hr'
        subst hr'
        obtain ⟨hc1, hc2, hc3⟩ := hc
        simp only [if_true]
        rw [if_neg (by omega)]
        have : r.index - 1 + 1 = r.index := by omega
        rw [this, ← hc1]; exact h2
      · rw [if_neg hc] at hr'
        subst hr'
        by_cases hn : r.node = n
        · rw [if_pos hn]
          have hlt := lt_length_of_getElem? h2
          rw [hn] at hlt h2
          have hle : ¬ i < r.index := fun h4 => hc ⟨hn, h4, hlt⟩
          have hne : r.index ≠ i := by
            intro h5
            apply h1
            cases r; simp only at hn h5; rw [hn, h5]
          rw [if_pos (by omega)]; exact h2
        · rw [if_neg hn]; exact h2

theorem linked_remove_input (g g1 : ssa_graph) (n i : Nat) (h : linked g)
    (hr : link_remove_input g n i = some g1) : linked g1 := by
  unfold link_remove_input at hr
  split_ifs at hr with hi
  injection hr with hr
  subst hr
  exact linked_erase _ n i (linked_except_remove_inputs_output g n i h hi)

theorem link_remove_input_length (g g1 : ssa_graph) (n i : Nat)
    (hr : link_remove_input g n i = some g1) :
    (g1.input_vec n).length = (g.input_vec n).length - 1 := by
  unfold link_remove_input at hr
  split_ifs at hr with hi
  injection hr with hr
  subst hr
  simp only [Function.update_same]
  rw [List.length_eraseIdx, remove_inputs_output_length]
  simp [hi]

theorem linked_clear_inputs (n : Nat) :
    ∀ (k : Nat) (g : ssa_graph), linked g → linked (clear_inputs n k g) := by
  intro k
  induction k with
  | zero => intro g h; exact h
  | succ k ih =>
    intro g h
    simp only [clear_inputs]
    cases hr : link_remove_input g n k with
    | none => exact h
    | some g1 => exact ih g1 (linked_remove_input g g1 n k h hr)

theorem linked_run (g g1 : ssa_graph) (c : link_call) (h : linked g)
    (hr : c.run g = some g1) : linked g1 := by
  cases c with
  | append_input n v =>
    simp only [link_call.run] at hr
    injection hr with hr; subst hr
    exact linked_append_input g n v h
  | remove_input n i => exact linked_remove_input g g1 n i h hr
  | change_input n i v => exact linked_change_input g g1 n i v h hr
  | clear_input n =>
    simp only [link_call.run] at hr
    injection hr with hr; subst hr
    exact linked_clear_inputs n _ g h

theorem linked_run_calls :
    ∀ (cs : List link_call) (g g1 : ssa_graph), linked g → run_calls g cs = some g1 →
      linked g1 := by
  intro cs
  induction cs with
  | nil =>
    intro g g1 h hr
    simp only [run_calls] at hr
    injection hr with hr; subst hr; exact h
  | cons c cs ih =>
    intro g g1 h hr
    simp only [run_calls] at hr
    cases hc : c.run g with
    | none => rw [hc] at hr; exact absurd hr (by simp)
    | some g2 =>
      rw [hc] at hr
      exact ih g2 g1 (linked_run g g2 c h hc) hr

/-- The inputs of a node are all gone after `link_clear_input`. -/
theorem clear_inputs_length (n : Nat) :
    ∀ (k : Nat) (g : ssa_graph), (g.input_vec n).length = k →
      ((clear_inputs n k g).input_vec n).length = 0 := by
  intro k
  induction k with
  | zero => intro g h; exact h
  | succ k ih =>
    intro g h
    simp only [clear_inputs]
    cases hr : link_remove_input g n k with
    | none =>
      unfold link_remove_input at hr
      rw [if_pos (by omega)] at hr
      exact absurd hr (by simp)
    | some g1 =>
      apply ih
      rw [link_remove_input_length g g1 n k hr]; omega

/-- C1. Edge symmetry is an invariant of the SSA graph: it holds for freshly
created nodes, and in every graph reached from them by a finite sequence of
`link_append_input`, `link_remove_input`, `link_change_input` and
`link_clear_input` calls each input that references a producer has exactly one
reverse edge `(n, i)` in that producer's output collection. -/
theorem edge_symmetry_invariant (cs : List link_call) (g : ssa_graph)
    (h : run_calls ssa_graph.fresh cs = some g) : edge_symmetry g :=
  linked_edge_symmetry g (linked_run_calls cs _ g linked_fresh h)

/-- Witness for C1: appends with a repeated producer and a self reference, then
an interleaved removal that relocates a reverse edge, a change and a clear. -/
theorem edge_symmetry_invariant_witness :
    ∃ g, run_calls ssa_graph.fresh
        [.append_input 2 ⟨4⟩, .append_input 2 ⟨4⟩, .append_input 6 ⟨4⟩, .append_input 2 ⟨7⟩,
         .append_input 2 ⟨2⟩, .append_input 2 ⟨4⟩, .remove_input 2 0,
         .change_input 6 0 ⟨2⟩, .clear_input 6] = some g ∧ edge_symmetry g := by
  have h : ∃ g, run_calls ssa_graph.fresh
        [.append_input 2 ⟨4⟩, .append_input 2 ⟨4⟩, .append_input 6 ⟨4⟩, .append_input 2 ⟨7⟩,
         .append_input 2 ⟨2⟩, .append_input 2 ⟨4⟩, .remove_input 2 0,
         .change_input 6 0 ⟨2⟩, .clear_input 6] = some g := ⟨_, rfl⟩
  obtain ⟨g, hg⟩ := h
  exact ⟨g, hg, edge_symmetry_invariant _ g hg⟩

end Nesfab

namespace Nesfab

/-! ## Order analysis: the traversal invariant (C3) -/

theorem util_set_util (s : util_state) (h v : Nat) (u : cfg_util_d) :
    (s.set_util h u).util v = if v = h then u else s.util v := by
  simp only [util_state.set_util, util_state.util, Function.update_apply]

theorem util_push_preorder (s : util_state) (h v : Nat) :
    (push_preorder s h).util v =
      if v = h then { s.util h with preorder_i := some s.preorder.length } else s.util v := by
  simp only [push_preorder, util_state.set_util, util_state.util, Function.update_apply]

theorem util_push_postorder (s : util_state) (h v : Nat) :
    (push_postorder s h).util v =
      if v = h then { s.util h with postorder_i := some s.postorder.length } else s.util v := by
  simp only [push_postorder, util_state.set_util, util_state.util, Function.update_apply]

theorem preorder_push_preorder (s : util_state) (h : Nat) :
    (push_preorder s h).preorder = s.preorder ++ [h] := rfl

theorem postorder_push_preorder (s : util_state) (h : Nat) :
    (push_preorder s h).postorder = s.postorder := rfl

theorem preorder_push_postorder (s : util_state) (h : Nat) :
    (push_postorder s h).preorder = s.preorder := rfl

theorem postorder_push_postorder (s : util_state) (h : Nat) :
    (push_postorder s h).postorder = s.postorder ++ [h] := rfl

theorem getElem?_concat_eq_some {α : Type} (l : List α) (x a : α) (i : Nat) :
    (l ++ [x])[i]? = some a ↔ l[i]? = some a ∨ (i = l.length ∧ a = x) := by
  constructor
  · intro h; exact getElem?_append_single h
  · rintro (h | ⟨h1, h2⟩)
    · exact getElem?_append_mono h
    · subst h1 h2; simp

theorem order_inv_push_preorder (ir : ir_t) (s : util_state) (h : Nat) (hs : order_inv ir s)
    (hpre : (s.util h).preorder_i = none) (hreach : ir.reachable ir.root h)
    (hpar : h = ir.root ∨ ∃ p a, h ∈ ir.outputs p ∧ (s.util p).preorder_i = some a ∧
      (s.util p).postorder_i = none) :
    order_inv ir (push_preorder s h) := by
  have hpost : (s.util h).postorder_i = none := by
    by_contra hc; exact hs.post_pre h hc hpre
  constructor
  · intro v i
    rw [util_push_preorder, preorder_push_preorder, getElem?_concat_eq_some]
    by_cases hv : v = h
    · subst hv
      simp only [if_true]
      constructor
      · intro h1; injection h1 with h1; exact Or.inr ⟨h1.symm, trivial⟩
      · rintro (h1 | ⟨h1, _⟩)
        · rw [← hs.pre_iff] at h1; rw [hpre] at h1; exact absurd h1 (by simp)
        · rw [h1]
    · simp only [hv, if_false, and_false, or_false]
      exact hs.pre_iff v i
  · intro v i
    rw [util_push_preorder, postorder_push_preorder]
    by_cases hv : v = h
    · subst hv; simp only [if_true]; exact hs.post_iff v i
    · simp only [hv, if_false]; exact hs.post_iff v i
  · intro v
    rw [util_push_preorder]
    by_cases hv : v = h
    · subst hv; simp
    · simp only [hv, if_false]; exact hs.post_pre v
  · intro v hv w hw
    rw [util_push_preorder] at hv ⊢
    have hv' : (s.util v).postorder_i ≠ none := by
      by_cases hvh : v = h
      · subst hvh; simpa using hv
      · simpa [hvh] using hv
    by_cases hwh : w = h
    · subst hwh; simp
    · simp only [hwh, if_false]; exact hs.closed v hv' w hw
  · intro v hv
    rw [util_push_preorder] at hv
    by_cases hvh : v = h
    · subst hvh; exact hreach
    · simp only [hvh, if_false] at hv; exact hs.reach v hv
  · intro v b hv
    rw [util_push_preorder] at hv
    by_cases hvh : v = h
    · subst hvh
      simp only [if_true] at hv
      injection hv with hv
      rcases hpar with hroot | ⟨p, a, hp1, hp2, hp3⟩
      · exact Or.inl hroot
      · right
        have hpv : p ≠ v := by rintro rfl; rw [hpre] at hp2; exact absurd hp2 (by simp)
        refine ⟨p, a, hp1, ?_, ?_, ?_⟩
        · rw [util_push_preorder]; simp only [hpv, if_false]; exact hp2
        · have := lt_length_of_getElem? ((hs.pre_iff p a).1 hp2); omega
        · intro j hj
          rw [util_push_preorder] at hj
          simp only [hpv, if_false] at hj
          rw [hp3] at hj; exact absurd hj (by simp)
    · simp only [hvh, if_false] at hv
      rcases hs.parent v b hv with hroot | ⟨p, a, hp1, hp2, hp3, hp4⟩
      · exact Or.inl hroot
      · right
        have hpv : p ≠ h := by rintro rfl; rw [hpre] at hp2; exact absurd hp2 (by simp)
        refine ⟨p, a, hp1, ?_, hp3, ?_⟩
        · rw [util_push_preorder]; simp only [hpv, if_false]; exact hp2
        · intro j hj
          rw [util_push_preorder] at hj ⊢
          simp only [hpv, if_false] at hj
          simp only [hvh, if_false]
          exact hp4 j hj

theorem order_inv_push_postorder (ir : ir_t) (s : util_state) (h a : Nat) (hs : order_inv ir s)
    (hpre : (s.util h).preorder_i = some a) (hpost : (s.util h).postorder_i = none)
    (hsucc : ∀ w ∈ ir.outputs h, (s.util w).preorder_i ≠ none)
    (hlater : ∀ v b, (s.util v).preorder_i = some b → a < b → (s.util v).postorder_i ≠ none) :
    order_inv ir (push_postorder s h) := by
  constructor
  · intro v i
    rw [util_push_postorder, preorder_push_postorder]
    by_cases hv : v = h
    · subst hv; simp only [if_true]; exact hs.pre_iff v i
    · simp only [hv, if_false]; exact hs.pre_iff v i
  · intro v i
    rw [util_push_postorder, postorder_push_postorder, getElem?_concat_eq_some]
    by_cases hv : v = h
    · subst hv
      simp only [if_true]
      constructor
      · intro h1; injection h1 with h1; exact Or.inr ⟨h1.symm, trivial⟩
      · rintro (h1 | ⟨h1, _⟩)
        · rw [← hs.post_iff] at h1; rw [hpost] at h1; exact absurd h1 (by simp)
        · rw [h1]
    · simp only [hv, if_false, and_false, or_false]
      exact hs.post_iff v i
  · intro v
    rw [util_push_postorder]
    by_cases hv : v = h
    · subst hv; simp [hpre]
    · simp only [hv, if_false]; exact hs.post_pre v
  · intro v hv w hw
    have hw' : (s.util w).preorder_i ≠ none := by
      by_cases hvh : v = h
      · subst hvh; exact hsucc w hw
      · rw [util_push_postorder] at hv
        simp only [hvh, if_false] at hv
        exact hs.closed v hv w hw
    rw [util_push_postorder]
    by_cases hwh : w = h
    · subst hwh; simpa using hw'
    · simpa [hwh] using hw'
  · intro v hv
    apply hs.reach
    rw [util_push_postorder] at hv
    by_cases hvh : v = h
    · subst hvh; simpa using hv
    · simpa [hvh] using hv
  · intro v b hv
    have hv' : (s.util v).preorder_i = some b := by
      rw [util_push_postorder] at hv
      by_cases hvh : v = h
      · subst hvh; simpa using hv
      · simpa [hvh] using hv
    rcases hs.parent v b hv' with hroot | ⟨p, a', hp1, hp2, hp3, hp4⟩
    · exact Or.inl hroot
    · right
      refine ⟨p, a', hp1, ?_, hp3, ?_⟩
      · rw [util_push_postorder]
        by_cases hph : p = h
        · subst hph; simpa using hp2
        · simpa [hph] using hp2
      · intro j hj
        rw [util_push_postorder] at hj ⊢
        by_cases hph : p = h
        · subst hph
          simp only [if_true] at hj
          injection hj with hj
          rw [hpre] at hp2
          injection hp2 with hp2
          subst hp2
          have hvp : v ≠ p := by
            rintro rfl; rw [hpre] at hv'; injection hv' with hv'; omega
          simp only [hvp, if_false]
          have hfin := hlater v b hv' hp3
          obtain ⟨i, hi⟩ := Option.ne_none_iff_exists'.1 hfin
          refine ⟨i, hi, ?_⟩
          have := lt_length_of_getElem? ((hs.post_iff v i).1 hi)
          omega
        · simp only [hph, if_false] at hj
          obtain ⟨i, hi1, hi2⟩ := hp4 j hj
          have hvh : v ≠ h := by
            rintro rfl; rw [hpost] at hi1; exact absurd hi1 (by simp)
          simp only [hvh, if_false]
          exact ⟨i, hi1, hi2⟩

theorem order_step_refl (ir : ir_t) (s : util_state) (hs : order_inv ir s) :
    order_step ir s s :=
  ⟨hs, fun _ _ => rfl, fun _ h1 h2 => absurd h1 h2, ⟨[], by simp⟩, ⟨[], by simp⟩⟩

theorem order_step_trans (ir : ir_t) (s t u : util_state) (h1 : order_step ir s t)
    (h2 : order_step ir t u) : order_step ir s u := by
  refine ⟨h2.inv, ?_, ?_, ?_, ?_⟩
  · intro v hv
    have e1 := h1.frame v hv
    rw [← e1] at hv
    rw [h2.frame v hv, e1]
  · intro v hv hu
    by_cases ht : (t.util v).preorder_i = none
    · exact h2.fin v ht hu
    · have := h1.fin v hv ht
      rw [h2.frame v ht]; exact this
  · obtain ⟨l1, e1⟩ := h1.pre_ext
    obtain ⟨l2, e2⟩ := h2.pre_ext
    exact ⟨l1 ++ l2, by rw [e2, e1, List.append_assoc]⟩
  · obtain ⟨l1, e1⟩ := h1.post_ext
    obtain ⟨l2, e2⟩ := h2.post_ext
    exact ⟨l1 ++ l2, by rw [e2, e1, List.append_assoc]⟩

theorem order_step_visited (ir : ir_t) (s t : util_state) (h : order_step ir s t) (v : Nat)
    (hv : (s.util v).preorder_i ≠ none) : (t.util v).preorder_i ≠ none := by
  rw [h.frame v hv]; exact hv

theorem visit_order_succs_spec (ir : ir_t) (visit : util_state → Nat → Option util_state)
    (ih : ∀ s w t, visit_order_pre ir s w → visit s w = some t → visit_order_post ir s w t)
    (h a : Nat) (hreach : ir.reachable ir.root h) :
    ∀ (l : List Nat) (s t : util_state), (∀ w ∈ l, w ∈ ir.outputs h) → order_inv ir s →
      (s.util h).preorder_i = some a → (s.util h).postorder_i = none →
      visit_order_succs visit l s = some t →
      order_step ir s t ∧ ∀ w ∈ l, (t.util w).preorder_i ≠ none := by
  intro l
  induction l with
  | nil =>
    intro s t _ hs _ _ hrun
    simp only [visit_order_succs] at hrun
    injection hrun with hrun
    subst hrun
    exact ⟨order_step_refl ir s hs, by simp⟩
  | cons w rest ihl =>
    intro s t hl hs hpre hpost hrun
    simp only [visit_order_succs] at hrun
    have hrest : ∀ x ∈ rest, x ∈ ir.outputs h := fun x hx => hl x (List.mem_cons_of_mem _ hx)
    by_cases hw : (s.util w).preorder_i = none
    · rw [if_pos hw] at hrun
      cases hv : visit s w with
      | none => rw [hv] at hrun; exact absurd hrun (by simp)
      | some s1 =>
        rw [hv] at hrun
        simp only at hrun
        have hwreach : ir.reachable ir.root w :=
          Relation.ReflTransGen.tail hreach (hl w (List.mem_cons_self _ _))
        obtain ⟨hstep1, hfin, _, _⟩ := ih s w s1
          ⟨hs, hw, hwreach, Or.inr ⟨h, a, hl w (List.mem_cons_self _ _), hpre, hpost⟩⟩ hv
        have hframe := hstep1.frame h (by rw [hpre]; simp)
        obtain ⟨hstep2, hall⟩ := ihl s1 t hrest hstep1.inv (by rw [hframe]; exact hpre)
          (by rw [hframe]; exact hpost) hrun
        refine ⟨order_step_trans ir s s1 t hstep1 hstep2, ?_⟩
        intro x hx
        rcases List.mem_cons.1 hx with rfl | hx
        · exact order_step_visited ir s1 t hstep2 x (hstep1.inv.post_pre x hfin)
        · exact hall x hx
    · rw [if_neg hw] at hrun
      obtain ⟨hstep, hall⟩ := ihl s t hrest hs hpre hpost hrun
      refine ⟨hstep, ?_⟩
      intro x hx
      rcases List.mem_cons.1 hx with rfl | hx
      · exact order_step_visited ir s t hstep x hw
      · exact hall x hx

theorem _visit_order_spec (ir : ir_t) :
    ∀ (fuel : Nat) (s : util_state) (h : Nat) (t : util_state), visit_order_pre ir s h →
      _visit_order ir fuel s h = some t → visit_order_post ir s h t := by
  intro fuel
  induction fuel with
  | zero => intro s h t _ hrun; simp [_visit_order] at hrun
  | succ fuel ih =>
    intro s h t hpre hrun
    obtain ⟨hs, hun, hreach, hpar⟩ := hpre
    simp only [_visit_order] at hrun
    cases hloop : visit_order_succs (_visit_order ir fuel) (ir.outputs h) (push_preorder s h) with
    | none => rw [hloop] at hrun; exact absurd hrun (by simp)
    | some s2 =>
      rw [hloop] at hrun
      simp only at hrun
      injection hrun with hrun
      subst hrun
      have hs1 := order_inv_push_preorder ir s h hs hun hreach hpar
      have hpost : (s.util h).postorder_i = none := by
        by_contra hc; exact hs.post_pre h hc hun
      have hpre1 : ((push_preorder s h).util h).preorder_i = some s.preorder.length := by
        rw [util_push_preorder]; simp
      have hpost1 : ((push_preorder s h).util h).postorder_i = none := by
        rw [util_push_preorder]; simpa using hpost
      obtain ⟨hstep, hall⟩ := visit_order_succs_spec ir (_visit_order ir fuel) (ih) h
        s.preorder.length hreach (ir.outputs h) (push_preorder s h) s2 (fun _ hw => hw) hs1
        hpre1 hpost1 hloop
      have hframe := hstep.frame h (by rw [hpre1]; simp)
      have hpre2 : (s2.util h).preorder_i = some s.preorder.length := by rw [hframe]; exact hpre1
      have hpost2 : (s2.util h).postorder_i = none := by rw [hframe]; exact hpost1
      have hlater : ∀ v b, (s2.util v).preorder_i = some b → s.preorder.length < b →
          (s2.util v).postorder_i ≠ none := by
        intro v b hv hb
        apply hstep.fin v _ (by rw [hv]; simp)
        by_contra hc
        rw [hstep.frame v hc] at hv
        have := lt_length_of_getElem? ((hs1.pre_iff v b).1 hv)
        rw [preorder_push_preorder] at this
        simp at this
        omega
      have hs' := order_inv_push_postorder ir s2 h _ hstep.inv hpre2 hpost2 hall hlater
      refine ⟨⟨hs', ?_, ?_, ?_, ?_⟩, ?_, ?_, ?_⟩
      · intro v hv
        have hvh : v ≠ h := by rintro rfl; exact hv hun
        rw [util_push_postorder]
        simp only [hvh, if_false]
        have e1 : (push_preorder s h).util v = s.util v := by
          rw [util_push_preorder]; simp only [hvh, if_false]
        rw [hstep.frame v (by rw [e1]; exact hv), e1]
      · intro v hv hv'
        rw [util_push_postorder] at hv' ⊢
        by_cases hvh : v = h
        · subst hvh; simp
        · simp only [hvh, if_false] at hv' ⊢
          apply hstep.fin v _ hv'
          rw [util_push_preorder]; simp only [hvh, if_false]; exact hv
      · obtain ⟨l, hl⟩ := hstep.pre_ext
        refine ⟨[h] ++ l, ?_⟩
        rw [preorder_push_postorder, hl, preorder_push_preorder, List.append_assoc]
      · obtain ⟨l, hl⟩ := hstep.post_ext
        refine ⟨l ++ [h], ?_⟩
        rw [postorder_push_postorder, hl, postorder_push_preorder, List.append_assoc]
      · rw [util_push_postorder]; simp
      · obtain ⟨l, hl⟩ := hstep.pre_ext
        refine ⟨l, ?_⟩
        rw [preorder_push_postorder, hl, preorder_push_preorder, List.append_assoc]
        rfl
      · obtain ⟨l, hl⟩ := hstep.post_ext
        refine ⟨l, ?_⟩
        rw [postorder_push_postorder, hl, postorder_push_preorder]

theorem wf_outputs_lt (ir : ir_t) (hwf : ir.wf) (h w : Nat) (hw : w ∈ ir.outputs h) :
    w < ir.cfg_size := by
  simp only [ir_t.outputs, ir_t.cfg, List.mem_map] at hw
  obtain ⟨e, he, rfl⟩ := hw
  by_cases hh : h < ir.cfg_pool.length
  · rw [List.getD_eq_getElem _ _ hh] at he
    exact (hwf.2 _ (List.getElem_mem hh)).1 e he
  · rw [List.getD_eq_default _ _ (by omega)] at he
    simp at he

theorem wf_inputs_lt (ir : ir_t) (hwf : ir.wf) (h w : Nat) (hw : w ∈ ir.inputs h) :
    w < ir.cfg_size := by
  simp only [ir_t.inputs, ir_t.cfg, List.mem_map] at hw
  obtain ⟨e, he, rfl⟩ := hw
  by_cases hh : h < ir.cfg_pool.length
  · rw [List.getD_eq_getElem _ _ hh] at he
    exact (hwf.2 _ (List.getElem_mem hh)).2 e he
  · rw [List.getD_eq_default _ _ (by omega)] at he
    simp at he

theorem unvisited_mono (ir : ir_t) (s t : util_state)
    (h : ∀ v, (s.util v).preorder_i ≠ none → (t.util v).preorder_i ≠ none) :
    unvisited ir t ≤ unvisited ir s := by
  unfold unvisited
  apply Finset.card_le_card
  intro v hv
  simp only [Finset.mem_filter] at hv ⊢
  refine ⟨hv.1, ?_⟩
  by_contra hc
  exact h v hc hv.2

theorem unvisited_push_preorder (ir : ir_t) (s : util_state) (h : Nat) (hh : h < ir.cfg_size)
    (hun : (s.util h).preorder_i = none) :
    unvisited ir (push_preorder s h) < unvisited ir s := by
  unfold unvisited
  apply Finset.card_lt_card
  rw [Finset.ssubset_iff_of_subset]
  · refine ⟨h, ?_, ?_⟩
    · simp only [Finset.mem_filter, Finset.mem_range]; exact ⟨hh, hun⟩
    · simp only [Finset.mem_filter, not_and]
      intro _
      rw [util_push_preorder]; simp
  · intro v hv
    simp only [Finset.mem_filter] at hv ⊢
    refine ⟨hv.1, ?_⟩
    have := hv.2
    rw [util_push_preorder] at this
    by_cases hvh : v = h
    · subst hvh; simp at this
    · simpa [hvh] using this

theorem visit_order_succs_total (ir : ir_t) (hwf : ir.wf) (fuel : Nat)
    (ih : ∀ s w, visit_order_pre ir s w → w < ir.cfg_size → unvisited ir s ≤ fuel →
      ∃ t, _visit_order ir fuel s w = some t)
    (h a : Nat) (hreach : ir.reachable ir.root h) :
    ∀ (l : List Nat) (s : util_state), (∀ w ∈ l, w ∈ ir.outputs h) → order_inv ir s →
      (s.util h).preorder_i = some a → (s.util h).postorder_i = none →
      unvisited ir s ≤ fuel →
      ∃ t, visit_order_succs (_visit_order ir fuel) l s = some t := by
  intro l
  induction l with
  | nil => intro s _ _ _ _ _; exact ⟨s, rfl⟩
  | cons w rest ihl =>
    intro s hl hs hpre hpost hfuel
    simp only [visit_order_succs]
    have hrest : ∀ x ∈ rest, x ∈ ir.outputs h := fun x hx => hl x (List.mem_cons_of_mem _ hx)
    have hwout := hl w (List.mem_cons_self _ _)
    by_cases hw : (s.util w).preorder_i = none
    · rw [if_pos hw]
      have hwreach : ir.reachable ir.root w := Relation.ReflTransGen.tail hreach hwout
      have hwpre : visit_order_pre ir s w := ⟨hs, hw, hwreach, Or.inr ⟨h, a, hwout, hpre, hpost⟩⟩
      obtain ⟨s1, hv⟩ := ih s w hwpre (wf_outputs_lt ir hwf h w hwout) hfuel
      rw [hv]
      simp only
      obtain ⟨hstep1, _, _, _⟩ := _visit_order_spec ir fuel s w s1 hwpre hv
      have hframe := hstep1.frame h (by rw [hpre]; simp)
      apply ihl s1 hrest hstep1.inv (by rw [hframe]; exact hpre) (by rw [hframe]; exact hpost)
      exact le_trans (unvisited_mono ir s s1 (order_step_visited ir s s1 hstep1)) hfuel
    · rw [if_neg hw]
      exact ihl s hrest hs hpre hpost hfuel

theorem _visit_order_total (ir : ir_t) (hwf : ir.wf) :
    ∀ (fuel : Nat) (s : util_state) (h : Nat), visit_order_pre ir s h → h < ir.cfg_size →
      unvisited ir s ≤ fuel → ∃ t, _visit_order ir fuel s h = some t := by
  intro fuel
  induction fuel with
  | zero =>
    intro s h hpre hh hfuel
    have := unvisited_push_preorder ir s h hh hpre.2.1
    omega
  | succ fuel ih =>
    intro s h hpre hh hfuel
    obtain ⟨hs, hun, hreach, hpar⟩ := hpre
    simp only [_visit_order]
    have hs1 := order_inv_push_preorder ir s h hs hun hreach hpar
    have hpost : (s.util h).postorder_i = none := by
      by_contra hc; exact hs.post_pre h hc hun
    have hpre1 : ((push_preorder s h).util h).preorder_i = some s.preorder.length := by
      rw [util_push_preorder]; simp
    have hpost1 : ((push_preorder s h).util h).postorder_i = none := by
      rw [util_push_preorder]; simpa using hpost
    have hlt := unvisited_push_preorder ir s h hh hun
    obtain ⟨s2, hloop⟩ := visit_order_succs_total ir hwf fuel ih h _ hreach (ir.outputs h)
      (push_preorder s h) (fun _ hw => hw) hs1 hpre1 hpost1 (by omega)
    rw [hloop]
    exact ⟨_, rfl⟩

theorem util_order_reset (s : util_state) (v : Nat) :
    ((order_reset s).util v).preorder_i = none ∧ ((order_reset s).util v).postorder_i = none :=
  ⟨rfl, rfl⟩

theorem order_inv_reset (ir : ir_t) (s : util_state) : order_inv ir (order_reset s) := by
  constructor
  · intro v i; simp [order_reset, util_state.util]
  · intro v i; simp [order_reset, util_state.util]
  · intro v hv; exact absurd rfl hv
  · intro v hv; exact absurd rfl hv
  · intro v hv; exact absurd rfl hv
  · intro v b hv; simp [order_reset, util_state.util] at hv

theorem unvisited_reset (ir : ir_t) (s : util_state) :
    unvisited ir (order_reset s) = ir.cfg_size := by
  unfold unvisited
  rw [Finset.filter_true_of_mem]
  · simp
  · intro v _; rfl

theorem visit_order_pre_reset (ir : ir_t) (s : util_state) :
    visit_order_pre ir (order_reset s) ir.root :=
  ⟨order_inv_reset ir s, rfl, Relation.ReflTransGen.refl, Or.inl rfl⟩

/-- `build_order` returns whenever the fuel covers the number of blocks, and
the state it leaves satisfies the traversal invariant. -/
theorem build_order_returns (ir : ir_t) (hwf : ir.wf) (s : util_state) (fuel : Nat)
    (hfuel : ir.cfg_size ≤ fuel) :
    ∃ t, build_order fuel ir s = some t ∧ visit_order_post ir (order_reset s) ir.root t := by
  obtain ⟨t, ht⟩ := _visit_order_total ir hwf fuel (order_reset s) ir.root
    (visit_order_pre_reset ir s) hwf.1 (by rw [unvisited_reset]; exact hfuel)
  exact ⟨t, ht, _visit_order_spec ir fuel _ _ t (visit_order_pre_reset ir s) ht⟩

theorem build_order_post (ir : ir_t) (s t : util_state) (fuel : Nat)
    (h : build_order fuel ir s = some t) : visit_order_post ir (order_reset s) ir.root t :=
  _visit_order_spec ir fuel _ _ t (visit_order_pre_reset ir s) h

theorem nodup_of_index_iff {α : Type} (f : α → Option Nat) (l : List α)
    (h : ∀ v i, f v = some i ↔ l[i]? = some v) : l.Nodup := by
  rw [List.nodup_iff_getElem?_ne_getElem?]
  intro i j hij hj hc
  have hi : i < l.length := by omega
  have e1 := (h l[i] i).2 (List.getElem?_eq_getElem hi)
  have e2 := (h l[i] j).2 (by rw [← hc]; exact List.getElem?_eq_getElem hi)
  rw [e1] at e2
  injection e2 with e2
  omega

theorem mem_iff_index {α : Type} (f : α → Option Nat) (l : List α)
    (h : ∀ v i, f v = some i ↔ l[i]? = some v) (v : α) : v ∈ l ↔ f v ≠ none := by
  constructor
  · intro hv
    obtain ⟨i, hi⟩ := List.getElem?_of_mem hv
    rw [(h v i).2 hi]; simp
  · intro hv
    obtain ⟨i, hi⟩ := Option.ne_none_iff_exists'.1 hv
    exact List.getElem?_mem ((h v i).1 hi)

/-- In the state a complete traversal from the reset state leaves, the visited
blocks are the finished blocks are the blocks reachable from the root. -/
theorem order_final (ir : ir_t) (s t : util_state)
    (h : visit_order_post ir (order_reset s) ir.root t) :
    (∀ v, (t.util v).preorder_i ≠ none ↔ ir.reachable ir.root v) ∧
    (∀ v, (t.util v).postorder_i ≠ none ↔ ir.reachable ir.root v) := by
  obtain ⟨hstep, hroot, _, _⟩ := h
  have hfin : ∀ v, (t.util v).preorder_i ≠ none → (t.util v).postorder_i ≠ none :=
    fun v hv => hstep.fin v rfl hv
  have hvis : ∀ v, ir.reachable ir.root v → (t.util v).preorder_i ≠ none := by
    intro v hv
    induction hv with
    | refl => exact hstep.inv.post_pre _ hroot
    | tail _ hbc ih => exact hstep.inv.closed _ (hfin _ ih) _ hbc
  refine ⟨fun v => ⟨hstep.inv.reach v, hvis v⟩, fun v => ⟨fun hv => ?_, fun hv => hfin v (hvis v hv)⟩⟩
  exact hstep.inv.reach v (hstep.inv.post_pre v hv)

/-- C3. After `build_order` on a CFG with root `r` (it returns whenever the fuel
covers the number of blocks): a block is in `preorder` iff it is reachable from
`r` along successor edges; `preorder` and `postorder` hold exactly the same
blocks, each exactly once; and every block not reachable from `r` keeps
`UNVISITED` in both `preorder_i` and `postorder_i`. -/
theorem build_order_reachable (ir : ir_t) (hwf : ir.wf) (s : util_state) (fuel : Nat)
    (hfuel : ir.cfg_size ≤ fuel) :
    ∃ t, build_order fuel ir s = some t ∧
      (∀ b, b ∈ t.preorder ↔ ir.reachable ir.root b) ∧
      (∀ b, b ∈ t.preorder ↔ b ∈ t.postorder) ∧
      t.preorder.Nodup ∧ t.postorder.Nodup ∧ t.preorder.Perm t.postorder ∧
      (∀ b, ¬ ir.reachable ir.root b →
        (t.util b).preorder_i = none ∧ (t.util b).postorder_i = none) := by
  obtain ⟨t, ht, hpost⟩ := build_order_returns ir hwf s fuel hfuel
  obtain ⟨hpre_r, hpost_r⟩ := order_final ir s t hpost
  have hinv := hpost.1.inv
  have hmem1 := mem_iff_index (fun v => (t.util v).preorder_i) t.preorder hinv.pre_iff
  have hmem2 := mem_iff_index (fun v => (t.util v).postorder_i) t.postorder hinv.post_iff
  have hnd1 := nodup_of_index_iff (fun v => (t.util v).preorder_i) t.preorder hinv.pre_iff
  have hnd2 := nodup_of_index_iff (fun v => (t.util v).postorder_i) t.postorder hinv.post_iff
  have hsame : ∀ b, b ∈ t.preorder ↔ b ∈ t.postorder := by
    intro b; rw [hmem1, hmem2]; simp only; rw [hpre_r, hpost_r]
  refine ⟨t, ht, ?_, hsame, hnd1, hnd2, ?_, ?_⟩
  · intro b; rw [hmem1]; exact hpre_r b
  · exact (List.perm_ext_iff_of_nodup hnd1 hnd2).2 hsame
  · intro b hb
    constructor
    · by_contra hc; exact hb ((hpre_r b).1 hc)
    · by_contra hc; exact hb ((hpost_r b).1 hc)

/-- Witness for C3: the diamond with an unreachable fifth block. -/
theorem build_order_reachable_witness :
    ∃ t, build_order 5 diamond_ir util_state.init = some t ∧
      (∀ b, b ∈ t.preorder ↔ diamond_ir.reachable diamond_ir.root b) ∧
      (∀ b, b ∈ t.preorder ↔ b ∈ t.postorder) ∧
      t.preorder.Nodup ∧ t.postorder.Nodup ∧ t.preorder.Perm t.postorder ∧
      (∀ b, ¬ diamond_ir.reachable diamond_ir.root b →
        (t.util b).preorder_i = none ∧ (t.util b).postorder_i = none) :=
  build_order_reachable diamond_ir (by decide) util_state.init 5 (by decide)

end Nesfab

namespace Nesfab

/-! ## Local scheduler: order of the written entries (C4-C7) -/

theorem toposort_phis_spec (ir : sched_ir_t) :
    ∀ (l : List Nat) (s : sched_state),
      (toposort_phis ir l s).vec = s.vec ++ l.filter (fun v => (ir.ssa v).is_phi) ∧
      ∀ v, (toposort_phis ir l s).mark v =
        if v ∈ l then (if (ir.ssa v).is_phi then .MARK_PERMANENT else .MARK_NONE)
        else s.mark v := by
  intro l
  induction l with
  | nil => intro s; simp [toposort_phis]
  | cons x rest ih =>
    intro s
    simp only [toposort_phis]
    cases hx : (ir.ssa x).is_phi
    · simp only [Bool.false_eq_true, if_false]
      obtain ⟨h1, h2⟩ := ih (s.set_mark x .MARK_NONE)
      refine ⟨?_, ?_⟩
      · rw [h1]; simp [sched_state.set_mark, List.filter_cons, hx]
      · intro v
        rw [h2]
        by_cases hv : v ∈ rest
        · simp [hv]
        · by_cases hvx : v = x
          · subst hvx; simp [hv, sched_state.set_mark, hx]
          · simp [hv, hvx, sched_state.set_mark]
    · simp only [if_true]
      obtain ⟨h1, h2⟩ := ih { mark := Function.update s.mark x .MARK_PERMANENT, vec := s.vec ++ [x] }
      refine ⟨?_, ?_⟩
      · rw [h1]; simp [List.filter_cons, hx]
      · intro v
        rw [h2]
        by_cases hv : v ∈ rest
        · simp [hv]
        · by_cases hvx : v = x
          · subst hvx; simp [hv, hx]
          · simp [hv, hvx]

theorem written_before_append (l e : List Nat) (x y : Nat) (h : written_before l x y) :
    written_before (l ++ e) x y := by
  obtain ⟨i, j, h1, h2, h3⟩ := h
  exact ⟨i, j, getElem?_append_mono h1, getElem?_append_mono h2, h3⟩

theorem written_before_concat (l : List Nat) (x y : Nat) (h : x ∈ l) :
    written_before (l ++ [y]) x y := by
  obtain ⟨i, hi⟩ := List.mem_iff_getElem?.1 h
  exact ⟨i, l.length, getElem?_append_mono hi, by simp, lt_length_of_getElem? hi⟩

theorem written_before_mem (l : List Nat) (x y : Nat) (h : written_before l x y) :
    x ∈ l ∧ y ∈ l := by
  obtain ⟨i, j, h1, h2, _⟩ := h
  exact ⟨List.getElem?_mem h1, List.getElem?_mem h2⟩

theorem mem_toposort_deps (ir : sched_ir_t) (y x : Nat) :
    x ∈ toposort_deps ir y ↔
      (some x ∈ (ir.ssa y).input ∧ (ir.ssa x).cfg_node = (ir.ssa y).cfg_node) ∨
      ((ir.ssa y).in_daisy = true ∧ (ir.ssa y).prev = some x) := by
  unfold toposort_deps
  rw [List.mem_append, List.mem_filterMap]
  constructor
  · rintro (⟨a, ha, hax⟩ | h)
    · left
      cases a with
      | none => simp at hax
      | some h =>
        simp only at hax
        split_ifs at hax with hc
        injection hax with hax
        subst hax
        exact ⟨ha, hc⟩
    · right
      split_ifs at h with hd
      · exact ⟨hd, by simpa [Option.mem_toList] using h⟩
      · simp at h
  · rintro (⟨h1, h2⟩ | ⟨h1, h2⟩)
    · left
      exact ⟨some x, h1, by simp [h2]⟩
    · right
      simp [h1, h2]

theorem sched_wf_prev (ir : sched_ir_t) (c : Nat) (hwf : sched_wf ir c) (i v : Nat)
    (hi : (ir.ssa_list c)[i]? = some v) :
    (ir.ssa v).prev = if i = 0 then none else (ir.ssa_list c)[i - 1]? := by
  have hlt := lt_length_of_getElem? hi
  have := hwf.prev_eq i hlt
  rw [List.getElem?_eq_getElem hlt] at hi
  injection hi with hi
  rw [hi] at this
  exact this

theorem sched_wf_daisy_run (ir : sched_ir_t) (c : Nat) (hwf : sched_wf ir c) (i v : Nat)
    (hi : (ir.ssa_list c)[i]? = some v) (hd : (ir.ssa v).in_daisy = true)
    (hl : some v ≠ ir.last_daisy c) :
    ∃ w, (ir.ssa_list c)[i + 1]? = some w ∧ (ir.ssa w).in_daisy = true := by
  have hlt := lt_length_of_getElem? hi
  have := hwf.daisy_run i hlt
  rw [List.getElem?_eq_getElem hlt] at hi
  injection hi with hi
  rw [hi] at this
  obtain ⟨w, _, h1, h2⟩ := this hd hl
  exact ⟨w, h1, h2⟩

theorem toposort_deps_mem (ir : sched_ir_t) (c : Nat) (hwf : sched_wf ir c) (y x : Nat)
    (hy : y ∈ ir.ssa_list c) (hx : x ∈ toposort_deps ir y) : x ∈ ir.ssa_list c := by
  rw [mem_toposort_deps] at hx
  rcases hx with ⟨h1, h2⟩ | ⟨_, h2⟩
  · rw [hwf.cfg_node_eq y hy] at h2
    exact hwf.input_mem y hy (some x) h1 x rfl h2
  · obtain ⟨i, hi⟩ := List.mem_iff_getElem?.1 hy
    rw [sched_wf_prev ir c hwf i y hi] at h2
    split_ifs at h2 with h0
    exact List.getElem?_mem h2

theorem sched_inv_phis (ir : sched_ir_t) (c : Nat) (hwf : sched_wf ir c) (mark : Nat → mark_t) :
    sched_inv ir c (toposort_phis ir (ir.ssa_list c) ⟨mark, []⟩) ∧
      ∀ v ∈ ir.ssa_list c,
        (toposort_phis ir (ir.ssa_list c) ⟨mark, []⟩).mark v ≠ .MARK_TEMPORARY := by
  obtain ⟨h1, h2⟩ := toposort_phis_spec ir (ir.ssa_list c) ⟨mark, []⟩
  simp only [List.nil_append] at h1
  refine ⟨⟨?_, ?_, ?_, ?_⟩, ?_⟩
  · intro v
    rw [h1, h2, List.mem_filter]
    by_cases hv : v ∈ ir.ssa_list c
    · cases hp : (ir.ssa v).is_phi <;> simp [hv]
    · simp [hv]
  · rw [h1]; exact hwf.nodup.filter _
  · intro y hy hp
    rw [h1, List.mem_filter] at hy
    rw [hp] at hy
    exact absurd hy.2 (by simp)
  · exact ⟨[], by rw [h1]; simp [block_phis], by simp⟩
  · intro v hv
    rw [h2]
    cases hp : (ir.ssa v).is_phi <;> simp [hv]

theorem none_count_mono (ir : sched_ir_t) (c : Nat) (s t : sched_state)
    (h : ∀ v ∈ ir.ssa_list c, t.mark v = .MARK_NONE → s.mark v = .MARK_NONE) :
    none_count ir c t ≤ none_count ir c s := by
  unfold none_count
  apply Finset.card_le_card
  intro v hv
  simp only [Finset.mem_filter, List.mem_toFinset] at hv ⊢
  exact ⟨hv.1, h v hv.1 hv.2⟩

theorem none_count_set_temp (ir : sched_ir_t) (c : Nat) (s : sched_state) (node : Nat)
    (hn : node ∈ ir.ssa_list c) (hm : s.mark node = .MARK_NONE) :
    none_count ir c (s.set_mark node .MARK_TEMPORARY) < none_count ir c s := by
  unfold none_count
  apply Finset.card_lt_card
  rw [Finset.ssubset_iff_of_subset]
  · refine ⟨node, ?_, ?_⟩
    · simp only [Finset.mem_filter, List.mem_toFinset]; exact ⟨hn, hm⟩
    · simp [sched_state.set_mark]
  · intro v hv
    simp only [Finset.mem_filter, List.mem_toFinset, sched_state.set_mark,
      Function.update_apply] at hv ⊢
    refine ⟨hv.1, ?_⟩
    have := hv.2
    split_ifs at this with hvn
    exact this

theorem sched_step_none (ir : sched_ir_t) (c : Nat) (s t : sched_state)
    (h : sched_step ir c s t) (v : Nat) (hv : t.mark v = .MARK_NONE) :
    s.mark v = .MARK_NONE := by
  cases hs : s.mark v with
  | MARK_NONE => rfl
  | MARK_TEMPORARY => rw [(h.temp_same v).2 hs] at hv; exact absurd hv (by simp)
  | MARK_PERMANENT => rw [h.perm_mono v hs] at hv; exact absurd hv (by simp)

theorem sched_step_refl (ir : sched_ir_t) (c : Nat) (s : sched_state) (hs : sched_inv ir c s) :
    sched_step ir c s s :=
  ⟨hs, fun _ h => h, fun _ => Iff.rfl, ⟨[], by simp⟩⟩

theorem sched_step_trans (ir : sched_ir_t) (c : Nat) (s t u : sched_state)
    (h1 : sched_step ir c s t) (h2 : sched_step ir c t u) : sched_step ir c s u := by
  refine ⟨h2.inv, fun v hv => h2.perm_mono v (h1.perm_mono v hv),
    fun v => (h2.temp_same v).trans (h1.temp_same v), ?_⟩
  obtain ⟨e1, he1⟩ := h1.ext
  obtain ⟨e2, he2⟩ := h2.ext
  exact ⟨e1 ++ e2, by rw [he2, he1, List.append_assoc]⟩

theorem sched_inv_phi_permanent (ir : sched_ir_t) (c : Nat) (s : sched_state)
    (hs : sched_inv ir c s) (v : Nat) (hv : v ∈ ir.ssa_list c)
    (hp : (ir.ssa v).is_phi = true) : s.mark v = .MARK_PERMANENT := by
  obtain ⟨r, hr, _⟩ := hs.split
  have : v ∈ s.vec := by
    rw [hr]
    apply List.mem_append_left
    simp only [block_phis, List.mem_filter]
    exact ⟨hv, hp⟩
  exact ((hs.vec_iff v).1 this).2

theorem toposort_visit_all_spec (ir : sched_ir_t) (c : Nat)
    (visit : sched_state → Nat → outcome sched_state) (bound : Nat)
    (ih : ∀ s x, x ∈ ir.ssa_list c → sched_inv ir c s → visit_ready ir c s x →
      none_count ir c s < bound →
      ∃ t, visit s x = .ok t ∧ sched_step ir c s t ∧ t.mark x = .MARK_PERMANENT)
    (node : Nat) :
    ∀ (ds : List Nat) (s : sched_state), (∀ x ∈ ds, x ∈ toposort_deps ir node) →
      (∀ x ∈ ds, x ∈ ir.ssa_list c) → sched_inv ir c s →
      (∀ t ∈ ir.ssa_list c, s.mark t = .MARK_TEMPORARY →
        t = node ∨ Relation.TransGen (fun y x => x ∈ toposort_deps ir y) t node) →
      none_count ir c s < bound →
      ∃ t, toposort_visit_all visit ds s = .ok t ∧ sched_step ir c s t ∧
        ∀ x ∈ ds, t.mark x = .MARK_PERMANENT := by
  intro ds
  induction ds with
  | nil => intro s _ _ hs _ _; exact ⟨s, rfl, sched_step_refl ir c s hs, by simp⟩
  | cons x rest ihl =>
    intro s hdeps hmem hs htemp hcount
    have hx := hdeps x (List.mem_cons_self _ _)
    have hready : visit_ready ir c s x := by
      intro t ht htm
      rcases htemp t ht htm with rfl | hgen
      · exact Relation.TransGen.single hx
      · exact Relation.TransGen.tail hgen hx
    obtain ⟨s1, hv, hstep1, hperm1⟩ := ih s x (hmem x (List.mem_cons_self _ _)) hs hready hcount
    simp only [toposort_visit_all, hv]
    obtain ⟨t, hrun, hstep2, hall⟩ := ihl s1 (fun y hy => hdeps y (List.mem_cons_of_mem _ hy))
      (fun y hy => hmem y (List.mem_cons_of_mem _ hy)) hstep1.inv
      (fun t ht htm => htemp t ht ((hstep1.temp_same t).1 htm))
      (lt_of_le_of_lt (none_count_mono ir c s s1
        (fun v _ hv => sched_step_none ir c s s1 hstep1 v hv)) hcount)
    refine ⟨t, hrun, sched_step_trans ir c s s1 t hstep1 hstep2, ?_⟩
    intro y hy
    rcases List.mem_cons.1 hy with rfl | hy
    · exact hstep2.perm_mono _ hperm1
    · exact hall y hy

theorem _toposort_visit_spec (ir : sched_ir_t) (c : Nat) (hwf : sched_wf ir c)
    (hac : sched_acyclic ir) :
    ∀ (fuel : Nat) (s : sched_state) (node : Nat), node ∈ ir.ssa_list c → sched_inv ir c s →
      visit_ready ir c s node → none_count ir c s < fuel →
      ∃ t, _toposort_visit ir fuel s node = .ok t ∧ sched_step ir c s t ∧
        t.mark node = .MARK_PERMANENT := by
  intro fuel
  induction fuel with
  | zero => intro s node _ _ _ h; omega
  | succ fuel ih =>
    intro s node hn hs hready hcount
    simp only [_toposort_visit]
    cases hm : s.mark node with
    | MARK_PERMANENT =>
      simp only [if_true]
      exact ⟨s, rfl, sched_step_refl ir c s hs, hm⟩
    | MARK_TEMPORARY => exact absurd (hready node hn hm) (hac node)
    | MARK_NONE =>
      simp only [reduceCtorEq, if_false]
      have hnophi : (ir.ssa node).is_phi = false := by
        cases hp : (ir.ssa node).is_phi
        · rfl
        · rw [sched_inv_phi_permanent ir c s hs node hn hp] at hm
          exact absurd hm (by simp)
      have hnotin : node ∉ s.vec := by
        intro hc
        rw [((hs.vec_iff node).1 hc).2] at hm
        exact absurd hm (by simp)
      have hs1 : sched_inv ir c (s.set_mark node .MARK_TEMPORARY) := by
        refine ⟨?_, hs.nodup, hs.deps_before, hs.split⟩
        intro v
        simp only [sched_state.set_mark, Function.update_apply]
        by_cases hvn : v = node
        · subst hvn; simp [hnotin]
        · simp only [hvn, if_false]; exact hs.vec_iff v
      obtain ⟨s2, hloop, hstep, hall⟩ := toposort_visit_all_spec ir c (_toposort_visit ir fuel)
        fuel (ih) node (toposort_deps ir node) (s.set_mark node .MARK_TEMPORARY)
        (fun _ hx => hx) (fun x hx => toposort_deps_mem ir c hwf node x hn hx) hs1
        (by
          intro t ht htm
          simp only [sched_state.set_mark, Function.update_apply] at htm
          by_cases htn : t = node
          · exact Or.inl htn
          · simp only [htn, if_false] at htm
            exact Or.inr (hready t ht htm))
        (by have := none_count_set_temp ir c s node hn hm; omega)
      rw [hloop]
      simp only
      have htemp2 : s2.mark node = .MARK_TEMPORARY :=
        (hstep.temp_same node).2 (by simp [sched_state.set_mark])
      have hnotin2 : node ∉ s2.vec := by
        intro hc
        rw [((hstep.inv.vec_iff node).1 hc).2] at htemp2
        exact absurd htemp2 (by simp)
      refine ⟨_, rfl, ⟨⟨?_, ?_, ?_, ?_⟩, ?_, ?_, ?_⟩, by simp⟩
      · intro v
        simp only [List.mem_append, List.mem_singleton, Function.update_apply]
        by_cases hvn : v = node
        · subst hvn; simp [hn]
        · simp only [hvn, or_false, if_false]; exact hstep.inv.vec_iff v
      · rw [List.nodup_append]
        refine ⟨hstep.inv.nodup, List.nodup_singleton _, ?_⟩
        intro a ha hb
        rw [List.mem_singleton] at hb
        subst hb
        exact hnotin2 ha
      · intro y hy hp x hx
        simp only [List.mem_append, List.mem_singleton] at hy
        rcases hy with hy | rfl
        · exact written_before_append _ _ _ _ (hstep.inv.deps_before y hy hp x hx)
        · apply written_before_concat
          rw [hstep.inv.vec_iff]
          exact ⟨toposort_deps_mem ir c hwf y x hn hx, hall x hx⟩
      · obtain ⟨r, hr1, hr2⟩ := hstep.inv.split
        refine ⟨r ++ [node], by simp only [hr1, List.append_assoc], ?_⟩
        intro x hx
        rcases List.mem_append.1 hx with hx | hx
        · exact hr2 x hx
        · rw [List.mem_singleton] at hx; subst hx; exact hnophi
      · intro v hv
        simp only [Function.update_apply]
        split_ifs with hvn
        · rfl
        · apply hstep.perm_mono
          simp only [sched_state.set_mark, Function.update_apply, hvn, if_false]
          exact hv
      · intro v
        simp only [Function.update_apply]
        by_cases hvn : v = node
        · subst hvn; simp [hm]
        · simp only [hvn, if_false]
          rw [hstep.temp_same]
          simp [sched_state.set_mark, hvn]
      · obtain ⟨e, he⟩ := hstep.ext
        exact ⟨e ++ [node], by
          simp only [he, sched_state.set_mark, List.append_assoc]⟩

theorem toposort_leaves_spec (ir : sched_ir_t) (c : Nat) (hwf : sched_wf ir c)
    (hac : sched_acyclic ir) (fuel : Nat) :
    ∀ (rest : List Nat) (s : sched_state), (∀ v ∈ rest, v ∈ ir.ssa_list c) → sched_inv ir c s →
      (∀ t ∈ ir.ssa_list c, s.mark t ≠ .MARK_TEMPORARY) → none_count ir c s < fuel →
      ∃ t, toposort_leaves ir fuel c rest s = .ok t ∧ sched_step ir c s t ∧
        ∀ v ∈ rest, sched_start ir c v → t.mark v = .MARK_PERMANENT := by
  intro rest
  induction rest with
  | nil => intro s _ hs _ _; exact ⟨s, rfl, sched_step_refl ir c s hs, by simp⟩
  | cons x rest ihl =>
    intro s hmem hs htemp hcount
    have hrest : ∀ v ∈ rest, v ∈ ir.ssa_list c := fun v hv => hmem v (List.mem_cons_of_mem _ hv)
    simp only [toposort_leaves]
    by_cases hd : (ir.ssa x).in_daisy = true ∧ some x ≠ ir.last_daisy c
    · rw [if_pos hd]
      obtain ⟨t, hrun, hstep, hall⟩ := ihl s hrest hs htemp hcount
      refine ⟨t, hrun, hstep, ?_⟩
      intro v hv hstart
      rcases List.mem_cons.1 hv with rfl | hv
      · exact absurd hd hstart.1
      · exact hall v hv hstart
    · rw [if_neg hd]
      cases hl : not_leaf ir c x
      · simp only [Bool.false_eq_true, if_false]
        obtain ⟨s1, hv, hstep1, hperm⟩ := _toposort_visit_spec ir c hwf hac fuel s x
          (hmem x (List.mem_cons_self _ _)) hs (fun t ht htm => absurd htm (htemp t ht)) hcount
        rw [hv]
        simp only
        obtain ⟨t, hrun, hstep2, hall⟩ := ihl s1 hrest hstep1.inv
          (fun t ht htm => htemp t ht ((hstep1.temp_same t).1 htm))
          (lt_of_le_of_lt (none_count_mono ir c s s1
            (fun v _ hv => sched_step_none ir c s s1 hstep1 v hv)) hcount)
        refine ⟨t, hrun, sched_step_trans ir c s s1 t hstep1 hstep2, ?_⟩
        intro v hv hstart
        rcases List.mem_cons.1 hv with rfl | hv
        · exact hstep2.perm_mono _ hperm
        · exact hall v hv hstart
      · simp only [if_true]
        obtain ⟨t, hrun, hstep, hall⟩ := ihl s hrest hs htemp hcount
        refine ⟨t, hrun, hstep, ?_⟩
        intro v hv hstart
        rcases List.mem_cons.1 hv with rfl | hv
        · rw [hstart.2] at hl; exact absurd hl (by simp)
        · exact hall v hv hstart

/-- A node of the block at which no visit starts has a non-phi node of the
block that depends on it: its chain successor, or a consumer. -/
theorem exists_dependent (ir : sched_ir_t) (c : Nat) (hwf : sched_wf ir c) (x : Nat)
    (hx : x ∈ ir.ssa_list c) (hns : ¬ sched_start ir c x) :
    ∃ y ∈ ir.ssa_list c, (ir.ssa y).is_phi = false ∧ x ∈ toposort_deps ir y := by
  by_cases hd : (ir.ssa x).in_daisy = true ∧ some x ≠ ir.last_daisy c
  · obtain ⟨i, hi⟩ := List.mem_iff_getElem?.1 hx
    obtain ⟨w, hw1, hw2⟩ := sched_wf_daisy_run ir c hwf i x hi hd.1 hd.2
    have hwm : w ∈ ir.ssa_list c := List.getElem?_mem hw1
    refine ⟨w, hwm, hwf.daisy_not_phi w hwm hw2, ?_⟩
    rw [mem_toposort_deps]
    right
    refine ⟨hw2, ?_⟩
    rw [sched_wf_prev ir c hwf (i + 1) w hw1]
    simp [hi]
  · have hl : not_leaf ir c x = true := by
      by_contra hc
      exact hns ⟨hd, by simpa using hc⟩
    simp only [not_leaf, List.any_eq_true, Bool.and_eq_true, decide_eq_true_eq,
      Bool.not_eq_true'] at hl
    obtain ⟨y, hy1, hy2, hy3⟩ := hl
    refine ⟨y, hwf.output_mem x hx y hy1 hy2, hy3, ?_⟩
    rw [mem_toposort_deps]
    left
    exact ⟨hwf.output_input x hx y hy1, by rw [hwf.cfg_node_eq x hx, hy2]⟩

theorem all_permanent (ir : sched_ir_t) (c : Nat) (hwf : sched_wf ir c)
    (hac : sched_acyclic ir) (t : sched_state) (ht : sched_inv ir c t)
    (hstart : ∀ v ∈ ir.ssa_list c, sched_start ir c v → t.mark v = .MARK_PERMANENT) :
    ∀ v ∈ ir.ssa_list c, t.mark v = .MARK_PERMANENT := by
  let r : {v // v ∈ ir.ssa_list c} → {v // v ∈ ir.ssa_list c} → Prop :=
    fun a b => Relation.TransGen (fun y x => x ∈ toposort_deps ir y) a.1 b.1
  haveI : IsTrans _ r := ⟨fun _ _ _ h1 h2 => Relation.TransGen.trans h1 h2⟩
  haveI : IsIrrefl _ r := ⟨fun a h => hac a.1 h⟩
  have hwfr : WellFounded r := Finite.wellFounded_of_trans_of_irrefl r
  have key : ∀ a : {v // v ∈ ir.ssa_list c}, t.mark a.1 = .MARK_PERMANENT := by
    intro a
    induction a using hwfr.induction with
    | _ a ih =>
      by_cases hs : sched_start ir c a.1
      · exact hstart a.1 a.2 hs
      · obtain ⟨y, hy1, hy2, hy3⟩ := exists_dependent ir c hwf a.1 a.2 hs
        have hyp := ih ⟨y, hy1⟩ (Relation.TransGen.single hy3)
        have hyv : y ∈ t.vec := (ht.vec_iff y).2 ⟨hy1, hyp⟩
        have := (written_before_mem _ _ _ (ht.deps_before y hyv hy2 a.1 hy3)).1
        exact ((ht.vec_iff a.1).1 this).2
  intro v hv
  exact key ⟨v, hv⟩

theorem none_count_le (ir : sched_ir_t) (c : Nat) (s : sched_state) :
    none_count ir c s ≤ (ir.ssa_list c).length := by
  unfold none_count
  exact le_trans (Finset.card_filter_le _ _) (List.toFinset_card_le _)

/-- The scheduler returns on every well-formed acyclic block when the fuel
exceeds the number of its nodes, and then the written entries are the nodes of
the block, each once, phis first, every non-phi entry after its dependencies. -/
theorem toposort_cfg_node_spec (ir : sched_ir_t) (c : Nat) (hwf : sched_wf ir c)
    (hac : sched_acyclic ir) (fuel : Nat) (hfuel : (ir.ssa_list c).length < fuel)
    (mark : Nat → mark_t) :
    ∃ vec, toposort_cfg_node ir fuel c mark = .ok vec ∧ vec.Nodup ∧
      (∀ v, v ∈ vec ↔ v ∈ ir.ssa_list c) ∧
      (∃ r, vec = block_phis ir c ++ r ∧ ∀ x ∈ r, (ir.ssa x).is_phi = false) ∧
      (∀ y ∈ vec, (ir.ssa y).is_phi = false →
        ∀ x ∈ toposort_deps ir y, written_before vec x y) := by
  obtain ⟨hinv, hnotemp⟩ := sched_inv_phis ir c hwf mark
  obtain ⟨t, hrun, hstep, hall⟩ := toposort_leaves_spec ir c hwf hac fuel (ir.ssa_list c) _
    (fun _ hv => hv) hinv hnotemp (lt_of_le_of_lt (none_count_le ir c _) hfuel)
  have hperm := all_permanent ir c hwf hac t hstep.inv hall
  refine ⟨t.vec, ?_, hstep.inv.nodup, ?_, hstep.inv.split, hstep.inv.deps_before⟩
  · simp only [toposort_cfg_node, hrun]
  · intro v
    rw [hstep.inv.vec_iff]
    exact ⟨fun h => h.1, fun h => ⟨h, hperm v h⟩⟩

theorem sched_acyclic_of_rank (ir : sched_ir_t) (rank : Nat → Nat)
    (h : ∀ y x, x ∈ toposort_deps ir y → rank x < rank y) : sched_acyclic ir := by
  have key : ∀ v w, Relation.TransGen (fun y x => x ∈ toposort_deps ir y) v w →
      rank w < rank v := by
    intro v w hvw
    induction hvw with
    | single h1 => exact h _ _ h1
    | tail _ h2 ih => exact lt_trans (h _ _ h2) ih
  intro v hv
  exact lt_irrefl _ (key v v hv)

theorem sched_block_acyclic (nodes : List sched_node_t) (ld : Option Nat) (rank : Nat → Nat)
    (h : ∀ y < nodes.length, ∀ x ∈ toposort_deps (sched_block nodes ld) y, rank x < rank y) :
    sched_acyclic (sched_block nodes ld) := by
  apply sched_acyclic_of_rank _ rank
  intro y x hx
  by_cases hy : y < nodes.length
  · exact h y hy x hx
  · simp [toposort_deps, sched_block, List.getElem?_eq_none (not_lt.1 hy)] at hx

theorem phi_block_wf : sched_wf phi_block 0 :=
  ⟨by decide, by decide, by decide, by decide, by decide, by decide, by decide, by decide⟩

theorem phi_block_acyclic : sched_acyclic phi_block :=
  sched_block_acyclic _ _ (fun v => [0, 1].getD v 0) (by decide)

theorem chain_block_wf : sched_wf chain_block 0 :=
  ⟨by decide, by decide, by decide, by decide, by decide, by decide, by decide, by decide⟩

theorem chain_block_acyclic : sched_acyclic chain_block :=
  sched_block_acyclic _ _ (fun v => [0, 1, 2, 4, 3, 4].getD v 0) (by decide)

/-- C4, the claim as stated fails: in `phi_block` (well formed, acyclic) node `1`
is a phi with node `0` as input, and `toposort_cfg_node` writes `[1, 0]`, the
producer `0` after its consumer `1`. -/
theorem toposort_data_edge_counterexample :
    sched_wf phi_block 0 ∧ sched_acyclic phi_block ∧
    0 ∈ phi_block.ssa_list 0 ∧ 1 ∈ phi_block.ssa_list 0 ∧
    some 0 ∈ (phi_block.ssa 1).input ∧
    toposort_cfg_node phi_block 3 0 (fun _ => .MARK_NONE) = .ok [1, 0] ∧
    ¬ written_before [1, 0] 0 1 := by
  refine ⟨phi_block_wf, phi_block_acyclic, by decide, by decide, by decide, rfl, ?_⟩
  rintro ⟨i, j, h1, h2, h3⟩
  match i, j with
  | 0, _ => simp at h1
  | i + 1, 0 => omega
  | i + 1, 1 => simp at h2
  | i + 1, j + 2 => simp at h2

/-- C4 (amended). On a well-formed block whose same-block data dependencies and
daisy-chain links are acyclic `toposort_cfg_node` returns, and for every data
edge between two instructions of the block whose consumer is not a phi, the
producer is written before the consumer. -/
theorem toposort_data_edge (ir : sched_ir_t) (c : Nat) (hwf : sched_wf ir c)
    (hac : sched_acyclic ir) (fuel : Nat) (hfuel : (ir.ssa_list c).length < fuel)
    (mark : Nat → mark_t) :
    ∃ vec, toposort_cfg_node ir fuel c mark = .ok vec ∧
      ∀ x ∈ ir.ssa_list c, ∀ y ∈ ir.ssa_list c, some x ∈ (ir.ssa y).input →
        (ir.ssa y).is_phi = false → written_before vec x y := by
  obtain ⟨vec, hrun, _, hmem, _, hdeps⟩ := toposort_cfg_node_spec ir c hwf hac fuel hfuel mark
  refine ⟨vec, hrun, ?_⟩
  intro x hx y hy hin hphi
  apply hdeps y ((hmem y).2 hy) hphi
  rw [mem_toposort_deps]
  exact Or.inl ⟨hin, by rw [hwf.cfg_node_eq x hx, hwf.cfg_node_eq y hy]⟩

/-- Witness for C4 (amended): the six-node block `chain_block`. -/
theorem toposort_data_edge_witness :
    ∃ vec, toposort_cfg_node chain_block 7 0 (fun _ => .MARK_NONE) = .ok vec ∧
      ∀ x ∈ chain_block.ssa_list 0, ∀ y ∈ chain_block.ssa_list 0,
        some x ∈ (chain_block.ssa y).input →
        (chain_block.ssa y).is_phi = false → written_before vec x y :=
  toposort_data_edge chain_block 0 chain_block_wf chain_block_acyclic 7 (by decide) _

/-- C5. On a well-formed block whose same-block data dependencies and
daisy-chain links are acyclic `toposort_cfg_node` returns, and for every
side-effect chain link (`y` is in the daisy chain and `x` is its predecessor),
`x` is written before `y`. -/
theorem toposort_daisy_link (ir : sched_ir_t) (c : Nat) (hwf : sched_wf ir c)
    (hac : sched_acyclic ir) (fuel : Nat) (hfuel : (ir.ssa_list c).length < fuel)
    (mark : Nat → mark_t) :
    ∃ vec, toposort_cfg_node ir fuel c mark = .ok vec ∧
      ∀ y ∈ ir.ssa_list c, (ir.ssa y).in_daisy = true →
        ∀ x, (ir.ssa y).prev = some x → written_before vec x y := by
  obtain ⟨vec, hrun, _, hmem, _, hdeps⟩ := toposort_cfg_node_spec ir c hwf hac fuel hfuel mark
  refine ⟨vec, hrun, ?_⟩
  intro y hy hd x hprev
  apply hdeps y ((hmem y).2 hy) (hwf.daisy_not_phi y hy hd)
  rw [mem_toposort_deps]
  exact Or.inr ⟨hd, hprev⟩

/-- Witness for C5: the six-node block `chain_block`, whose daisy chain is `2, 3`. -/
theorem toposort_daisy_link_witness :
    ∃ vec, toposort_cfg_node chain_block 7 0 (fun _ => .MARK_NONE) = .ok vec ∧
      ∀ y ∈ chain_block.ssa_list 0, (chain_block.ssa y).in_daisy = true →
        ∀ x, (chain_block.ssa y).prev = some x → written_before vec x y :=
  toposort_daisy_link chain_block 0 chain_block_wf chain_block_acyclic 7 (by decide) _

/-- C6. On a well-formed block with `n` instructions whose same-block data
dependencies and daisy-chain links are acyclic `toposort_cfg_node` returns,
writes exactly `n` entries, every entry is an instruction of the block and
every instruction of the block is written exactly once. -/
theorem toposort_total_order (ir : sched_ir_t) (c : Nat) (hwf : sched_wf ir c)
    (hac : sched_acyclic ir) (fuel : Nat) (hfuel : (ir.ssa_list c).length < fuel)
    (mark : Nat → mark_t) :
    ∃ vec, toposort_cfg_node ir fuel c mark = .ok vec ∧
      vec.length = (ir.ssa_list c).length ∧ (∀ v ∈ vec, v ∈ ir.ssa_list c) ∧
      ∀ v ∈ ir.ssa_list c, vec.count v = 1 := by
  obtain ⟨vec, hrun, hnd, hmem, _, _⟩ := toposort_cfg_node_spec ir c hwf hac fuel hfuel mark
  refine ⟨vec, hrun, ?_, fun v hv => (hmem v).1 hv, ?_⟩
  · exact ((List.perm_ext_iff_of_nodup hnd hwf.nodup).2 hmem).length_eq
  · intro v hv
    exact List.count_eq_one_of_mem hnd ((hmem v).2 hv)

/-- Witness for C6: the six-node block `chain_block`. -/
theorem toposort_total_order_witness :
    ∃ vec, toposort_cfg_node chain_block 7 0 (fun _ => .MARK_NONE) = .ok vec ∧
      vec.length = (chain_block.ssa_list 0).length ∧
      (∀ v ∈ vec, v ∈ chain_block.ssa_list 0) ∧
      ∀ v ∈ chain_block.ssa_list 0, vec.count v = 1 :=
  toposort_total_order chain_block 0 chain_block_wf chain_block_acyclic 7 (by decide) _

theorem toposort_visit_all_phis_first (ir : sched_ir_t) (c : Nat)
    (visit : sched_state → Nat → outcome sched_state)
    (ih : ∀ s x t, x ∈ ir.ssa_list c → phis_first ir c s → visit s x = .ok t →
      phis_first ir c t) :
    ∀ (ds : List Nat) (s t : sched_state), (∀ x ∈ ds, x ∈ ir.ssa_list c) →
      phis_first ir c s → toposort_visit_all visit ds s = .ok t → phis_first ir c t := by
  intro ds
  induction ds with
  | nil =>
    intro s t _ hs hrun
    simp only [toposort_visit_all] at hrun
    injection hrun with hrun
    subst hrun; exact hs
  | cons x rest ihl =>
    intro s t hmem hs hrun
    simp only [toposort_visit_all] at hrun
    cases hv : visit s x with
    | ok s1 =>
      rw [hv] at hrun
      exact ihl s1 t (fun y hy => hmem y (List.mem_cons_of_mem _ hy))
        (ih s x s1 (hmem x (List.mem_cons_self _ _)) hs hv) hrun
    | error msg => rw [hv] at hrun; simp at hrun
    | assert_fail => rw [hv] at hrun; simp at hrun
    | out_of_fuel => rw [hv] at hrun; simp at hrun

theorem _toposort_visit_phis_first (ir : sched_ir_t) (c : Nat) (hwf : sched_wf ir c) :
    ∀ (fuel : Nat) (s : sched_state) (node : Nat) (t : sched_state), node ∈ ir.ssa_list c →
      phis_first ir c s → _toposort_visit ir fuel s node = .ok t → phis_first ir c t := by
  intro fuel
  induction fuel with
  | zero => intro s node t _ _ hrun; simp [_toposort_visit] at hrun
  | succ fuel ih =>
    intro s node t hn hs hrun
    simp only [_toposort_visit] at hrun
    cases hm : s.mark node with
    | MARK_PERMANENT =>
      rw [hm] at hrun
      simp only [if_true] at hrun
      injection hrun with hrun
      subst hrun; exact hs
    | MARK_TEMPORARY =>
      rw [hm] at hrun
      simp at hrun
    | MARK_NONE =>
      rw [hm] at hrun
      simp only [reduceCtorEq, if_false] at hrun
      have hnophi : (ir.ssa node).is_phi = false := by
        cases hp : (ir.ssa node).is_phi
        · rfl
        · rw [hs.1 node hn hp] at hm
          exact absurd hm (by simp)
      have hs1 : phis_first ir c (s.set_mark node .MARK_TEMPORARY) := by
        refine ⟨?_, hs.2⟩
        intro v hv hp
        simp only [sched_state.set_mark, Function.update_apply]
        have hvn : v ≠ node := by rintro rfl; rw [hp] at hnophi; exact absurd hnophi (by simp)
        simp only [hvn, if_false]
        exact hs.1 v hv hp
      cases hloop : toposort_visit_all (_toposort_visit ir fuel) (toposort_deps ir node)
          (s.set_mark node .MARK_TEMPORARY) with
      | ok s2 =>
        rw [hloop] at hrun
        simp only at hrun
        injection hrun with hrun
        subst hrun
        have hs2 := toposort_visit_all_phis_first ir c (_toposort_visit ir fuel) (ih)
          (toposort_deps ir node) _ s2 (fun x hx => toposort_deps_mem ir c hwf node x hn hx)
          hs1 hloop
        refine ⟨?_, ?_⟩
        · intro v hv hp
          simp only [Function.update_apply]
          split_ifs
          · rfl
          · exact hs2.1 v hv hp
        · obtain ⟨r, hr1, hr2⟩ := hs2.2
          refine ⟨r ++ [node], by simp only [hr1, List.append_assoc], ?_⟩
          intro x hx
          rcases List.mem_append.1 hx with hx | hx
          · exact hr2 x hx
          · rw [List.mem_singleton] at hx; subst hx; exact hnophi
      | error msg => rw [hloop] at hrun; simp at hrun
      | assert_fail => rw [hloop] at hrun; simp at hrun
      | out_of_fuel => rw [hloop] at hrun; simp at hrun

theorem toposort_leaves_phis_first (ir : sched_ir_t) (c : Nat) (hwf : sched_wf ir c)
    (fuel : Nat) :
    ∀ (rest : List Nat) (s t : sched_state), (∀ v ∈ rest, v ∈ ir.ssa_list c) →
      phis_first ir c s → toposort_leaves ir fuel c rest s = .ok t → phis_first ir c t := by
  intro rest
  induction rest with
  | nil =>
    intro s t _ hs hrun
    simp only [toposort_leaves] at hrun
    injection hrun with hrun
    subst hrun; exact hs
  | cons x rest ihl =>
    intro s t hmem hs hrun
    have hrest : ∀ v ∈ rest, v ∈ ir.ssa_list c := fun v hv => hmem v (List.mem_cons_of_mem _ hv)
    simp only [toposort_leaves] at hrun
    split_ifs at hrun with h1 h2
    · exact ihl s t hrest hs hrun
    · exact ihl s t hrest hs hrun
    · cases hv : _toposort_visit ir fuel s x with
      | ok s1 =>
        rw [hv] at hrun
        exact ihl s1 t hrest
          (_toposort_visit_phis_first ir c hwf fuel s x s1 (hmem x (List.mem_cons_self _ _)) hs hv)
          hrun
      | error msg => rw [hv] at hrun; simp at hrun
      | assert_fail => rw [hv] at hrun; simp at hrun
      | out_of_fuel => rw [hv] at hrun; simp at hrun

/-- Whenever the scheduler returns on a well-formed block, what it wrote is the
phis of the block in list order followed by non-phi nodes. -/
theorem toposort_cfg_node_phis_first (ir : sched_ir_t) (c : Nat) (hwf : sched_wf ir c)
    (fuel : Nat) (mark : Nat → mark_t) (vec : List Nat)
    (hrun : toposort_cfg_node ir fuel c mark = .ok vec) :
    ∃ r, vec = block_phis ir c ++ r ∧ ∀ x ∈ r, (ir.ssa x).is_phi = false := by
  simp only [toposort_cfg_node] at hrun
  cases hl : toposort_leaves ir fuel c (ir.ssa_list c)
      (toposort_phis ir (ir.ssa_list c) ⟨mark, []⟩) with
  | ok t =>
    rw [hl] at hrun
    simp only at hrun
    injection hrun with hrun
    subst hrun
    have h0 : phis_first ir c (toposort_phis ir (ir.ssa_list c) ⟨mark, []⟩) := by
      obtain ⟨hinv, _⟩ := sched_inv_phis ir c hwf mark
      exact ⟨fun v hv hp => sched_inv_phi_permanent ir c _ hinv v hv hp, hinv.split⟩
    exact (toposort_leaves_phis_first ir c hwf fuel _ _ t (fun _ hv => hv) h0 hl).2
  | error msg => rw [hl] at hrun; simp at hrun
  | assert_fail => rw [hl] at hrun; simp at hrun
  | out_of_fuel => rw [hl] at hrun; simp at hrun

/-- C7. `toposort_cfg_node` places the phis of a well-formed block first:
whenever it returns, the first `k` entries (`k` the number of phis of the block)
are exactly the phis in the order of the block's instruction list and every
later entry is a non-phi; and on a block whose same-block dependencies and
daisy links are acyclic it does return, with every non-phi instruction of the
block among the entries after the first `k`. -/
theorem toposort_phis_first (ir : sched_ir_t) (c : Nat) (hwf : sched_wf ir c) :
    (∀ (fuel : Nat) (mark : Nat → mark_t) (vec : List Nat),
      toposort_cfg_node ir fuel c mark = .ok vec →
        vec.take (block_phis ir c).length = block_phis ir c ∧
        ∀ x ∈ vec.drop (block_phis ir c).length, (ir.ssa x).is_phi = false) ∧
    (sched_acyclic ir → ∀ (fuel : Nat) (mark : Nat → mark_t),
      (ir.ssa_list c).length < fuel →
      ∃ vec, toposort_cfg_node ir fuel c mark = .ok vec ∧
        ∀ x ∈ ir.ssa_list c, (ir.ssa x).is_phi = false →
          x ∈ vec.drop (block_phis ir c).length) := by
  constructor
  · intro fuel mark vec hrun
    obtain ⟨r, hr1, hr2⟩ := toposort_cfg_node_phis_first ir c hwf fuel mark vec hrun
    subst hr1
    rw [List.take_left, List.drop_left]
    exact ⟨rfl, hr2⟩
  · intro hac fuel mark hfuel
    obtain ⟨vec, hrun, _, hmem, ⟨r, hr1, _⟩, _⟩ :=
      toposort_cfg_node_spec ir c hwf hac fuel hfuel mark
    refine ⟨vec, hrun, ?_⟩
    intro x hx hp
    have hxv := (hmem x).2 hx
    subst hr1
    rw [List.drop_left]
    rcases List.mem_append.1 hxv with h | h
    · simp only [block_phis, List.mem_filter] at h
      rw [hp] at h
      exact absurd h.2 (by simp)
    · exact h

/-- Witness for C7: the six-node block `chain_block`, whose only phi is node `0`. -/
theorem toposort_phis_first_witness :
    ∃ vec, toposort_cfg_node chain_block 7 0 (fun _ => .MARK_NONE) = .ok vec ∧
      vec.take (block_phis chain_block 0).length = block_phis chain_block 0 ∧
      (∀ x ∈ vec.drop (block_phis chain_block 0).length,
        (chain_block.ssa x).is_phi = false) ∧
      ∀ x ∈ chain_block.ssa_list 0, (chain_block.ssa x).is_phi = false →
        x ∈ vec.drop (block_phis chain_block 0).length := by
  obtain ⟨h1, h2⟩ := toposort_phis_first chain_block 0 chain_block_wf
  obtain ⟨vec, hrun, h3⟩ := h2 chain_block_acyclic 7 (fun _ => .MARK_NONE) (by decide)
  exact ⟨vec, hrun, (h1 _ _ _ hrun).1, (h1 _ _ _ hrun).2, h3⟩

end Nesfab

namespace Nesfab

/-! ## Loop analysis: header chains (C8, C9) -/

theorem loop_depth_loop_cycle (s : util_state) (a b : Nat)
    (hab : (s.util a).iloop_header = some b) (hba : (s.util b).iloop_header = some a) :
    ∀ (steps d : Nat), loop_depth_loop s steps (some a) d = none ∧
      loop_depth_loop s steps (some b) d = none := by
  intro steps
  induction steps with
  | zero => intro d; exact ⟨rfl, rfl⟩
  | succ steps ih =>
    intro d
    simp only [loop_depth_loop, hab, hba]
    exact ⟨(ih (d + 1)).2, (ih (d + 1)).1⟩

/-- C8, evaluated at the failing input `nested_ir`: `build_loops_and_order`
completes, leaves blocks `1` and `2` as each other's immediate loop header (and
block `2` as that of the root), and `loop_depth` of block `1` never returns. -/
theorem iloop_header_cycle :
    ∃ t, build_loops_and_order layout64 10 10 nested_ir util_state.init = .ok t ∧
      (t.util 1).iloop_header = some 2 ∧ (t.util 2).iloop_header = some 1 ∧
      (t.util 0).iloop_header = some 2 ∧
      ∀ steps, loop_depth steps t 1 = none := by
  refine ⟨_, rfl, rfl, rfl, rfl, ?_⟩
  intro steps
  exact (loop_depth_loop_cycle _ 1 2 (by rfl) (by rfl) steps 0).1

theorem header_chain_unique (s : util_state) :
    ∀ (c1 c2 : List Nat) (start : Option Nat), header_chain s start c1 →
      header_chain s start c2 → c1 = c2 := by
  intro c1
  induction c1 with
  | nil =>
    intro c2 start h1 h2
    cases start with
    | none => cases c2 with
      | nil => rfl
      | cons y ys => simp [header_chain] at h2
    | some h => simp [header_chain] at h1
  | cons x xs ih =>
    intro c2 start h1 h2
    cases start with
    | none => simp [header_chain] at h1
    | some h =>
      cases c2 with
      | nil => simp [header_chain] at h2
      | cons y ys =>
        simp only [header_chain] at h1 h2
        rw [h1.1, h2.1, ih ys _ h1.2 h2.2]

theorem header_chain_suffix (s : util_state) :
    ∀ (l1 l2 : List Nat) (h : Nat) (start : Option Nat),
      header_chain s start (l1 ++ h :: l2) → header_chain s (some h) (h :: l2) := by
  intro l1
  induction l1 with
  | nil =>
    intro l2 h start hc
    cases start with
    | none => simp [header_chain] at hc
    | some h0 =>
      simp only [List.nil_append, header_chain] at hc
      simp only [header_chain, true_and]
      rw [hc.1]; exact hc.2
  | cons x xs ih =>
    intro l2 h start hc
    cases start with
    | none => simp [header_chain] at hc
    | some h0 =>
      simp only [List.cons_append, header_chain] at hc
      exact ih l2 h _ hc.2

theorem header_chain_nodup (s : util_state) :
    ∀ (c : List Nat) (start : Option Nat), header_chain s start c → c.Nodup := by
  intro c
  induction c with
  | nil => intro _ _; exact List.nodup_nil
  | cons x xs ih =>
    intro start hc
    cases start with
    | none => simp [header_chain] at hc
    | some h =>
      have hc' := hc
      simp only [header_chain] at hc
      obtain ⟨rfl, hrest⟩ := hc
      rw [List.nodup_cons]
      refine ⟨?_, ih _ hrest⟩
      intro hmem
      obtain ⟨l1, l2, hsplit⟩ := List.append_of_mem hmem
      rw [hsplit] at hrest
      have hsuf := header_chain_suffix s l1 l2 x _ hrest
      have := header_chain_unique s _ _ _ hc' hsuf
      injection this with _ h2
      have hlen := congrArg List.length (hsplit.symm.trans h2)
      simp at hlen
      omega

theorem loop_depth_loop_chain (s : util_state) :
    ∀ (steps : Nat) (start : Option Nat) (d k : Nat),
      loop_depth_loop s steps start d = some k →
      ∃ chain, header_chain s start chain ∧ d + chain.length = k := by
  intro steps
  induction steps with
  | zero => intro start d k h; simp [loop_depth_loop] at h
  | succ steps ih =>
    intro start d k h
    cases start with
    | none =>
      simp only [loop_depth_loop] at h
      injection h with h
      exact ⟨[], trivial, by simpa using h⟩
    | some cfg =>
      simp only [loop_depth_loop] at h
      obtain ⟨chain, hc, hlen⟩ := ih _ _ _ h
      exact ⟨cfg :: chain, ⟨rfl, hc⟩, by simp; omega⟩

/-- C9, the claim as stated fails: in the loop scenario `loop_ir` the header,
block `1`, has `loop_depth` 1, but walking its immediate-loop-header chain meets
no header at all (its `iloop_header` is null). -/
theorem loop_depth_header_counterexample :
    ∃ t, build_loops_and_order layout64 10 10 loop_ir util_state.init = .ok t ∧
      loop_depth 10 t 1 = some 1 ∧ (t.util 1).is_loop_header = true ∧
      (t.util 1).iloop_header = none ∧ header_chain t (t.util 1).iloop_header [] :=
  ⟨_, rfl, rfl, rfl, rfl, trivial⟩

/-- C9 (amended). If `loop_depth(b)` returns `k`, then `b`'s immediate-loop-header
chain (`iloop_header(b)`, its `iloop_header`, ...) reaches null after meeting
distinct headers only, exactly `k` of them when `b` is not a loop header and
exactly `k - 1` when it is (`loop_depth` counts a loop header itself, so there
`k > 0`). -/
theorem loop_depth_chain (steps : Nat) (s : util_state) (b k : Nat)
    (h : loop_depth steps s b = some k) :
    ∃ chain, header_chain s (s.util b).iloop_header chain ∧ chain.Nodup ∧
      if (s.util b).is_loop_header then chain.length + 1 = k else chain.length = k := by
  unfold loop_depth at h
  obtain ⟨chain, hc, hlen⟩ := loop_depth_loop_chain s steps _ 0 k h
  cases hb : (s.util b).is_loop_header
  · rw [hb] at hc
    simp only [Bool.false_eq_true, if_false] at hc ⊢
    exact ⟨chain, hc, header_chain_nodup s chain _ hc, by omega⟩
  · rw [hb] at hc
    simp only [if_true] at hc ⊢
    cases chain with
    | nil => simp [header_chain] at hc
    | cons x xs =>
      simp only [header_chain] at hc
      refine ⟨xs, hc.2, header_chain_nodup s xs _ hc.2, ?_⟩
      simp at hlen
      omega

/-- Witness for C9 (amended): the body and the header of the loop scenario. -/
theorem loop_depth_chain_witness :
    ∃ t, build_loops_and_order layout64 10 10 loop_ir util_state.init = .ok t ∧
      (∃ chain, header_chain t (t.util 2).iloop_header chain ∧ chain.Nodup ∧
        if (t.util 2).is_loop_header then chain.length + 1 = 1 else chain.length = 1) ∧
      (∃ chain, header_chain t (t.util 1).iloop_header chain ∧ chain.Nodup ∧
        if (t.util 1).is_loop_header then chain.length + 1 = 1 else chain.length = 1) :=
  ⟨_, rfl, loop_depth_chain 10 _ 2 1 (by rfl), loop_depth_chain 10 _ 1 1 (by rfl)⟩

end Nesfab

namespace Nesfab

/-! ## Loop analysis: re-entry edges (C10) -/

/-- The walk of `ir_util.cpp:156-168` never ends when the header found first
has an immediate loop header that is already finished: the loop re-reads the
util of the first header, so it meets that same finished header on every
iteration. -/
theorem reentry_walk_never_ends :
    ∀ (steps : Nat) (s : util_state) (node header0 header : Nat),
      (s.util header0).iloop_header = some header → (s.util header).postorder_i ≠ none →
      reentry_walk steps s node header0 = .out_of_fuel := by
  intro steps
  induction steps with
  | zero => intro s node header0 header _ _; rfl
  | succ steps ih =>
    intro s node header0 header h1 h2
    simp only [reentry_walk, h1, h2, if_false]
    exact ih _ node header0 header h1 h2

theorem reentry_ir_small_fuel (steps : Nat) :
    build_loops_and_order layout64 steps 0 reentry_ir util_state.init = .out_of_fuel ∧
    build_loops_and_order layout64 steps 1 reentry_ir util_state.init = .out_of_fuel ∧
    build_loops_and_order layout64 steps 2 reentry_ir util_state.init = .out_of_fuel ∧
    build_loops_and_order layout64 steps 3 reentry_ir util_state.init = .out_of_fuel :=
  ⟨rfl, rfl, rfl, rfl⟩

theorem reentry_ir_small_steps (fuel : Nat) :
    build_loops_and_order layout64 0 (fuel + 4) reentry_ir util_state.init = .out_of_fuel ∧
    build_loops_and_order layout64 1 (fuel + 4) reentry_ir util_state.init = .out_of_fuel :=
  ⟨rfl, rfl⟩

theorem reentry_ir_first_edge (steps fuel : Nat) :
    visit_loops_edge layout64 (_visit_loops layout64 reentry_ir (steps + 2) (fuel + 3))
      (steps + 2) 0 0 ⟨1, 0⟩ (push_preorder (loops_reset util_state.init) 0) =
      .ok reentry_state := rfl

theorem reentry_state_util :
    (reentry_state.util 3).preorder_i = some 3 ∧ (reentry_state.util 3).postorder_i = some 0 ∧
    (reentry_state.util 3).iloop_header = some 2 ∧
    (reentry_state.util 2).postorder_i = some 1 ∧
    (reentry_state.util 2).iloop_header = some 1 ∧
    (reentry_state.util 1).postorder_i = some 2 ∧
    (reentry_state.util 1).iloop_header = none :=
  ⟨rfl, rfl, rfl, rfl, rfl, rfl, rfl⟩

theorem util_set_irreducible (s : util_state) (h v : Nat) :
    (s.set_irreducible h).util v = s.util v := rfl

theorem reentry_ir_second_edge (steps fuel : Nat) :
    visit_loops_edge layout64 (_visit_loops layout64 reentry_ir (steps + 2) (fuel + 3))
      (steps + 2) 0 1 ⟨3, 0⟩ reentry_state = .out_of_fuel := by
  obtain ⟨h1, h2, h3, h4, h5, h6, h7⟩ := reentry_state_util
  simp only [visit_loops_edge, h1, h2, h3, h4, layout64]
  simp only [reduceCtorEq, if_false, Nat.reduceLeDiff]
  apply reentry_walk_never_ends _ _ 0 2 1
  · simp only [util_set_irreducible, util_set_util, Nat.reduceEqDiff, if_false]
    exact h5
  · simp only [util_set_irreducible, util_set_util, Nat.reduceEqDiff, if_false, OfNat.one_ne_ofNat,
      OfNat.ofNat_ne_one, OfNat.ofNat_ne_zero, one_ne_zero]
    rw [h6]; simp

theorem _visit_loops_succ (lay : util_layout) (ir : ir_t) (steps fuel : Nat) (s : util_state)
    (node : Nat) :
    _visit_loops lay ir steps (fuel + 1) s node =
      match visit_loops_succs lay (_visit_loops lay ir steps fuel) steps node
          ((ir.cfg node).output_vec.enum) (push_preorder s node) with
      | .ok s2 => .ok (push_postorder s2 node, ((push_postorder s2 node).util node).iloop_header)
      | .error msg => .error msg
      | .assert_fail => .assert_fail
      | .out_of_fuel => .out_of_fuel := rfl

/-- C10, evaluated at the failing input `reentry_ir`: whatever the fuel,
`build_loops_and_order` never returns. The re-entry edge `root → 3` leads into
the loop of header `2`, nested in the loop of header `1`, both finished; the
walk up the header chain reads the util of `2` on every iteration and so stays
at header `1` for ever. -/
theorem reentry_walk_diverges (steps fuel : Nat) :
    build_loops_and_order layout64 steps fuel reentry_ir util_state.init = .out_of_fuel := by
  match fuel, steps with
  | 0, _ => exact (reentry_ir_small_fuel _).1
  | 1, _ => exact (reentry_ir_small_fuel _).2.1
  | 2, _ => exact (reentry_ir_small_fuel _).2.2.1
  | 3, _ => exact (reentry_ir_small_fuel _).2.2.2
  | fuel + 4, 0 => exact (reentry_ir_small_steps fuel).1
  | fuel + 4, 1 => exact (reentry_ir_small_steps fuel).2
  | fuel + 4, steps + 2 =>
    have e0 : (reentry_ir.cfg 0).output_vec.enum = [(0, ⟨1, 0⟩), (1, ⟨3, 0⟩)] := rfl
    have hr : reentry_ir.root = 0 := rfl
    unfold build_loops_and_order
    rw [hr, _visit_loops_succ, e0]
    simp only [visit_loops_succs]
    rw [reentry_ir_first_edge]
    simp only
    rw [reentry_ir_second_edge]

/-- The irreducible scenario of C10 (`root → X`, `root → Y`, `X → Y`, `Y → X`):
the pass completes, the header `X` is flagged irreducible and both reentry
masks of the crossing edge `root → Y` are non-zero. -/
theorem irreducible_scenario :
    ∃ t, build_loops_and_order layout64 10 10 irreducible_ir util_state.init = .ok t ∧
      (t.util 1).is_loop_header = true ∧ t.irreducible 1 = true ∧
      (t.util 0).reentry_out = 2 ∧ (t.util 2).reentry_in = 1 :=
  ⟨_, rfl, rfl, rfl, rfl, rfl⟩

end Nesfab

namespace Nesfab

/-! ## Dominator analysis: chains of immediate dominators -/

theorem idom_chain_linear (I : Nat → Option Nat) (a b c : Nat) (hab : idom_chain I a b)
    (hac : idom_chain I a c) : idom_chain I b c ∨ idom_chain I c b := by
  induction hab using Relation.ReflTransGen.head_induction_on with
  | refl => exact Or.inl hac
  | head hstep hrest ih =>
    rcases Relation.ReflTransGen.cases_head hac with rfl | ⟨t, hstep2, hrest2⟩
    · exact Or.inr (Relation.ReflTransGen.head hstep hrest)
    · rw [hstep] at hstep2
      injection hstep2 with hstep2
      subst hstep2
      exact ih hrest2

theorem idom_chain_po (C : dom_ctx) (I : Nat → Option Nat) (h : tree_ok C I) (a b : Nat)
    (hab : idom_chain I a b) : a = b ∨ C.po a < C.po b := by
  induction hab using Relation.ReflTransGen.head_induction_on with
  | refl => exact Or.inl rfl
  | head hstep _ ih =>
    have := (h.assigned _ _ hstep).2.2.2.2
    rcases ih with rfl | ih
    · exact Or.inr this
    · exact Or.inr (lt_trans this ih)

theorem idom_chain_antisymm (C : dom_ctx) (I : Nat → Option Nat) (h : tree_ok C I) (a b : Nat)
    (hab : idom_chain I a b) (hba : idom_chain I b a) : a = b := by
  rcases idom_chain_po C I h a b hab with h1 | h1
  · exact h1
  · rcases idom_chain_po C I h b a hba with h2 | h2
    · exact h2.symm
    · omega

theorem idom_chain_V (C : dom_ctx) (I : Nat → Option Nat) (h : tree_ok C I) (a b : Nat)
    (hab : idom_chain I a b) (ha : C.V a ∧ processed C I a) : C.V b ∧ processed C I b := by
  induction hab with
  | refl => exact ha
  | tail _ hstep _ =>
    have := h.assigned _ _ hstep
    exact ⟨this.2.2.1, this.2.2.2.1⟩

theorem idom_root (C : dom_ctx) (I : Nat → Option Nat) (h : tree_ok C I) : I C.root = none := by
  cases hr : I C.root with
  | none => rfl
  | some t => exact absurd rfl (h.assigned _ _ hr).2.1

theorem idom_chain_root (C : dom_ctx) (I : Nat → Option Nat) (h : tree_ok C I) (b : Nat)
    (hb : idom_chain I C.root b) : b = C.root := by
  rcases Relation.ReflTransGen.cases_head hb with h1 | ⟨t, h1, _⟩
  · exact h1.symm
  · rw [idom_root C I h] at h1
    exact absurd h1 (by simp)

/-- The chain of every processed visited block ends at the root. -/
theorem idom_chain_rooted (C : dom_ctx) (I : Nat → Option Nat) (h : tree_ok C I) :
    ∀ (k x : Nat), C.po C.root - C.po x ≤ k → C.V x → processed C I x →
      idom_chain I x C.root := by
  intro k
  induction k with
  | zero =>
    intro x hk hV _
    have h1 := C.po_root x hV
    have : C.po x = C.po C.root := by omega
    rw [C.po_inj x C.root hV C.root_V this]
    exact Relation.ReflTransGen.refl
  | succ k ih =>
    intro x hk hV hp
    rcases hp with rfl | hp
    · exact Relation.ReflTransGen.refl
    · obtain ⟨t, ht⟩ := Option.ne_none_iff_exists'.1 hp
      have h1 := h.assigned _ _ ht
      have h2 := C.po_root t h1.2.2.1
      exact Relation.ReflTransGen.head ht (ih t (by omega) h1.2.2.1 h1.2.2.2.1)

theorem par_chain_po (C : dom_ctx) (a b : Nat) (hab : par_chain C a b) :
    a = b ∨ C.po a < C.po b := by
  induction hab using Relation.ReflTransGen.head_induction_on with
  | refl => exact Or.inl rfl
  | head hstep _ ih =>
    have := C.par_po _ hstep.1 hstep.2.1
    rw [hstep.2.2] at this
    rcases ih with rfl | ih
    · exact Or.inr this
    · exact Or.inr (lt_trans this ih)

theorem idom_chain_par_chain (C : dom_ctx) (I : Nat → Option Nat) (h : tree_ok C I) (a b : Nat)
    (hab : idom_chain I a b) : par_chain C a b := by
  induction hab with
  | refl => exact Relation.ReflTransGen.refl
  | tail _ hstep ih =>
    have h1 := h.assigned _ _ hstep
    exact ih.trans (Relation.ReflTransGen.head ⟨h1.1, h1.2.1, rfl⟩ (h.on_par _ _ hstep))

/-- Following `par` from `a` up to `b` gives a path from `b` down to `a` that
avoids every block whose postorder number exceeds that of `b`. -/
theorem par_chain_avoiding (C : dom_ctx) (d a b : Nat) (hab : par_chain C a b)
    (hd : C.po b < C.po d) : avoiding C d b a := by
  induction hab using Relation.ReflTransGen.head_induction_on with
  | refl => exact Relation.ReflTransGen.refl
  | head hstep hrest ih =>
    rename_i x y
    refine Relation.ReflTransGen.tail ih ⟨?_, ?_⟩
    · rw [← C.pred_succ, ← hstep.2.2]
      exact C.par_pred _ hstep.1 hstep.2.1
    · rintro rfl
      have h1 := C.par_po _ hstep.1 hstep.2.1
      rw [hstep.2.2] at h1
      rcases par_chain_po C _ _ hrest with h2 | h2
      · rw [h2] at h1; omega
      · omega

theorem avoiding_trans (C : dom_ctx) (d a b c : Nat) (h1 : avoiding C d a b)
    (h2 : avoiding C d b c) : avoiding C d a c :=
  Relation.ReflTransGen.trans h1 h2

theorem avoiding_reach (C : dom_ctx) (d a b : Nat) (h : avoiding C d a b) (ha : C.V a) :
    C.V b := by
  rw [C.reach_V] at ha ⊢
  induction h with
  | refl => exact ha
  | tail _ hstep ih => exact Relation.ReflTransGen.tail ih hstep.1

/-! ### The effect of one assignment on the chains -/

theorem upd_chain_above (C : dom_ctx) (I : Nat → Option Nat) (h : tree_ok C I) (v new a b : Nat)
    (hab : idom_chain I a b) (ha : C.po v < C.po a) :
    idom_chain (Function.update I v (some new)) a b ∧ C.po v < C.po b := by
  induction hab with
  | refl => exact ⟨Relation.ReflTransGen.refl, ha⟩
  | @tail x y _ hstep ih =>
    have hx : x ≠ v := by rintro rfl; omega
    refine ⟨Relation.ReflTransGen.tail ih.1 ?_, ?_⟩
    · show Function.update I v (some new) x = some y
      rw [Function.update_noteq hx]; exact hstep
    · have := (h.assigned _ _ hstep).2.2.2.2
      omega

theorem upd_chain_to (I : Nat → Option Nat) (v new a : Nat) (hab : idom_chain I a v) :
    idom_chain (Function.update I v (some new)) a v := by
  induction hab using Relation.ReflTransGen.head_induction_on with
  | refl => exact Relation.ReflTransGen.refl
  | @head x y hstep _ ih =>
    by_cases hx : x = v
    · rw [hx]; exact Relation.ReflTransGen.refl
    · refine Relation.ReflTransGen.head ?_ ih
      show Function.update I v (some new) x = some y
      rw [Function.update_noteq hx]; exact hstep

theorem upd_chain_split (I : Nat → Option Nat) (v new a b : Nat) (hab : idom_chain I a b) :
    idom_chain (Function.update I v (some new)) a b ∨
      (idom_chain (Function.update I v (some new)) a v ∧ idom_chain I a v ∧ b ≠ v ∧
        ∃ old, I v = some old ∧ idom_chain I old b) := by
  induction hab using Relation.ReflTransGen.head_induction_on with
  | refl => exact Or.inl Relation.ReflTransGen.refl
  | @head x y hstep hrest ih =>
    by_cases hx : x = v
    · by_cases hb : b = v
      · rw [hx, hb]; exact Or.inl Relation.ReflTransGen.refl
      · rw [hx] at hstep ⊢
        exact Or.inr ⟨Relation.ReflTransGen.refl, Relation.ReflTransGen.refl, hb, y, hstep, hrest⟩
    · have hstep' : Function.update I v (some new) x = some y := by
        rw [Function.update_noteq hx]; exact hstep
      rcases ih with ih | ⟨h1, h2, h3, h4⟩
      · exact Or.inl (Relation.ReflTransGen.head hstep' ih)
      · exact Or.inr ⟨Relation.ReflTransGen.head hstep' h1,
          Relation.ReflTransGen.head hstep h2, h3, h4⟩

theorem upd_chain_back (C : dom_ctx) (I : Nat → Option Nat) (h : tree_ok C I) (v new a b : Nat)
    (hv : v ≠ C.root) (hold : ∀ old, I v = some old → idom_chain I old new)
    (hab : idom_chain (Function.update I v (some new)) a b) (ha : a = v → I v ≠ none) :
    idom_chain I a b := by
  induction hab using Relation.ReflTransGen.head_induction_on with
  | refl => exact Relation.ReflTransGen.refl
  | @head x y hstep hrest ih =>
    have hstep' : Function.update I v (some new) x = some y := hstep
    by_cases hx : x = v
    · rw [hx, Function.update_same] at hstep'
      injection hstep' with hstep'
      obtain ⟨old, ho⟩ := Option.ne_none_iff_exists'.1 (ha hx)
      have h1 : idom_chain I x new := by
        rw [hx]; exact Relation.ReflTransGen.head ho (hold old ho)
      rw [hstep'] at h1
      exact Relation.ReflTransGen.trans h1 (ih (fun _ => ha hx))
    · rw [Function.update_noteq hx] at hstep'
      refine Relation.ReflTransGen.head hstep' (ih ?_)
      intro hy
      rcases (h.assigned _ _ hstep').2.2.2.1 with h1 | h1
      · rw [hy] at h1; exact absurd h1 hv
      · rw [hy] at h1; exact h1

theorem processed_update (C : dom_ctx) (I : Nat → Option Nat) (v new x : Nat)
    (h : processed C I x) : processed C (Function.update I v (some new)) x := by
  rcases h with h | h
  · exact Or.inl h
  · right
    by_cases hx : x = v
    · subst hx; rw [Function.update_same]; simp
    · rw [Function.update_noteq hx]; exact h

theorem processed_V (C : dom_ctx) (I : Nat → Option Nat) (h : tree_ok C I) (x : Nat)
    (hx : processed C I x) : C.V x := by
  rcases hx with rfl | hx
  · exact C.root_V
  · obtain ⟨t, ht⟩ := Option.ne_none_iff_exists'.1 hx
    exact (h.assigned _ _ ht).1

theorem ctx_dominates_pred (C : dom_ctx) (d v p : Nat) (h : ctx_dominates C d v) (hd : d ≠ v)
    (hp : p ∈ C.preds v) : ctx_dominates C d p := by
  rcases h with h | h
  · exact Or.inl h
  · right
    intro hc
    exact h (Relation.ReflTransGen.tail hc ⟨(C.pred_succ p v).1 hp, fun e => hd e.symm⟩)

theorem ctx_dominates_root (C : dom_ctx) (d : Nat) (h : ctx_dominates C d C.root) :
    d = C.root := by
  rcases h with h | h
  · exact h
  · exact absurd Relation.ReflTransGen.refl h

/-- Every dominator of `v` other than `v` lies on the chain of the meet of the
processed predecessors of `v`. -/
theorem dominator_on_meet (C : dom_ctx) (I : Nat → Option Nat) (h : tree_ok C I) (v new d : Nat)
    (hm : is_meet C I v new) (hd : d ≠ v) (hdom : ctx_dominates C d v) :
    idom_chain I new d := by
  apply hm.2
  intro p hp hproc
  have hdp := ctx_dominates_pred C d v p hdom hd hp
  by_cases hdp' : d = p
  · subst hdp'; exact Relation.ReflTransGen.refl
  · rcases hproc with rfl | hproc
    · exact absurd (ctx_dominates_root C d hdp) hdp'
    · obtain ⟨t, ht⟩ := Option.ne_none_iff_exists'.1 hproc
      exact Relation.ReflTransGen.head ht (h.dom_above p t ht d hdp' hdp)

/-! ### One step of a pass -/

/-- The facts about the meet `new` of the processed predecessors of the block
`v` that is processed next. -/
theorem meet_facts (C : dom_ctx) (I : Nat → Option Nat) (f v new : Nat) (ht : tree_ok C I)
    (hp : pass_ok C I (f + 1)) (hV : C.V v) (hvr : v ≠ C.root) (hpo : C.po v = f)
    (hm : is_meet C I v new) :
    processed C I (C.par v) ∧ idom_chain I (C.par v) new ∧ C.V new ∧ processed C I new ∧
      C.po v < C.po new ∧ new ≠ v ∧ (∀ old, I v = some old → idom_chain I old new) := by
  have hparV := C.par_V v hV hvr
  have hparpo := C.par_po v hV hvr
  have hparproc : processed C I (C.par v) := by
    by_cases hr : C.par v = C.root
    · exact Or.inl hr
    · exact Or.inr (hp.done _ hparV hr (by omega))
  have hchain := hm.1 _ (C.par_pred v hV hvr) hparproc
  have hnew := idom_chain_V C I ht _ _ hchain ⟨hparV, hparproc⟩
  have hpo2 : C.po v < C.po new := by
    rcases idom_chain_po C I ht _ _ hchain with h1 | h1
    · rw [← h1]; exact hparpo
    · omega
  refine ⟨hparproc, hchain, hnew.1, hnew.2, hpo2, ?_, ?_⟩
  · rintro rfl; omega
  · intro old ho
    exact hp.below_meet v old new ho hm.1

theorem tree_ok_step (C : dom_ctx) (I : Nat → Option Nat) (f v new : Nat) (ht : tree_ok C I)
    (hp : pass_ok C I (f + 1)) (hV : C.V v) (hvr : v ≠ C.root) (hpo : C.po v = f)
    (hm : is_meet C I v new) : tree_ok C (Function.update I v (some new)) := by
  obtain ⟨hparproc, hchain, hnewV, hnewproc, hpo2, hnv, hold⟩ :=
    meet_facts C I f v new ht hp hV hvr hpo hm
  constructor
  · intro x t hx
    by_cases hxv : x = v
    · rw [hxv, Function.update_same] at hx
      injection hx with hx
      rw [hxv, ← hx]
      exact ⟨hV, hvr, hnewV, processed_update C I v new new hnewproc, hpo2⟩
    · rw [Function.update_noteq hxv] at hx
      have := ht.assigned x t hx
      exact ⟨this.1, this.2.1, this.2.2.1, processed_update C I v new t this.2.2.2.1,
        this.2.2.2.2⟩
  · intro x t hx
    by_cases hxv : x = v
    · rw [hxv]; exact processed_update C I v new _ hparproc
    · rw [Function.update_noteq hxv] at hx
      exact processed_update C I v new _ (ht.par_proc x t hx)
  · intro x t hx
    by_cases hxv : x = v
    · rw [hxv, Function.update_same] at hx
      injection hx with hx
      rw [hxv, ← hx]
      exact idom_chain_par_chain C I ht _ _ hchain
    · rw [Function.update_noteq hxv] at hx
      exact ht.on_par x t hx
  · intro x t hx d hdx hdom
    have hnewd : ctx_dominates C d v → d ≠ v →
        idom_chain (Function.update I v (some new)) new d := fun h1 h2 =>
      (upd_chain_above C I ht v new new d (dominator_on_meet C I ht v new d hm h2 h1) hpo2).1
    by_cases hxv : x = v
    · rw [hxv, Function.update_same] at hx
      injection hx with hx
      rw [← hx]
      rw [hxv] at hdx hdom
      exact hnewd hdom hdx
    · rw [Function.update_noteq hxv] at hx
      have hB := ht.dom_above x t hx d hdx hdom
      rcases upd_chain_split I v new t d hB with h1 | ⟨h1, h2, h3, old, ho, h4⟩
      · exact h1
      · have hstepv : Function.update I v (some new) v = some new := Function.update_same _ _ _
        refine h1.trans (Relation.ReflTransGen.head hstepv ?_)
        by_cases hdv : ctx_dominates C d v
        · exact hnewd hdv h3
        · exfalso
          have hdr : d ≠ C.root := fun e => hdv (Or.inl e)
          have hav : avoiding C d C.root v := by
            by_contra hc; exact hdv (Or.inr hc)
          have hpod : C.po v < C.po d := by
            have h5 := (ht.assigned v old ho).2.2.2.2
            rcases idom_chain_po C I ht old d h4 with h6 | h6
            · rw [← h6]; exact h5
            · omega
          have hxv2 : idom_chain I x v := Relation.ReflTransGen.head hx h2
          have hpath := par_chain_avoiding C d x v (idom_chain_par_chain C I ht x v hxv2) hpod
          rcases hdom with h7 | h7
          · exact hdr h7
          · exact h7 (avoiding_trans C d _ _ _ hav hpath)

theorem pass_ok_step (C : dom_ctx) (I : Nat → Option Nat) (f v new : Nat) (ht : tree_ok C I)
    (hp : pass_ok C I (f + 1)) (hV : C.V v) (hvr : v ≠ C.root) (hpo : C.po v = f)
    (hm : is_meet C I v new) : pass_ok C (Function.update I v (some new)) f := by
  obtain ⟨hparproc, hchain, hnewV, hnewproc, hpo2, hnv, hold⟩ :=
    meet_facts C I f v new ht hp hV hvr hpo hm
  have ht' := tree_ok_step C I f v new ht hp hV hvr hpo hm
  have hstepv : Function.update I v (some new) v = some new := Function.update_same _ _ _
  have hparpo := C.par_po v hV hvr
  -- a chain of the new tree that starts at a processed block is a chain of the old tree
  have hback : ∀ p c, processed C I p → idom_chain (Function.update I v (some new)) p c →
      idom_chain I p c := by
    intro p c hproc hc
    apply upd_chain_back C I ht v new p c hvr hold hc
    intro hpv
    rcases hproc with h1 | h1
    · rw [hpv] at h1; exact absurd h1 hvr
    · rw [hpv] at h1; exact h1
  constructor
  · intro x hxV hxr hfx
    by_cases hxv : x = v
    · rw [hxv, hstepv]; simp
    · rw [Function.update_noteq hxv]
      apply hp.done x hxV hxr
      have : C.po x ≠ f := by
        intro e; exact hxv (C.po_inj x v hxV hV (by omega))
      omega
  · intro x t hx
    by_cases hxv : x = v
    · rw [hxv, hstepv] at hx
      injection hx with hx
      left
      rw [hxv, ← hx]
      exact (upd_chain_above C I ht v new _ _ hchain hparpo).1
    · rw [Function.update_noteq hxv] at hx
      have hxa := ht.assigned x t hx
      rcases hp.on_par_chain x t hx with h1 | ⟨h1, h2⟩
      · rcases upd_chain_split I v new _ _ h1 with h3 | ⟨_, h4, h5, old, ho, h6⟩
        · exact Or.inl h3
        · right
          have hpx := C.par_po x hxa.1 hxa.2.1
          have h7 : C.po (C.par x) ≤ C.po v := by
            rcases idom_chain_po C I ht _ _ h4 with h8 | h8
            · rw [h8]
            · omega
          have h9 : C.po v < C.po t := by
            have h10 := (ht.assigned v old ho).2.2.2.2
            rcases idom_chain_po C I ht _ _ h6 with h8 | h8
            · rw [← h8]; exact h10
            · omega
          exact ⟨by omega, by omega⟩
      · right
        have : C.po x ≠ f := by
          intro e; exact hxv (C.po_inj x v hxa.1 hV (by omega))
        exact ⟨by omega, by omega⟩
  · intro x t c hx hcommon
    by_cases hxv : x = v
    · rw [hxv, hstepv] at hx
      injection hx with hx
      rw [← hx]
      rw [hxv] at hcommon
      have hc : idom_chain I new c := by
        apply hm.2
        intro p hp' hproc
        exact hback p c hproc (hcommon p hp' (processed_update C I v new p hproc))
      exact (upd_chain_above C I ht v new new c hc hpo2).1
    · rw [Function.update_noteq hxv] at hx
      have hxa := ht.assigned x t hx
      have hc : idom_chain I t c := by
        apply hp.below_meet x t c hx
        intro p hp' hproc
        exact hback p c hproc (hcommon p hp' (processed_update C I v new p hproc))
      rcases upd_chain_split I v new t c hc with h1 | ⟨h1, h2, h3, old, ho, h4⟩
      · exact h1
      · have hpoc : C.po v < C.po c := by
          have h10 := (ht.assigned v old ho).2.2.2.2
          rcases idom_chain_po C I ht _ _ h4 with h8 | h8
          · rw [← h8]; exact h10
          · omega
        rcases hp.on_par_chain x t hx with h5 | ⟨h5, h6⟩
        · -- the chain of `par x` runs through `t` and `v`
          have hparx : processed C I (C.par x) := ht.par_proc x t hx
          have hc' := hcommon (C.par x) (C.par_pred x hxa.1 hxa.2.1)
            (processed_update C I v new _ hparx)
          have hv' : idom_chain (Function.update I v (some new)) (C.par x) v :=
            upd_chain_to I v new _ (h5.trans h2)
          rcases idom_chain_linear _ _ _ _ hv' hc' with h7 | h7
          · exact h1.trans h7
          · exfalso
            rcases idom_chain_po C _ ht' _ _ h7 with h8 | h8
            · rw [h8] at hpoc; omega
            · omega
        · exfalso
          rcases idom_chain_po C I ht _ _ h2 with h8 | h8
          · rw [h8] at h6; omega
          · omega

/-- One step of a pass: assigning the meet of its processed predecessors to
the next block keeps both invariants, and never moves an immediate dominator
to a smaller postorder number. -/
theorem dom_step (C : dom_ctx) (I : Nat → Option Nat) (f v new : Nat) (ht : tree_ok C I)
    (hp : pass_ok C I (f + 1)) (hV : C.V v) (hvr : v ≠ C.root) (hpo : C.po v = f)
    (hm : is_meet C I v new) :
    tree_ok C (Function.update I v (some new)) ∧
    pass_ok C (Function.update I v (some new)) f ∧
    (∀ old, I v = some old → old = new ∨ C.po old < C.po new) := by
  refine ⟨tree_ok_step C I f v new ht hp hV hvr hpo hm,
    pass_ok_step C I f v new ht hp hV hvr hpo hm, ?_⟩
  intro old ho
  exact idom_chain_po C I ht old new
    ((meet_facts C I f v new ht hp hV hvr hpo hm).2.2.2.2.2.2 old ho)

end Nesfab

namespace Nesfab

/-! ## Dominator analysis: the code -/

theorem idoms_set_util (s : util_state) (h : Nat) (new : Option Nat) :
    (s.set_util h { s.util h with idom := new }).idoms = Function.update s.idoms h new := by
  funext v
  unfold util_state.idoms
  rw [util_set_util]
  by_cases hv : v = h
  · rw [if_pos hv, hv, Function.update_same]
  · rw [if_neg hv, Function.update_noteq hv]

theorem idom_frame_refl (s : util_state) : idom_frame s s :=
  ⟨rfl, rfl, rfl, rfl, fun _ => rfl⟩

theorem idom_frame_trans (s t u : util_state) (h1 : idom_frame s t) (h2 : idom_frame t u) :
    idom_frame s u := by
  obtain ⟨a1, a2, a3, a4, a5⟩ := h1
  obtain ⟨b1, b2, b3, b4, b5⟩ := h2
  refine ⟨b1.trans a1, b2.trans a2, b3.trans a3, b4.trans a4, fun v => ?_⟩
  rw [b5 v, a5 v]

theorem idom_frame_set_util (s : util_state) (h : Nat) (new : Option Nat) :
    idom_frame s (s.set_util h { s.util h with idom := new }) := by
  refine ⟨rfl, rfl, rfl, rfl, fun v => ?_⟩
  rw [util_set_util]
  by_cases hv : v = h
  · rw [if_pos hv, hv]
  · rw [if_neg hv]

theorem ctx_of_frame (C : dom_ctx) (ir : ir_t) (s t : util_state) (hc : ctx_of C ir s)
    (hf : idom_frame s t) : ctx_of C ir t := by
  obtain ⟨a1, _, _, _, a5⟩ := hf
  refine ⟨hc.root, hc.preds, hc.succs, fun v hv => ?_, ?_, ?_, hc.last⟩
  · rw [a5 v]; exact hc.po v hv
  · rw [a1]; exact hc.size
  · rw [a1]; exact hc.nth

/-- Following the immediate dominator of a processed block that is not the
root. -/
theorem idom_up (C : dom_ctx) (I : Nat → Option Nat) (ht : tree_ok C I) (x : Nat)
    (hx : processed C I x) (hr : x ≠ C.root) :
    ∃ x1, I x = some x1 ∧ C.V x1 ∧ processed C I x1 ∧ C.po x < C.po x1 ∧
      idom_chain I x x1 ∧ ∀ c, idom_chain I x c → c ≠ x → idom_chain I x1 c := by
  rcases hx with hx | hx
  · exact absurd hx hr
  · obtain ⟨x1, hx1⟩ := Option.ne_none_iff_exists'.1 hx
    have ha := ht.assigned x x1 hx1
    refine ⟨x1, hx1, ha.2.2.1, ha.2.2.2.1, ha.2.2.2.2, Relation.ReflTransGen.single hx1, ?_⟩
    intro c hc hcx
    rcases Relation.ReflTransGen.cases_head hc with h1 | ⟨y, h1, h2⟩
    · exact absurd h1.symm hcx
    · have h1 : I x = some y := h1
      rw [hx1] at h1
      injection h1 with h1
      rw [h1]; exact h2

/-- `dom_intersect` returns the first block common to the immediate-dominator
chains of `a` and `b`, within `steps` iterations. -/
theorem dom_intersect_spec (C : dom_ctx) (ir : ir_t) (s : util_state) (hc : ctx_of C ir s)
    (ht : tree_ok C s.idoms) :
    ∀ (steps a b : Nat), C.V a → processed C s.idoms a → C.V b → processed C s.idoms b →
      (C.po C.root - C.po a) + (C.po C.root - C.po b) < steps →
      ∃ m, dom_intersect s steps a b = .ok m ∧ idom_chain s.idoms a m ∧
        idom_chain s.idoms b m ∧
        ∀ c, idom_chain s.idoms a c → idom_chain s.idoms b c → idom_chain s.idoms m c := by
  intro steps
  induction steps with
  | zero => intro a b _ _ _ _ h; omega
  | succ steps ih =>
    intro a b hVa hpa hVb hpb hlt
    simp only [dom_intersect]
    by_cases hab : a = b
    · rw [if_pos hab]
      exact ⟨a, rfl, Relation.ReflTransGen.refl, hab ▸ Relation.ReflTransGen.refl,
        fun c h _ => h⟩
    · rw [if_neg hab]
      have hra := C.po_root a hVa
      have hrb := C.po_root b hVb
      have hne : C.po a ≠ C.po b := fun e => hab (C.po_inj a b hVa hVb e)
      rw [hc.po a hVa, hc.po b hVb]
      simp only [order_lt, decide_eq_true_eq]
      by_cases h1 : C.po a < C.po b
      · rw [if_pos h1]
        have har : a ≠ C.root := by rintro rfl; omega
        obtain ⟨a1, ha1, hVa1, hpa1, hpo1, hch1, hup1⟩ := idom_up C s.idoms ht a hpa har
        have ha1' : (s.util a).idom = some a1 := ha1
        rw [ha1']
        simp only []
        rw [hc.po a1 hVa1]
        simp only [order_lt, decide_eq_true_eq]
        have hra1 := C.po_root a1 hVa1
        by_cases h2 : C.po b < C.po a1
        · rw [if_pos h2]
          have hbr : b ≠ C.root := by rintro rfl; omega
          obtain ⟨b1, hb1, hVb1, hpb1, hpo2, hch2, hup2⟩ := idom_up C s.idoms ht b hpb hbr
          have hb1' : (s.util b).idom = some b1 := hb1
          rw [hb1']
          simp only []
          have hrb1 := C.po_root b1 hVb1
          obtain ⟨m, hm, hm1, hm2, hm3⟩ := ih a1 b1 hVa1 hpa1 hVb1 hpb1 (by omega)
          refine ⟨m, hm, hch1.trans hm1, hch2.trans hm2, fun c hca hcb => ?_⟩
          have hca1 : idom_chain s.idoms a1 c := by
            apply hup1 c hca
            rintro rfl
            rcases idom_chain_po C s.idoms ht _ _ hcb with e | e
            · exact hab e.symm
            · omega
          apply hm3 c hca1
          apply hup2 c hcb
          intro ecb
          rcases idom_chain_po C s.idoms ht _ _ hca1 with e | e
          · have e1 := congrArg C.po e
            have e2 := congrArg C.po ecb
            omega
          · have e2 := congrArg C.po ecb
            omega
        · rw [if_neg h2]
          simp only []
          obtain ⟨m, hm, hm1, hm2, hm3⟩ := ih a1 b hVa1 hpa1 hVb hpb (by omega)
          refine ⟨m, hm, hch1.trans hm1, hm2, fun c hca hcb => ?_⟩
          apply hm3 c _ hcb
          apply hup1 c hca
          rintro rfl
          rcases idom_chain_po C s.idoms ht _ _ hcb with e | e
          · exact hab e.symm
          · omega
      · rw [if_neg h1]
        simp only []
        rw [hc.po a hVa]
        simp only [order_lt, decide_eq_true_eq]
        have h2 : C.po b < C.po a := by omega
        rw [if_pos h2]
        have hbr : b ≠ C.root := by rintro rfl; omega
        obtain ⟨b1, hb1, hVb1, hpb1, hpo2, hch2, hup2⟩ := idom_up C s.idoms ht b hpb hbr
        have hb1' : (s.util b).idom = some b1 := hb1
        rw [hb1']
        simp only []
        have hrb1 := C.po_root b1 hVb1
        obtain ⟨m, hm, hm1, hm2, hm3⟩ := ih a b1 hVa hpa hVb1 hpb1 (by omega)
        refine ⟨m, hm, hm1, hch2.trans hm2, fun c hca hcb => ?_⟩
        apply hm3 c hca
        apply hup2 c hcb
        rintro rfl
        rcases idom_chain_po C s.idoms ht _ _ hca with e | e
        · exact hab e
        · omega

theorem new_idom_loop_spec (C : dom_ctx) (ir : ir_t) (s : util_state) (hc : ctx_of C ir s)
    (ht : tree_ok C s.idoms) (steps : Nat) (hsteps : 2 * C.N < steps) :
    ∀ (l seen : List Nat) (acc : Option Nat), new_idom_ok C s.idoms seen acc →
      ∃ r, new_idom_loop ir steps s l acc = .ok r ∧ new_idom_ok C s.idoms (seen ++ l) r := by
  intro l
  induction l with
  | nil =>
    intro seen acc h
    exact ⟨acc, rfl, by rw [List.append_nil]; exact h⟩
  | cons pred rest ih =>
    intro seen acc h
    have happ : seen ++ pred :: rest = (seen ++ [pred]) ++ rest := by simp
    rw [happ]
    simp only [new_idom_loop]
    have hproc : (pred = ir.root ∨ (s.util pred).idom ≠ none) ↔ processed C s.idoms pred := by
      unfold processed util_state.idoms; rw [hc.root]
    by_cases hp : processed C s.idoms pred
    · rw [if_pos (hproc.2 hp)]
      have hVp := processed_V C s.idoms ht pred hp
      cases acc with
      | none =>
        simp only []
        apply ih
        refine ⟨hVp, hp, ?_, ?_⟩
        · intro p hpm hpp
          rcases List.mem_append.1 hpm with h1 | h1
          · exact absurd hpp (h p h1)
          · rw [List.mem_singleton.1 h1]; exact Relation.ReflTransGen.refl
        · intro c hcm
          exact hcm pred (by simp) hp
      | some n =>
        simp only []
        obtain ⟨hVn, hpn, hm1, hm2⟩ := h
        have hN := hc.last
        have hrn := C.po_root n hVn
        obtain ⟨m, hm, hnm, hpm, hmc⟩ := dom_intersect_spec C ir s hc ht steps n pred hVn hpn hVp hp
          (by omega)
        rw [hm]
        simp only []
        apply ih
        have hVm := idom_chain_V C s.idoms ht n m hnm ⟨hVn, hpn⟩
        refine ⟨hVm.1, hVm.2, ?_, ?_⟩
        · intro p hpmem hpp
          rcases List.mem_append.1 hpmem with h1 | h1
          · exact (hm1 p h1 hpp).trans hnm
          · rw [List.mem_singleton.1 h1]; exact hpm
        · intro c hcm
          apply hmc c
          · exact hm2 c (fun p hp1 hp2 => hcm p (List.mem_append_left _ hp1) hp2)
          · exact hcm pred (by simp) hp
    · rw [if_neg (fun e => hp (hproc.1 e))]
      apply ih
      cases acc with
      | none =>
        intro p hpm
        rcases List.mem_append.1 hpm with h1 | h1
        · exact h p h1
        · rw [List.mem_singleton.1 h1]; exact hp
      | some n =>
        obtain ⟨hVn, hpn, hm1, hm2⟩ := h
        refine ⟨hVn, hpn, ?_, ?_⟩
        · intro p hpmem hpp
          rcases List.mem_append.1 hpmem with h1 | h1
          · exact hm1 p h1 hpp
          · rw [List.mem_singleton.1 h1] at hpp; exact absurd hpp hp
        · intro c hcm
          exact hm2 c (fun p hp1 hp2 => hcm p (List.mem_append_left _ hp1) hp2)

/-! ### The potential -/

theorem dom_potential_le (C : dom_ctx) (I : Nat → Option Nat) (ht : tree_ok C I) (L : List Nat) :
    dom_potential C I L ≤ L.length * C.N := by
  induction L with
  | nil => simp [dom_potential]
  | cons v rest ih =>
    simp only [dom_potential, List.length_cons]
    have : idom_rank C (I v) ≤ C.N := by
      cases hv : I v with
      | none => simp [idom_rank]
      | some t =>
        simp only [idom_rank]
        have := C.po_lt t (ht.assigned v t hv).2.2.1
        omega
    rw [Nat.add_mul, Nat.one_mul]
    omega

theorem dom_potential_mono (C : dom_ctx) (I : Nat → Option Nat) (v new : Nat)
    (h : ∀ old, I v = some old → C.po old ≤ C.po new) (L : List Nat) :
    dom_potential C I L ≤ dom_potential C (Function.update I v (some new)) L := by
  induction L with
  | nil => simp [dom_potential]
  | cons x rest ih =>
    simp only [dom_potential]
    by_cases hx : x = v
    · rw [hx, Function.update_same]
      cases hv : I v with
      | none => simp only [idom_rank]; omega
      | some old =>
        simp only [idom_rank]
        have := h old hv
        omega
    · rw [Function.update_noteq hx]
      omega

theorem dom_potential_lt (C : dom_ctx) (I : Nat → Option Nat) (v new : Nat)
    (h : ∀ old, I v = some old → C.po old < C.po new) (L : List Nat) (hv : v ∈ L) :
    dom_potential C I L < dom_potential C (Function.update I v (some new)) L := by
  induction L with
  | nil => simp at hv
  | cons x rest ih =>
    simp only [dom_potential]
    have hmono := dom_potential_mono C I v new (fun old ho => le_of_lt (h old ho)) rest
    by_cases hx : x = v
    · rw [hx, Function.update_same]
      cases hv1 : I v with
      | none => simp only [idom_rank]; omega
      | some old =>
        simp only [idom_rank]
        have := h old hv1
        omega
    · rw [Function.update_noteq hx]
      have hv2 : v ∈ rest := by
        rcases List.mem_cons.1 hv with e | e
        · exact absurd e.symm hx
        · exact e
      have := ih hv2
      omega

/-! ### One pass -/

theorem pass_ok_weaken (C : dom_ctx) (I : Nat → Option Nat) (f : Nat) (h : pass_ok C I 0) :
    pass_ok C I f := by
  refine ⟨fun v hV hr hle => ?_, fun v t hv => ?_, h.below_meet⟩
  · exact h.done v hV hr (Nat.zero_le _)
  · rcases h.on_par_chain v t hv with h1 | h1
    · exact Or.inl h1
    · omega

theorem take_succ_reverse (l : List Nat) (f h : Nat) (hf : l[f]? = some h) :
    (l.take (f + 1)).reverse = h :: (l.take f).reverse := by
  rw [List.take_succ, hf]
  simp

/-- One pass over the blocks with postorder numbers `f - 1, ..., 0`: it
returns, changes only `idom` fields, keeps the invariants, never lowers the
potential, raises it when it sets the flag, and if the flag stays clear the
state is unchanged and every block of the pass has the meet of its processed
predecessors as immediate dominator. -/
theorem dom_pass_spec (C : dom_ctx) (ir : ir_t) (steps : Nat) (hsteps : 2 * C.N < steps) :
    ∀ (f : Nat) (s : util_state) (changed : Bool), f < C.N → ctx_of C ir s →
      tree_ok C s.idoms → pass_ok C s.idoms f →
      ∃ s1 changed1, dom_pass ir steps (s.postorder.take f).reverse s changed = .ok (s1, changed1) ∧
        idom_frame s s1 ∧ tree_ok C s1.idoms ∧ pass_ok C s1.idoms 0 ∧
        dom_potential C s.idoms s.postorder ≤ dom_potential C s1.idoms s.postorder ∧
        (changed1 = false → changed = false ∧ s1 = s ∧
          ∀ v ∈ s.postorder.take f, ∃ t, s.idoms v = some t ∧ is_meet C s.idoms v t) ∧
        (changed1 = true → changed = true ∨
          dom_potential C s.idoms s.postorder < dom_potential C s1.idoms s.postorder) := by
  intro f
  induction f with
  | zero =>
    intro s changed _ hc ht hp
    refine ⟨s, changed, ?_, idom_frame_refl s, ht, hp, le_refl _, ?_, ?_⟩
    · simp [dom_pass]
    · intro h; exact ⟨h, rfl, by simp⟩
    · intro h; exact Or.inl h
  | succ f ih =>
    intro s changed hf hc ht hp
    have hlen : f < s.postorder.length := by rw [hc.size]; omega
    obtain ⟨hVh, hpoh⟩ := (hc.nth f (s.postorder[f])).1 (List.getElem?_eq_getElem hlen)
    generalize hh : s.postorder[f] = h at hVh hpoh
    have hget : s.postorder[f]? = some h := by rw [List.getElem?_eq_getElem hlen, hh]
    have hmem : h ∈ s.postorder := List.getElem?_mem hget
    have hhr : h ≠ C.root := by
      rintro rfl
      have := hc.last
      omega
    rw [take_succ_reverse _ f h hget]
    simp only [dom_pass]
    rw [if_neg (by rw [← hc.root]; exact hhr)]
    obtain ⟨r, hr, hrok⟩ := new_idom_loop_spec C ir s hc ht steps hsteps (ir.inputs h) [] none
      (by intro p hp'; simp at hp')
    rw [hr]
    simp only [List.nil_append] at hrok
    simp only []
    -- the predecessor `par h` is processed
    have hparV := C.par_V h hVh hhr
    have hparpo := C.par_po h hVh hhr
    have hparproc : processed C s.idoms (C.par h) := by
      by_cases e : C.par h = C.root
      · exact Or.inl e
      · exact Or.inr (hp.done _ hparV e (by omega))
    have hparmem : C.par h ∈ ir.inputs h := by rw [← hc.preds]; exact C.par_pred h hVh hhr
    cases r with
    | none => exact absurd hparproc (hrok _ hparmem)
    | some new =>
      obtain ⟨hVn, hpn, hmeet⟩ := hrok
      have hm : is_meet C s.idoms h new := by
        unfold is_meet; rw [hc.preds]; exact hmeet
      obtain ⟨ht1, hp1, hold⟩ := dom_step C s.idoms f h new ht hp hVh hhr hpoh hm
      by_cases hne : some new = (s.util h).idom
      · -- nothing changes
        rw [if_neg (by simpa using hne)]
        have hsame : Function.update s.idoms h (some new) = s.idoms := by
          rw [hne]; exact Function.update_eq_self h s.idoms
        rw [hsame] at hp1
        obtain ⟨s1, c1, e1, e2, e3, e4, e5, e6, e7⟩ := ih s changed (by omega) hc ht hp1
        refine ⟨s1, c1, e1, e2, e3, e4, e5, ?_, e7⟩
        intro hc1
        obtain ⟨a1, a2, a3⟩ := e6 hc1
        refine ⟨a1, a2, ?_⟩
        intro v hv
        rw [List.take_succ, hget] at hv
        rcases List.mem_append.1 hv with h1 | h1
        · exact a3 v h1
        · have hv' : v = h := by simpa using h1
          rw [hv']
          exact ⟨new, hne.symm, hm⟩
      · rw [if_pos (by simpa using hne)]
        generalize hs' : s.set_util h { s.util h with idom := some new } = s'
        have hfr : idom_frame s s' := by rw [← hs']; exact idom_frame_set_util s h (some new)
        have hid : s'.idoms = Function.update s.idoms h (some new) := by
          rw [← hs']; exact idoms_set_util s h (some new)
        have hpost : s'.postorder = s.postorder := hfr.1
        rw [← hid] at ht1 hp1
        have hc' := ctx_of_frame C ir s s' hc hfr
        obtain ⟨s1, c1, e1, e2, e3, e4, e5, e6, e7⟩ := ih s' true (by omega) hc' ht1 hp1
        rw [hpost] at e1 e5 e6 e7
        have hstrict : dom_potential C s.idoms s.postorder <
            dom_potential C s'.idoms s.postorder := by
          rw [hid]
          apply dom_potential_lt C s.idoms h new _ _ hmem
          intro old ho
          rcases hold old ho with e | e
          · exfalso; apply hne; rw [← e]; exact ho.symm
          · exact e
        refine ⟨s1, c1, e1, idom_frame_trans s s' s1 hfr e2, e3, e4, by omega, ?_, ?_⟩
        · intro hc1
          have := (e6 hc1).1
          simp at this
        · intro _
          right
          omega

/-! ### The iteration -/

theorem reverse_tail_eq_take (l : List Nat) : l.reverse.tail = (l.take (l.length - 1)).reverse := by
  rw [List.tail_reverse, List.dropLast_eq_take]

/-- The iteration of passes returns once the fuel exceeds what the potential
can still grow by, and ends in a state where every visited block other than the
root has the meet of its predecessors as immediate dominator. -/
theorem dom_iterate_spec (C : dom_ctx) (ir : ir_t) (steps : Nat) (hsteps : 2 * C.N < steps) :
    ∀ (fuel : Nat) (s : util_state), ctx_of C ir s → tree_ok C s.idoms →
      pass_ok C s.idoms (C.N - 1) →
      C.N * C.N < fuel + dom_potential C s.idoms s.postorder →
      ∃ u, dom_iterate ir steps fuel s = .ok u ∧ idom_frame s u ∧ tree_ok C u.idoms ∧
        pass_ok C u.idoms 0 ∧
        ∀ v, C.V v → v ≠ C.root → ∃ t, u.idoms v = some t ∧ is_meet C u.idoms v t := by
  intro fuel
  induction fuel with
  | zero =>
    intro s hc ht _ hlt
    have := dom_potential_le C s.idoms ht s.postorder
    rw [hc.size] at this
    omega
  | succ fuel ih =>
    intro s hc ht hp hlt
    simp only [dom_iterate]
    rw [reverse_tail_eq_take, hc.size]
    have hN := hc.last
    obtain ⟨s1, c1, e1, e2, e3, e4, e5, e6, e7⟩ :=
      dom_pass_spec C ir steps hsteps (C.N - 1) s false (by omega) hc ht hp
    rw [e1]
    simp only []
    cases c1 with
    | true =>
      rw [if_pos rfl]
      have hc1 := ctx_of_frame C ir s s1 hc e2
      have hp1 : pass_ok C s1.idoms (C.N - 1) := pass_ok_weaken C s1.idoms _ e4
      have hgrow : dom_potential C s.idoms s.postorder < dom_potential C s1.idoms s.postorder := by
        rcases e7 rfl with h | h
        · simp at h
        · exact h
      obtain ⟨u, hu, hu1, hu2, hu3, hu4⟩ := ih s1 hc1 e3 hp1 (by rw [e2.1]; omega)
      exact ⟨u, hu, idom_frame_trans s s1 u e2 hu1, hu2, hu3, hu4⟩
    | false =>
      simp only [Bool.false_eq_true, if_false]
      obtain ⟨_, hs1, hall⟩ := e6 rfl
      refine ⟨s1, rfl, e2, e3, e4, ?_⟩
      rw [hs1]
      intro v hV hr
      apply hall v
      have h1 := C.po_root v hV
      have h2 : C.po v ≠ C.po C.root := fun e => hr (C.po_inj v C.root hV C.root_V e)
      have h3 : s.postorder[C.po v]? = some v := (hc.nth (C.po v) v).2 ⟨hV, rfl⟩
      rw [List.mem_take_iff_getElem]
      have h4 : C.po v < s.postorder.length := by rw [hc.size]; omega
      refine ⟨C.po v, ?_, ?_⟩
      · rw [hc.size]; omega
      · have := List.getElem?_eq_getElem h4
        rw [h3] at this
        injection this with this
        exact this.symm

end Nesfab

namespace Nesfab

/-! ## Dominator analysis: from the order analysis to the result -/

theorem linked_inputs_outputs (ir : ir_t) (hl : ir.linked) (p v : Nat) :
    p ∈ ir.inputs v ↔ v ∈ ir.outputs p := by
  unfold ir_t.inputs ir_t.outputs
  constructor
  · intro h
    obtain ⟨e, he, hep⟩ := List.mem_map.1 h
    obtain ⟨i, hi⟩ := List.getElem?_of_mem he
    have h1 := hl.2 v i e hi
    rw [hep] at h1
    exact List.mem_map.2 ⟨⟨v, i⟩, List.getElem?_mem h1, rfl⟩
  · intro h
    obtain ⟨e, he, hep⟩ := List.mem_map.1 h
    obtain ⟨i, hi⟩ := List.getElem?_of_mem he
    have h1 := hl.1 p i e hi
    rw [hep] at h1
    exact List.mem_map.2 ⟨⟨p, i⟩, List.getElem?_mem h1, rfl⟩

theorem order_done_reach (ir : ir_t) (t : util_state) (hd : order_done ir t) (v : Nat) :
    (t.util v).postorder_i ≠ none ↔ ir.reachable ir.root v := by
  obtain ⟨hinv, hfin, hroot, _⟩ := hd
  constructor
  · intro hv
    exact hinv.reach v (hinv.post_pre v hv)
  · intro hv
    induction hv with
    | refl => exact hroot
    | tail _ hbc ih => exact hfin _ (hinv.closed _ ih _ hbc)

theorem getElem?_lt_length {α : Type} (l : List α) (i : Nat) (a : α) (h : l[i]? = some a) :
    i < l.length := by
  by_contra hc
  rw [List.getElem?_eq_none (not_lt.1 hc)] at h
  exact Option.noConfusion h

/-- A completed order analysis on a graph with linked edges supplies the
context of the dominator iteration. -/
theorem exists_ctx (ir : ir_t) (hl : ir.linked) (t : util_state) (hd : order_done ir t) :
    ∃ C : dom_ctx, ctx_of C ir t ∧ (∀ v, C.V v ↔ ir.reachable ir.root v) ∧
      (∀ v, C.V v ↔ (t.util v).postorder_i ≠ none) := by
  have hreach := order_done_reach ir t hd
  obtain ⟨hinv, hfin, hroot, l, hlast⟩ := hd
  have hpar : ∀ v, ∃ p, (t.util v).postorder_i ≠ none → v ≠ ir.root →
      v ∈ ir.outputs p ∧ (t.util p).postorder_i ≠ none ∧
      (t.util v).postorder_i.getD 0 < (t.util p).postorder_i.getD 0 := by
    intro v
    by_cases hv : (t.util v).postorder_i ≠ none ∧ v ≠ ir.root
    · obtain ⟨b, hb⟩ := Option.ne_none_iff_exists'.1 (hinv.post_pre v hv.1)
      rcases hinv.parent v b hb with h | ⟨p, a, h1, h2, _, h4⟩
      · exact absurd h hv.2
      · have hp : (t.util p).postorder_i ≠ none := hfin p (by rw [h2]; simp)
        obtain ⟨j, hj⟩ := Option.ne_none_iff_exists'.1 hp
        obtain ⟨i, hi, hij⟩ := h4 j hj
        refine ⟨p, fun _ _ => ⟨h1, hp, ?_⟩⟩
        rw [hi, hj]
        exact hij
    · exact ⟨0, fun h1 h2 => absurd ⟨h1, h2⟩ hv⟩
  choose par hpar using hpar
  have hrootpo : (t.util ir.root).postorder_i = some l.length := by
    rw [hinv.post_iff, hlast]
    simp
  have hlen : t.postorder.length = l.length + 1 := by rw [hlast]; simp
  have hlt : ∀ v, (t.util v).postorder_i ≠ none →
      (t.util v).postorder_i.getD 0 < t.postorder.length := by
    intro v hv
    obtain ⟨i, hi⟩ := Option.ne_none_iff_exists'.1 hv
    rw [hi]
    exact getElem?_lt_length _ _ _ ((hinv.post_iff v i).1 hi)
  refine ⟨{ root := ir.root
            po := fun v => (t.util v).postorder_i.getD 0
            V := fun v => (t.util v).postorder_i ≠ none
            preds := ir.inputs
            succs := ir.outputs
            par := par
            N := t.postorder.length
            root_V := hroot
            po_lt := hlt
            po_root := ?_
            po_inj := ?_
            par_V := fun v hV hr => (hpar v hV hr).2.1
            par_pred := fun v hV hr => (linked_inputs_outputs ir hl _ _).2 (hpar v hV hr).1
            par_po := fun v hV hr => (hpar v hV hr).2.2
            pred_succ := linked_inputs_outputs ir hl
            reach_V := hreach }, ?_, hreach, fun v => Iff.rfl⟩
  · intro v hV
    have := hlt v hV
    show (t.util v).postorder_i.getD 0 ≤ (t.util ir.root).postorder_i.getD 0
    rw [hrootpo]
    simp only [Option.getD_some]
    omega
  · intro a b ha hb hab
    obtain ⟨i, hi⟩ := Option.ne_none_iff_exists'.1 ha
    obtain ⟨j, hj⟩ := Option.ne_none_iff_exists'.1 hb
    simp only [hi, hj, Option.getD_some] at hab
    rw [hab] at hi
    have h1 := (hinv.post_iff a j).1 hi
    have h2 := (hinv.post_iff b j).1 hj
    rw [h1] at h2
    injection h2
  · refine ⟨rfl, rfl, rfl, ?_, rfl, ?_, ?_⟩
    · intro v hV
      obtain ⟨i, hi⟩ := Option.ne_none_iff_exists'.1 hV
      show (t.util v).postorder_i = some ((t.util v).postorder_i.getD 0)
      rw [hi]; rfl
    · intro i v
      show t.postorder[i]? = some v ↔
        (t.util v).postorder_i ≠ none ∧ (t.util v).postorder_i.getD 0 = i
      rw [← hinv.post_iff]
      constructor
      · intro h; rw [h]; simp
      · rintro ⟨h1, h2⟩
        obtain ⟨j, hj⟩ := Option.ne_none_iff_exists'.1 h1
        rw [hj] at h2 ⊢
        simp only [Option.getD_some] at h2
        rw [h2]
    · show (t.util ir.root).postorder_i.getD 0 + 1 = t.postorder.length
      rw [hrootpo, hlen]; rfl

/-! ### Paths -/

theorem avoiding_iff_path (C : dom_ctx) (ir : ir_t) (hs : C.succs = ir.outputs) (d a b : Nat) :
    avoiding C d a b ↔ ∃ l, ir.is_path a l b ∧ d ∉ l := by
  constructor
  · intro h
    induction h using Relation.ReflTransGen.head_induction_on with
    | refl => exact ⟨[], rfl, by simp⟩
    | @head x y hstep _ ih =>
      obtain ⟨l, hl1, hl2⟩ := ih
      refine ⟨y :: l, ⟨by rw [← hs]; exact hstep.1, hl1⟩, ?_⟩
      intro hmem
      rcases List.mem_cons.1 hmem with e | e
      · exact hstep.2 e.symm
      · exact hl2 e
  · rintro ⟨l, hl1, hl2⟩
    induction l generalizing a with
    | nil =>
      have : a = b := hl1
      rw [this]
      exact Relation.ReflTransGen.refl
    | cons x rest ih =>
      obtain ⟨h1, h2⟩ := hl1
      have hx : x ≠ d := fun e => hl2 (by rw [e]; simp)
      have hrest : d ∉ rest := fun e => hl2 (List.mem_cons_of_mem _ e)
      exact Relation.ReflTransGen.head ⟨by rw [hs]; exact h1, hx⟩ (ih x h2 hrest)

theorem ctx_dominates_iff (C : dom_ctx) (ir : ir_t) (hs : C.succs = ir.outputs)
    (hr : C.root = ir.root) (d b : Nat) : ctx_dominates C d b ↔ ir.dominates d b := by
  unfold ctx_dominates ir_t.dominates
  rw [avoiding_iff_path C ir hs, hr]
  constructor
  · intro h l hl
    rcases h with h | h
    · rw [h]; simp
    · by_contra hc
      exact h ⟨l, hl, fun e => hc (List.mem_cons_of_mem _ e)⟩
  · intro h
    by_cases hd : d = ir.root
    · exact Or.inl hd
    · right
      rintro ⟨l, hl1, hl2⟩
      rcases List.mem_cons.1 (h l hl1) with e | e
      · exact hd e
      · exact hl2 e

/-! ### The fixpoint -/

/-- At a fixpoint no path from the root that avoids `d` ends in a block with
`d` on its immediate-dominator chain. -/
theorem fixpoint_sound (C : dom_ctx) (I : Nat → Option Nat) (ht : tree_ok C I)
    (hfix : ∀ v, C.V v → v ≠ C.root → ∃ t, I v = some t ∧ is_meet C I v t) (d : Nat)
    (hd : d ≠ C.root) (x : Nat) (hav : avoiding C d C.root x) : ¬ idom_chain I x d := by
  induction hav with
  | refl =>
    intro h
    exact hd (idom_chain_root C I ht d h)
  | @tail x y hxy hstep ih =>
    intro hyd
    have hVx : C.V x := avoiding_reach C d _ _ hxy C.root_V
    have hVy : C.V y := avoiding_reach C d _ _ (Relation.ReflTransGen.tail hxy hstep) C.root_V
    rcases Relation.ReflTransGen.cases_head hyd with e | ⟨t1, h1, h2⟩
    · exact hstep.2 e
    · have h1 : I y = some t1 := h1
      have hyr : y ≠ C.root := (ht.assigned y t1 h1).2.1
      obtain ⟨t, ht1, hmeet⟩ := hfix y hVy hyr
      rw [h1] at ht1
      injection ht1 with ht1
      rw [← ht1] at hmeet
      have hpx : processed C I x := by
        by_cases e : x = C.root
        · exact Or.inl e
        · obtain ⟨tx, htx, _⟩ := hfix x hVx e
          right; rw [htx]; simp
      have hx : idom_chain I x t1 := hmeet.1 x ((C.pred_succ x y).2 hstep.1) hpx
      exact ih (hx.trans h2)

theorem fixpoint_dominates (C : dom_ctx) (I : Nat → Option Nat) (ht : tree_ok C I)
    (hfix : ∀ v, C.V v → v ≠ C.root → ∃ t, I v = some t ∧ is_meet C I v t) (v d : Nat)
    (h : idom_chain I v d) : ctx_dominates C d v := by
  by_cases hd : d = C.root
  · exact Or.inl hd
  · right
    intro hav
    exact fixpoint_sound C I ht hfix d hd v hav h

/-! ### The whole analysis -/

theorem reachable_lt (ir : ir_t) (hwf : ir.wf) (v : Nat) (h : ir.reachable ir.root v) :
    v < ir.cfg_size := by
  induction h with
  | refl => exact hwf.1
  | tail _ hbc _ => exact wf_outputs_lt ir hwf _ _ hbc

theorem nodup_length_le (l : List Nat) (n : Nat) (hnd : l.Nodup) (hlt : ∀ x ∈ l, x < n) :
    l.length ≤ n := by
  have h1 : l.toFinset ⊆ Finset.range n := by
    intro x hx
    rw [List.mem_toFinset] at hx
    exact Finset.mem_range.2 (hlt x hx)
  have h2 := Finset.card_le_card h1
  rw [List.toFinset_card_of_nodup hnd, Finset.card_range] at h2
  exact h2

theorem order_done_length (ir : ir_t) (hwf : ir.wf) (t : util_state) (hd : order_done ir t) :
    t.postorder.length ≤ ir.cfg_size := by
  have hreach := order_done_reach ir t hd
  obtain ⟨hinv, _, _, _⟩ := hd
  apply nodup_length_le
  · exact nodup_of_index_iff (fun v => (t.util v).postorder_i) t.postorder hinv.post_iff
  · intro x hx
    have := (mem_iff_index (fun v => (t.util v).postorder_i) t.postorder hinv.post_iff x).1 hx
    exact reachable_lt ir hwf x ((hreach x).1 this)

/-- The state in which the iteration of `build_dominators_from_order` starts. -/
theorem idom_frame_clear (t : util_state) :
    idom_frame t { t with cfg_util_pool := fun h => { t.cfg_util_pool h with idom := none } } :=
  ⟨rfl, rfl, rfl, rfl, fun _ => rfl⟩

/-- The result of `build_dominators_from_order` in the terms of the context:
with enough fuel it returns a state that differs from the input only in the
`idom` fields, and in which the immediate dominators form a tree that is a
fixpoint of the meet. -/
theorem build_dominators_ctx (C : dom_ctx) (ir : ir_t) (t : util_state) (hc : ctx_of C ir t)
    (steps fuel : Nat) (hsteps : 2 * C.N < steps) (hfuel : C.N * C.N < fuel) :
    ∃ u, build_dominators_from_order steps fuel ir t = .ok u ∧ idom_frame t u ∧
      tree_ok C u.idoms ∧ pass_ok C u.idoms 0 ∧
      ∀ v, C.V v → v ≠ C.root → ∃ d, u.idoms v = some d ∧ is_meet C u.idoms v d := by
  unfold build_dominators_from_order
  generalize ht0 : ({ t with cfg_util_pool := fun h => { t.cfg_util_pool h with idom := none } } :
    util_state) = t0
  have hfr : idom_frame t t0 := by rw [← ht0]; exact idom_frame_clear t
  have hI : t0.idoms = fun _ => none := by rw [← ht0]; rfl
  have hc0 := ctx_of_frame C ir t t0 hc hfr
  have ht : tree_ok C t0.idoms := by
    rw [hI]
    constructor <;> intro v t h <;> exact Option.noConfusion h
  have hp : pass_ok C t0.idoms (C.N - 1) := by
    rw [hI]
    refine ⟨fun v hV hr hle => ?_, fun v t h => Option.noConfusion h,
      fun v t c h => Option.noConfusion h⟩
    exfalso
    have h1 := C.po_root v hV
    have h2 := hc.last
    exact hr (C.po_inj v C.root hV C.root_V (by omega))
  obtain ⟨u, hu, hu1, hu2, hu3, hu4⟩ :=
    dom_iterate_spec C ir steps hsteps fuel t0 hc0 ht hp (by omega)
  exact ⟨u, hu, idom_frame_trans t t0 u hfr hu1, hu2, hu3, hu4⟩

/-- The dominator analysis after a completed order analysis: with enough fuel
it returns, changes only `idom` fields, leaves the root and the unreachable
blocks without immediate dominator, and gives every other reachable block its
immediate dominator, a reachable block with a larger postorder number. -/
theorem build_dominators_spec (ir : ir_t) (hwf : ir.wf) (hl : ir.linked) (t : util_state)
    (hd : order_done ir t) (steps fuel : Nat) (hsteps : 2 * ir.cfg_size < steps)
    (hfuel : ir.cfg_size * ir.cfg_size < fuel) :
    ∃ u, build_dominators_from_order steps fuel ir t = .ok u ∧ idom_frame t u ∧
      (u.util ir.root).idom = none ∧
      (∀ b d, (u.util b).idom = some d → ir.reachable ir.root b ∧ ir.reachable ir.root d ∧
        order_lt (u.util b).postorder_i (u.util d).postorder_i = true) ∧
      ∀ b, ir.reachable ir.root b → b ≠ ir.root →
        ∃ d, (u.util b).idom = some d ∧ d ≠ b ∧ ir.dominates d b ∧
          ∀ c, c ≠ b → ir.dominates c b → ir.dominates c d := by
  obtain ⟨C, hc, hreach, _⟩ := exists_ctx ir hl t hd
  have hN : C.N ≤ ir.cfg_size := by rw [← hc.size]; exact order_done_length ir hwf t hd
  have hNN : C.N * C.N ≤ ir.cfg_size * ir.cfg_size := Nat.mul_le_mul hN hN
  obtain ⟨u, hu, hfr, htree, hpass, hfix⟩ :=
    build_dominators_ctx C ir t hc steps fuel (by omega) (by omega)
  have hcu := ctx_of_frame C ir t u hc hfr
  refine ⟨u, hu, hfr, ?_, ?_, ?_⟩
  · have := idom_root C u.idoms htree
    rw [hc.root] at this
    exact this
  · intro b d hbd
    have ha := htree.assigned b d hbd
    refine ⟨(hreach b).1 ha.1, (hreach d).1 ha.2.2.1, ?_⟩
    rw [hcu.po b ha.1, hcu.po d ha.2.2.1]
    simp only [order_lt, decide_eq_true_eq]
    exact ha.2.2.2.2
  · intro b hb hbr
    have hVb := (hreach b).2 hb
    obtain ⟨d, hbd, hmeet⟩ := hfix b hVb (by rw [hc.root]; exact hbr)
    have ha := htree.assigned b d hbd
    refine ⟨d, hbd, ?_, ?_, ?_⟩
    · intro e
      have := ha.2.2.2.2
      rw [e] at this
      exact lt_irrefl _ this
    · rw [← ctx_dominates_iff C ir hc.succs hc.root]
      exact fixpoint_dominates C u.idoms htree hfix b d (Relation.ReflTransGen.single hbd)
    · intro c hcb hdom
      rw [← ctx_dominates_iff C ir hc.succs hc.root] at hdom ⊢
      exact fixpoint_dominates C u.idoms htree hfix d c (htree.dom_above b d hbd c hcb hdom)

end Nesfab

namespace Nesfab

/-! ## The loop pass computes the order of the order pass -/

theorem same_order_refl (s : util_state) : same_order s s :=
  ⟨rfl, rfl, fun _ => ⟨rfl, rfl⟩⟩

theorem same_order_symm (s t : util_state) (h : same_order s t) : same_order t s :=
  ⟨h.1.symm, h.2.1.symm, fun v => ⟨(h.2.2 v).1.symm, (h.2.2 v).2.symm⟩⟩

theorem same_order_trans (s t u : util_state) (h1 : same_order s t) (h2 : same_order t u) :
    same_order s u :=
  ⟨h1.1.trans h2.1, h1.2.1.trans h2.2.1,
    fun v => ⟨(h1.2.2 v).1.trans (h2.2.2 v).1, (h1.2.2 v).2.trans (h2.2.2 v).2⟩⟩

/-- Storing a util that keeps both order numbers keeps the order results. -/
theorem same_order_set_util (s : util_state) (h : Nat) (u : cfg_util_d)
    (h1 : u.preorder_i = (s.util h).preorder_i) (h2 : u.postorder_i = (s.util h).postorder_i) :
    same_order (s.set_util h u) s := by
  refine ⟨rfl, rfl, fun v => ?_⟩
  rw [util_set_util]
  by_cases hv : v = h
  · rw [if_pos hv, hv]; exact ⟨h1, h2⟩
  · rw [if_neg hv]; exact ⟨rfl, rfl⟩

theorem same_order_set_irreducible (s : util_state) (h : Nat) :
    same_order (s.set_irreducible h) s :=
  ⟨rfl, rfl, fun _ => ⟨rfl, rfl⟩⟩

theorem same_order_push_preorder (s t : util_state) (h : Nat) (hst : same_order s t) :
    same_order (push_preorder s h) (push_preorder t h) := by
  obtain ⟨h1, h2, h3⟩ := hst
  refine ⟨?_, ?_, fun v => ?_⟩
  · rw [preorder_push_preorder, preorder_push_preorder, h1]
  · rw [postorder_push_preorder, postorder_push_preorder, h2]
  · rw [util_push_preorder, util_push_preorder]
    by_cases hv : v = h
    · simp only [hv, if_true]; rw [h1]; exact ⟨rfl, (h3 h).2⟩
    · simp only [hv, if_false]; exact h3 v

theorem same_order_push_postorder (s t : util_state) (h : Nat) (hst : same_order s t) :
    same_order (push_postorder s h) (push_postorder t h) := by
  obtain ⟨h1, h2, h3⟩ := hst
  refine ⟨?_, ?_, fun v => ?_⟩
  · rw [preorder_push_postorder, preorder_push_postorder, h1]
  · rw [postorder_push_postorder, postorder_push_postorder, h2]
  · rw [util_push_postorder, util_push_postorder]
    by_cases hv : v = h
    · simp only [hv, if_true]; rw [h2]; exact ⟨(h3 h).1, rfl⟩
    · simp only [hv, if_false]; exact h3 v

theorem tag_loop_header_loop_order :
    ∀ (steps : Nat) (s : util_state) (node header : Nat) (t : util_state),
      tag_loop_header_loop steps s node header = .ok t → same_order t s := by
  intro steps
  induction steps with
  | zero => intro s node header t h; simp [tag_loop_header_loop] at h
  | succ steps ih =>
    intro s node header t h
    simp only [tag_loop_header_loop] at h
    cases hn : (s.util node).iloop_header with
    | none =>
      rw [hn] at h
      simp only [outcome.ok.injEq] at h
      rw [← h]
      exact same_order_set_util s node _ rfl rfl
    | some c =>
      rw [hn] at h
      simp only at h
      split_ifs at h with h1 h2 h3 h4
      · simp only [outcome.ok.injEq] at h
        rw [← h]; exact same_order_refl s
      · exact same_order_trans _ _ _ (ih _ _ _ _ h) (same_order_set_util s node _ rfl rfl)
      · exact ih _ _ _ _ h

theorem _tag_loop_header_order (steps : Nat) (s : util_state) (node : Nat) (header : Option Nat)
    (t : util_state) (h : _tag_loop_header steps s node header = .ok t) : same_order t s := by
  unfold _tag_loop_header at h
  cases header with
  | none =>
    simp only [outcome.ok.injEq] at h
    rw [← h]; exact same_order_refl s
  | some hd =>
    simp only at h
    split_ifs at h
    · simp only [outcome.ok.injEq] at h
      rw [← h]; exact same_order_refl s
    · exact tag_loop_header_loop_order steps s node hd t h

theorem reentry_walk_order :
    ∀ (steps : Nat) (s : util_state) (node header0 : Nat) (t : util_state),
      reentry_walk steps s node header0 = .ok t → same_order t s := by
  intro steps
  induction steps with
  | zero => intro s node header t h; simp [reentry_walk] at h
  | succ steps ih =>
    intro s node header0 t h
    simp only [reentry_walk] at h
    cases hn : (s.util header0).iloop_header with
    | none =>
      rw [hn] at h
      simp only [outcome.ok.injEq] at h
      rw [← h]; exact same_order_refl s
    | some c =>
      rw [hn] at h
      simp only at h
      split_ifs at h
      · exact _tag_loop_header_order steps s node (some c) t h
      · exact same_order_trans _ _ _ (ih _ _ _ _ h) (same_order_set_irreducible s c)

theorem visit_loops_edge_order (lay : util_layout)
    (visitL : util_state → Nat → outcome (util_state × Option Nat))
    (visitO : util_state → Nat → Option util_state) (hsim : visit_sim visitL visitO)
    (steps node i : Nat) (e : cfg_reverse_edge_t) (s s' t : util_state) (hss : same_order s s')
    (h : visit_loops_edge lay visitL steps node i e s = .ok t) :
    if (s'.util e.node).preorder_i = none then
      ∃ t', visitO s' e.node = some t' ∧ same_order t t'
    else same_order t s' := by
  unfold visit_loops_edge at h
  simp only at h
  rw [← (hss.2.2 e.node).1]
  by_cases hpre : (s.util e.node).preorder_i = none
  · rw [if_pos hpre] at h ⊢
    cases hv : visitL s e.node with
    | ok p =>
      obtain ⟨s1, r⟩ := p
      rw [hv] at h
      simp only at h
      obtain ⟨t', ht', hst'⟩ := hsim s s' e.node s1 r hss hv
      exact ⟨t', ht', same_order_trans _ _ _ (_tag_loop_header_order _ _ _ _ _ h) hst'⟩
    | error msg => rw [hv] at h; simp at h
    | assert_fail => rw [hv] at h; simp at h
    | out_of_fuel => rw [hv] at h; simp at h
  · rw [if_neg hpre] at h ⊢
    by_cases hpost : (s.util e.node).postorder_i = none
    · rw [if_pos hpost] at h
      have h1 := _tag_loop_header_order _ _ _ _ _ h
      refine same_order_trans _ _ _ h1 (same_order_trans _ s _ ?_ hss)
      split_ifs
      · exact same_order_refl s
      · exact same_order_trans _ (s.set_util e.node
            { s.util e.node with is_loop_header := true }) _ ⟨rfl, rfl, fun _ => ⟨rfl, rfl⟩⟩
          (same_order_set_util s e.node _ rfl rfl)
    · rw [if_neg hpost] at h
      cases hh : (s.util e.node).iloop_header with
      | none =>
        rw [hh] at h
        simp only [outcome.ok.injEq] at h
        rw [← h]; exact hss
      | some header =>
        rw [hh] at h
        simp only at h
        split_ifs at h
        · exact same_order_trans _ _ _ (_tag_loop_header_order _ _ _ _ _ h) hss
        · have h1 := reentry_walk_order _ _ _ _ _ h
          refine same_order_trans _ _ _ h1 (same_order_trans _ s _ ?_ hss)
          refine same_order_trans _ _ _ (same_order_set_irreducible _ header) ?_
          refine same_order_trans _ _ _ (same_order_set_util _ e.node _ rfl rfl) ?_
          exact same_order_set_util s node _ rfl rfl

theorem visit_loops_succs_order (lay : util_layout)
    (visitL : util_state → Nat → outcome (util_state × Option Nat))
    (visitO : util_state → Nat → Option util_state) (hsim : visit_sim visitL visitO)
    (steps node : Nat) :
    ∀ (l : List (Nat × cfg_reverse_edge_t)) (s s' t : util_state), same_order s s' →
      visit_loops_succs lay visitL steps node l s = .ok t →
      ∃ t', visit_order_succs visitO (l.map (fun p => p.2.node)) s' = some t' ∧
        same_order t t' := by
  intro l
  induction l with
  | nil =>
    intro s s' t hss h
    simp only [visit_loops_succs, outcome.ok.injEq] at h
    rw [← h]
    exact ⟨s', rfl, hss⟩
  | cons p rest ih =>
    intro s s' t hss h
    obtain ⟨i, e⟩ := p
    simp only [visit_loops_succs] at h
    simp only [List.map_cons, visit_order_succs]
    cases he : visit_loops_edge lay visitL steps node i e s with
    | ok s1 =>
      rw [he] at h
      simp only at h
      have hedge := visit_loops_edge_order lay visitL visitO hsim steps node i e s s' s1 hss he
      by_cases hpre : (s'.util e.node).preorder_i = none
      · rw [if_pos hpre] at hedge ⊢
        obtain ⟨t1, ht1, hst1⟩ := hedge
        rw [ht1]
        exact ih s1 t1 t hst1 h
      · rw [if_neg hpre] at hedge ⊢
        exact ih s1 s' t hedge h
    | error msg => rw [he] at h; simp at h
    | assert_fail => rw [he] at h; simp at h
    | out_of_fuel => rw [he] at h; simp at h

theorem enum_map_node (l : List cfg_reverse_edge_t) :
    l.enum.map (fun p => p.2.node) = l.map (·.node) := by
  have : (fun p : Nat × cfg_reverse_edge_t => p.2.node) = (fun e => e.node) ∘ Prod.snd := rfl
  rw [this, ← List.map_map, List.enum_map_snd]

/-- Whenever `_visit_loops` returns, `_visit_order` with the same fuel returns
from a state with the same order results in a state with the same order
results. -/
theorem _visit_loops_order (lay : util_layout) (ir : ir_t) (steps : Nat) :
    ∀ fuel : Nat, visit_sim (_visit_loops lay ir steps fuel) (_visit_order ir fuel) := by
  intro fuel
  induction fuel with
  | zero => intro s s' w t r _ h; simp [_visit_loops] at h
  | succ fuel ih =>
    intro s s' w t r hss h
    simp only [_visit_loops] at h
    simp only [_visit_order]
    cases hl : visit_loops_succs lay (_visit_loops lay ir steps fuel) steps w
        ((ir.cfg w).output_vec.enum) (push_preorder s w) with
    | ok s2 =>
      rw [hl] at h
      simp only [outcome.ok.injEq, Prod.mk.injEq] at h
      obtain ⟨t2, ht2, hst2⟩ := visit_loops_succs_order lay _ _ ih steps w _ _
        (push_preorder s' w) s2 (same_order_push_preorder s s' w hss) hl
      rw [enum_map_node] at ht2
      unfold ir_t.outputs
      rw [ht2]
      refine ⟨_, rfl, ?_⟩
      rw [← h.1]
      exact same_order_push_postorder s2 t2 w hst2
    | error msg => rw [hl] at h; simp at h
    | assert_fail => rw [hl] at h; simp at h
    | out_of_fuel => rw [hl] at h; simp at h

theorem same_order_reset (s s' : util_state) : same_order (loops_reset s) (order_reset s') :=
  ⟨rfl, rfl, fun _ => ⟨rfl, rfl⟩⟩

/-- Whenever `build_loops_and_order` returns, `build_order` returns with the
same fuel and leaves the same order results. -/
theorem build_loops_order (lay : util_layout) (steps fuel : Nat) (ir : ir_t)
    (s s' t : util_state) (h : build_loops_and_order lay steps fuel ir s = .ok t) :
    ∃ t', build_order fuel ir s' = some t' ∧ same_order t t' := by
  unfold build_loops_and_order at h
  cases hv : _visit_loops lay ir steps fuel (loops_reset s) ir.root with
  | ok p =>
    obtain ⟨t1, r⟩ := p
    rw [hv] at h
    simp only [outcome.ok.injEq] at h
    rw [← h]
    exact _visit_loops_order lay ir steps fuel _ _ _ _ _ (same_order_reset s s') hv
  | error msg => rw [hv] at h; simp at h
  | assert_fail => rw [hv] at h; simp at h
  | out_of_fuel => rw [hv] at h; simp at h

/-! ### Completed order analyses -/

theorem order_inv_same (ir : ir_t) (s t : util_state) (hst : same_order s t)
    (h : order_inv ir t) : order_inv ir s := by
  obtain ⟨h1, h2, h3⟩ := hst
  refine ⟨fun v i => ?_, fun v i => ?_, fun v => ?_, fun v => ?_, fun v => ?_, fun v b => ?_⟩
  · rw [(h3 v).1, h1]; exact h.pre_iff v i
  · rw [(h3 v).2, h2]; exact h.post_iff v i
  · rw [(h3 v).1, (h3 v).2]; exact h.post_pre v
  · rw [(h3 v).2]
    intro hv w hw
    rw [(h3 w).1]; exact h.closed v hv w hw
  · rw [(h3 v).1]; exact h.reach v
  · rw [(h3 v).1]
    intro hv
    rcases h.parent v b hv with e | ⟨p, a, e1, e2, e3, e4⟩
    · exact Or.inl e
    · refine Or.inr ⟨p, a, e1, by rw [(h3 p).1]; exact e2, e3, ?_⟩
      rw [(h3 p).2, (h3 v).2]; exact e4

theorem order_done_same (ir : ir_t) (s t : util_state) (hst : same_order s t)
    (h : order_done ir t) : order_done ir s := by
  obtain ⟨h1, h2, h3, h4⟩ := h
  refine ⟨order_inv_same ir s t hst h1, fun v => ?_, ?_, ?_⟩
  · rw [(hst.2.2 v).1, (hst.2.2 v).2]; exact h2 v
  · rw [(hst.2.2 _).2]; exact h3
  · rw [hst.2.1]; exact h4

theorem build_order_done (ir : ir_t) (s t : util_state) (fuel : Nat)
    (h : build_order fuel ir s = some t) : order_done ir t := by
  obtain ⟨hstep, hroot, _, l, hl⟩ := build_order_post ir s t fuel h
  refine ⟨hstep.inv, fun v hv => hstep.fin v rfl hv, hroot, l, ?_⟩
  rw [hl]; rfl

theorem build_loops_done (lay : util_layout) (steps fuel : Nat) (ir : ir_t) (s t : util_state)
    (h : build_loops_and_order lay steps fuel ir s = .ok t) : order_done ir t := by
  obtain ⟨t', ht', hst⟩ := build_loops_order lay steps fuel ir s s t h
  exact order_done_same ir t t' hst (build_order_done ir s t' fuel ht')

end Nesfab

namespace Nesfab

/-! ## Dominance soundness -/

theorem cfg_of_size_le (ir : ir_t) (h : Nat) (hh : ir.cfg_size ≤ h) : ir.cfg h = ⟨[], []⟩ := by
  unfold ir_t.cfg
  exact List.getD_eq_default _ _ hh

theorem linked_of_check (ir : ir_t) (hc : ir.linked_check) : ir.linked := by
  constructor
  · intro h i e he
    have hh : h < ir.cfg_size := by
      by_contra hc'
      rw [cfg_of_size_le ir h (not_lt.1 hc')] at he
      simp at he
    have hi := getElem?_lt_length _ _ _ he
    have := hc.1 h hh i hi
    rw [List.getD_eq_getElem?_getD, he] at this
    exact this
  · intro h i e he
    have hh : h < ir.cfg_size := by
      by_contra hc'
      rw [cfg_of_size_le ir h (not_lt.1 hc')] at he
      simp at he
    have hi := getElem?_lt_length _ _ _ he
    have := hc.2 h hh i hi
    rw [List.getD_eq_getElem?_getD, he] at this
    exact this

/-- C2. Dominance soundness. On a CFG whose edges are linked, `build_order`
returns (fuel covering the number of blocks), and after `build_order` or a
completed `build_loops_and_order`, `build_dominators_from_order` returns (inner
steps above twice, passes above the square of the number of blocks) a state in
which the root has no immediate dominator and every other block `b` reachable
from the root has one, `d`, with `d ≠ b`, every path from the root to `b`
passing through `d`, and every other dominator `c ≠ b` of `b` dominating `d`. -/
theorem dominance_soundness (ir : ir_t) (hwf : ir.wf) (hl : ir.linked) (s : util_state)
    (lay : util_layout) (fuel steps passes lsteps lfuel : Nat) (hfuel : ir.cfg_size ≤ fuel)
    (hsteps : 2 * ir.cfg_size < steps) (hpasses : ir.cfg_size * ir.cfg_size < passes) :
    (∃ t, build_order fuel ir s = some t) ∧
    ∀ t, (build_order fuel ir s = some t ∨
        build_loops_and_order lay lsteps lfuel ir s = .ok t) →
      ∃ u, build_dominators_from_order steps passes ir t = .ok u ∧
        (u.util ir.root).idom = none ∧
        ∀ b, ir.reachable ir.root b → b ≠ ir.root →
          ∃ d, (u.util b).idom = some d ∧ d ≠ b ∧ ir.dominates d b ∧
            ∀ c, c ≠ b → ir.dominates c b → ir.dominates c d := by
  refine ⟨?_, ?_⟩
  · obtain ⟨t, ht, _⟩ := build_order_returns ir hwf s fuel hfuel
    exact ⟨t, ht⟩
  · intro t ht
    have hd : order_done ir t := by
      rcases ht with ht | ht
      · exact build_order_done ir s t fuel ht
      · exact build_loops_done lay lsteps lfuel ir s t ht
    obtain ⟨u, hu, _, hroot, _, hall⟩ :=
      build_dominators_spec ir hwf hl t hd steps passes hsteps hpasses
    exact ⟨u, hu, hroot, hall⟩

/-- Witness for C2: the diamond with an unreachable fifth block. -/
theorem dominance_soundness_witness :
    (∃ t, build_order 5 diamond_ir util_state.init = some t) ∧
    ∀ t, (build_order 5 diamond_ir util_state.init = some t ∨
        build_loops_and_order layout64 8 5 diamond_ir util_state.init = .ok t) →
      ∃ u, build_dominators_from_order 11 26 diamond_ir t = .ok u ∧
        (u.util diamond_ir.root).idom = none ∧
        ∀ b, diamond_ir.reachable diamond_ir.root b → b ≠ diamond_ir.root →
          ∃ d, (u.util b).idom = some d ∧ d ≠ b ∧ diamond_ir.dominates d b ∧
            ∀ c, c ≠ b → diamond_ir.dominates c b → diamond_ir.dominates c d :=
  dominance_soundness diamond_ir (by decide) (linked_of_check _ (by decide)) util_state.init
    layout64 5 11 26 8 5 (by decide) (by decide) (by decide)

end Nesfab

namespace Nesfab

/-! ## The idom chain, the closing assertions, and the two traversals -/

theorem dominates_self (s : util_state) (steps a : Nat) :
    cfg_node_t.dominates s (steps + 1) a a = some true := by
  simp [cfg_node_t.dominates]

theorem dominates_root_ctx (C : dom_ctx) (u : util_state) (ht : tree_ok C u.idoms)
    (hall : ∀ v, C.V v → v ≠ C.root → u.idoms v ≠ none) :
    ∀ (k b : Nat), C.V b → C.po C.root - C.po b < k →
      cfg_node_t.dominates u k C.root b = some true := by
  intro k
  induction k with
  | zero => intro b _ h; omega
  | succ k ih =>
    intro b hV hk
    simp only [cfg_node_t.dominates]
    by_cases hb : C.root = b
    · rw [if_pos hb]
    · rw [if_neg hb]
      obtain ⟨d, hd⟩ := Option.ne_none_iff_exists'.1 (hall b hV (fun e => hb e.symm))
      have hd' : (u.util b).idom = some d := hd
      rw [hd']
      simp only
      have ha := ht.assigned b d hd
      have h1 := C.po_root d ha.2.2.1
      exact ih d ha.2.2.1 (by have := ha.2.2.2.2; omega)

theorem idom_trans_po (C : dom_ctx) (I : Nat → Option Nat) (ht : tree_ok C I) (a b : Nat)
    (h : Relation.TransGen (fun x y => I x = some y) a b) : C.po a < C.po b := by
  induction h with
  | single h1 => exact (ht.assigned _ _ h1).2.2.2.2
  | tail _ h2 ih => exact lt_trans ih (ht.assigned _ _ h2).2.2.2.2

/-- The immediate-dominator chains left by the dominator analysis: the walk
from every reachable block meets the root within as many steps as there are
blocks, and no chain returns to where it started. -/
theorem build_dominators_chain (ir : ir_t) (hwf : ir.wf) (hl : ir.linked) (t : util_state)
    (hd : order_done ir t) (steps fuel : Nat) (hsteps : 2 * ir.cfg_size < steps)
    (hfuel : ir.cfg_size * ir.cfg_size < fuel) :
    ∃ u, build_dominators_from_order steps fuel ir t = .ok u ∧
      (∀ k b, ir.cfg_size ≤ k → ir.reachable ir.root b →
        cfg_node_t.dominates u k ir.root b = some true) ∧
      ∀ b, ¬ Relation.TransGen (fun x y => (u.util x).idom = some y) b b := by
  obtain ⟨C, hc, hreach, _⟩ := exists_ctx ir hl t hd
  have hN : C.N ≤ ir.cfg_size := by rw [← hc.size]; exact order_done_length ir hwf t hd
  have hNN : C.N * C.N ≤ ir.cfg_size * ir.cfg_size := Nat.mul_le_mul hN hN
  obtain ⟨u, hu, hfr, htree, hpass, hfix⟩ :=
    build_dominators_ctx C ir t hc steps fuel (by omega) (by omega)
  refine ⟨u, hu, ?_, ?_⟩
  · intro k b hk hb
    have hVb := (hreach b).2 hb
    have := dominates_root_ctx C u htree
      (fun v hV hr => by obtain ⟨d, hd, _⟩ := hfix v hV hr; rw [hd]; simp) k b hVb
      (by have := hc.last; omega)
    rw [hc.root] at this
    exact this
  · intro b hb
    exact lt_irrefl _ (idom_trans_po C u.idoms htree b b hb)

/-- C13. With `dominates(a, b)` the walk along immediate dominators from `b`:
after the order analysis (`build_order`, which returns, or a completed
`build_loops_and_order`) and the dominator analysis, `dominates(a, a)` holds for
every block `a`, `dominates(root, b)` holds for every block `b` reachable from
the root, and the immediate-dominator links contain no cycle. -/
theorem dominates_reflexive_rooted (ir : ir_t) (hwf : ir.wf) (hl : ir.linked) (s : util_state)
    (lay : util_layout) (fuel steps passes lsteps lfuel k : Nat) (hfuel : ir.cfg_size ≤ fuel)
    (hsteps : 2 * ir.cfg_size < steps) (hpasses : ir.cfg_size * ir.cfg_size < passes)
    (hk : ir.cfg_size ≤ k) :
    (∃ t, build_order fuel ir s = some t) ∧
    ∀ t, (build_order fuel ir s = some t ∨
        build_loops_and_order lay lsteps lfuel ir s = .ok t) →
      ∃ u, build_dominators_from_order steps passes ir t = .ok u ∧
        (∀ a, cfg_node_t.dominates u k a a = some true) ∧
        (∀ b, ir.reachable ir.root b → cfg_node_t.dominates u k ir.root b = some true) ∧
        ∀ b, ¬ Relation.TransGen (fun x y => (u.util x).idom = some y) b b := by
  refine ⟨?_, ?_⟩
  · obtain ⟨t, ht, _⟩ := build_order_returns ir hwf s fuel hfuel
    exact ⟨t, ht⟩
  · intro t ht
    have hd : order_done ir t := by
      rcases ht with ht | ht
      · exact build_order_done ir s t fuel ht
      · exact build_loops_done lay lsteps lfuel ir s t ht
    obtain ⟨u, hu, hroot, hacyc⟩ :=
      build_dominators_chain ir hwf hl t hd steps passes hsteps hpasses
    refine ⟨u, hu, ?_, fun b hb => hroot k b hk hb, hacyc⟩
    intro a
    have hpos : 0 < k := by have := hwf.1; omega
    obtain ⟨k', rfl⟩ : ∃ k', k = k' + 1 := ⟨k - 1, by omega⟩
    exact dominates_self u k' a

/-- Witness for C13: the loop scenario. -/
theorem dominates_reflexive_rooted_witness :
    (∃ t, build_order 4 loop_ir util_state.init = some t) ∧
    ∀ t, (build_order 4 loop_ir util_state.init = some t ∨
        build_loops_and_order layout64 8 4 loop_ir util_state.init = .ok t) →
      ∃ u, build_dominators_from_order 9 17 loop_ir t = .ok u ∧
        (∀ a, cfg_node_t.dominates u 4 a a = some true) ∧
        (∀ b, loop_ir.reachable loop_ir.root b →
          cfg_node_t.dominates u 4 loop_ir.root b = some true) ∧
        ∀ b, ¬ Relation.TransGen (fun x y => (u.util x).idom = some y) b b :=
  dominates_reflexive_rooted loop_ir (by decide) (linked_of_check _ (by decide)) util_state.init
    layout64 4 9 17 8 4 4 (by decide) (by decide) (by decide) (by decide)

/-- C18. `build_dominators_from_order` terminates on every CFG whose order has
been computed by `build_order` or by a completed `build_loops_and_order`: with
inner steps above twice the number of blocks and passes above its square the
call returns, so no call of `dom_intersect` fails its assertion or walks
without end, and the passes stop. -/
theorem build_dominators_terminates (ir : ir_t) (hwf : ir.wf) (hl : ir.linked)
    (s : util_state) (lay : util_layout) (fuel steps passes lsteps lfuel : Nat)
    (hsteps : 2 * ir.cfg_size < steps) (hpasses : ir.cfg_size * ir.cfg_size < passes)
    (t : util_state)
    (ht : build_order fuel ir s = some t ∨
      build_loops_and_order lay lsteps lfuel ir s = .ok t) :
    ∃ u, build_dominators_from_order steps passes ir t = .ok u := by
  have hd : order_done ir t := by
    rcases ht with ht | ht
    · exact build_order_done ir s t fuel ht
    · exact build_loops_done lay lsteps lfuel ir s t ht
  obtain ⟨u, hu, _⟩ := build_dominators_spec ir hwf hl t hd steps passes hsteps hpasses
  exact ⟨u, hu⟩

/-- Witness for C18: the loop scenario after the loop pass. -/
theorem build_dominators_terminates_witness :
    ∃ t, build_loops_and_order layout64 8 4 loop_ir util_state.init = .ok t ∧
      ∃ u, build_dominators_from_order 9 17 loop_ir t = .ok u := by
  have h : ∃ t, build_loops_and_order layout64 8 4 loop_ir util_state.init = .ok t :=
    ⟨_, rfl⟩
  obtain ⟨t, ht⟩ := h
  exact ⟨t, ht, build_dominators_terminates loop_ir (by decide) (linked_of_check _ (by decide))
    util_state.init layout64 4 9 17 8 4 (by decide) (by decide) t (Or.inr ht)⟩

/-! ### The closing assertions -/

theorem order_front_back (ir : ir_t) (s t : util_state) (fuel : Nat)
    (h : build_order fuel ir s = some t) :
    (∃ l, t.preorder = ir.root :: l) ∧ ∃ l, t.postorder = l ++ [ir.root] := by
  obtain ⟨_, _, ⟨l1, h1⟩, ⟨l2, h2⟩⟩ := build_order_post ir s t fuel h
  exact ⟨⟨l1, by rw [h1]; rfl⟩, ⟨l2, by rw [h2]; rfl⟩⟩

/-- C14. After `build_order` (which returns once the fuel covers the number of
blocks), and after `build_loops_and_order` when it completes: `preorder` and
`postorder` are non-empty, `preorder.front()` and `postorder.back()` are the
root, and the assertions that close both functions hold. -/
theorem order_asserts_hold (ir : ir_t) (hwf : ir.wf) (s : util_state) (lay : util_layout)
    (fuel lsteps lfuel : Nat) (hfuel : ir.cfg_size ≤ fuel) :
    (∃ t, build_order fuel ir s = some t) ∧
    ∀ t, (build_order fuel ir s = some t ∨
        build_loops_and_order lay lsteps lfuel ir s = .ok t) →
      t.preorder ≠ [] ∧ t.postorder ≠ [] ∧ t.preorder.head? = some ir.root ∧
        t.postorder.getLast? = some ir.root ∧ order_asserts ir t = true := by
  refine ⟨?_, ?_⟩
  · obtain ⟨t, ht, _⟩ := build_order_returns ir hwf s fuel hfuel
    exact ⟨t, ht⟩
  · intro t ht
    have hfb : (∃ l, t.preorder = ir.root :: l) ∧ ∃ l, t.postorder = l ++ [ir.root] := by
      rcases ht with ht | ht
      · exact order_front_back ir s t fuel ht
      · obtain ⟨t', ht', hst⟩ := build_loops_order lay lsteps lfuel ir s s t ht
        rw [hst.1, hst.2.1]
        exact order_front_back ir s t' lfuel ht'
    obtain ⟨⟨l1, h1⟩, ⟨l2, h2⟩⟩ := hfb
    unfold order_asserts
    rw [h1, h2]
    simp

/-- Witness for C14: the loop scenario. -/
theorem order_asserts_hold_witness :
    (∃ t, build_order 4 loop_ir util_state.init = some t) ∧
    ∀ t, (build_order 4 loop_ir util_state.init = some t ∨
        build_loops_and_order layout64 8 4 loop_ir util_state.init = .ok t) →
      t.preorder ≠ [] ∧ t.postorder ≠ [] ∧ t.preorder.head? = some loop_ir.root ∧
        t.postorder.getLast? = some loop_ir.root ∧ order_asserts loop_ir t = true :=
  order_asserts_hold loop_ir (by decide) util_state.init layout64 4 8 4 (by decide)

/-! ### The loop pass in place of the order pass -/

/-- C15. For every CFG on which `build_loops_and_order` completes, `build_order`
on the same graph returns (with the same fuel, from any earlier state) and the
`preorder` and `postorder` sequences and the `preorder_i` / `postorder_i` of
every block are identical in the two results. -/
theorem loops_order_refinement (lay : util_layout) (steps fuel : Nat) (ir : ir_t)
    (s s' t : util_state) (h : build_loops_and_order lay steps fuel ir s = .ok t) :
    ∃ t', build_order fuel ir s' = some t' ∧ t.preorder = t'.preorder ∧
      t.postorder = t'.postorder ∧
      ∀ b, (t.util b).preorder_i = (t'.util b).preorder_i ∧
        (t.util b).postorder_i = (t'.util b).postorder_i := by
  obtain ⟨t', ht', h1, h2, h3⟩ := build_loops_order lay steps fuel ir s s' t h
  exact ⟨t', ht', h1, h2, h3⟩

/-- Witness for C15: the irreducible scenario, on which the loop pass
completes. -/
theorem loops_order_refinement_witness :
    ∃ t, build_loops_and_order layout64 10 10 irreducible_ir util_state.init = .ok t ∧
      ∃ t', build_order 10 irreducible_ir util_state.init = some t' ∧
        t.preorder = t'.preorder ∧ t.postorder = t'.postorder ∧
        ∀ b, (t.util b).preorder_i = (t'.util b).preorder_i ∧
          (t.util b).postorder_i = (t'.util b).postorder_i := by
  have h : ∃ t, build_loops_and_order layout64 10 10 irreducible_ir util_state.init = .ok t :=
    ⟨_, rfl⟩
  obtain ⟨t, ht⟩ := h
  exact ⟨t, ht, loops_order_refinement layout64 10 10 irreducible_ir util_state.init
    util_state.init t ht⟩

/-! ### Scenarios -/

/-- C16. Diamond scenario (`root → A`, `root → B`, `A → exit`, `B → exit`): after
`build_loops_and_order` and `build_dominators_from_order` the immediate
dominator of `exit`, of `A` and of `B` is the root, the root has none, no block
is flagged a loop header, and `loop_depth` is 0 for all four blocks. -/
theorem diamond_scenario :
    ∃ t u, build_loops_and_order layout64 8 4 diamond4_ir util_state.init = .ok t ∧
      build_dominators_from_order 9 17 diamond4_ir t = .ok u ∧
      (u.util 3).idom = some 0 ∧ (u.util 1).idom = some 0 ∧ (u.util 2).idom = some 0 ∧
      (u.util 0).idom = none ∧ u.loop_headers = [] ∧
      (∀ b, b < 4 → (u.util b).is_loop_header = false) ∧
      ∀ b, b < 4 → loop_depth 4 u b = some 0 := by
  refine ⟨_, _, rfl, rfl, rfl, rfl, rfl, rfl, rfl, ?_, ?_⟩
  · intro b hb
    interval_cases b <;> rfl
  · intro b hb
    interval_cases b <;> rfl

/-- C17. Loop scenario (`root → header`, `header → body`, `body → header`,
`header → exit`): after `build_loops_and_order` and
`build_dominators_from_order` the header is flagged a loop header,
`loop_depth(body)` and `loop_depth(header)` are 1, and the immediate dominator
of the body is the header. -/
theorem loop_scenario :
    ∃ t u, build_loops_and_order layout64 8 4 loop_ir util_state.init = .ok t ∧
      build_dominators_from_order 9 17 loop_ir t = .ok u ∧
      (u.util 1).is_loop_header = true ∧ u.loop_headers = [1] ∧
      loop_depth 4 u 2 = some 1 ∧ loop_depth 4 u 1 = some 1 ∧
      (u.util 2).idom = some 1 :=
  ⟨_, _, rfl, rfl, rfl, rfl, rfl, rfl, rfl⟩

end Nesfab

namespace Nesfab

/-! ## Termination of the loop pass and the structural-limit error -/

theorem reentry_ir_out_of_fuel (steps fuel : Nat) :
    build_loops_and_order layout64 steps fuel reentry_ir util_state.init = .out_of_fuel := by
  match fuel, steps with
  | 0, _ => exact (reentry_ir_small_fuel _).1
  | 1, _ => exact (reentry_ir_small_fuel _).2.1
  | 2, _ => exact (reentry_ir_small_fuel _).2.2.1
  | 3, _ => exact (reentry_ir_small_fuel _).2.2.2
  | fuel + 4, 0 => exact (reentry_ir_small_steps fuel).1
  | fuel + 4, 1 => exact (reentry_ir_small_steps fuel).2
  | fuel + 4, steps + 2 =>
    have e0 : (reentry_ir.cfg 0).output_vec.enum = [(0, ⟨1, 0⟩), (1, ⟨3, 0⟩)] := rfl
    have hr : reentry_ir.root = 0 := rfl
    unfold build_loops_and_order
    rw [hr, _visit_loops_succ, e0]
    simp only [visit_loops_succs]
    rw [reentry_ir_first_edge]
    simp only
    rw [reentry_ir_second_edge]

/-- C11, evaluated at the failing input `reentry_ir` (the loop of header `2`
nested in the loop of header `1`, both closed, entered again by the edge
`root → 3`): whatever the fuel, `build_loops_and_order` neither completes nor
stops with the too-many-edges error, and the walk up the header chain from
header `2`, in the state in which the re-entry edge is found, does not end
within any number of iterations. -/
theorem build_loops_never_returns (steps fuel : Nat) :
    (¬ ∃ t, build_loops_and_order layout64 steps fuel reentry_ir util_state.init = .ok t) ∧
    (¬ ∃ msg, build_loops_and_order layout64 steps fuel reentry_ir util_state.init =
      .error msg) ∧
    ∀ n, reentry_walk n (reentry_state.set_irreducible 2) 0 2 = .out_of_fuel := by
  have h := reentry_ir_out_of_fuel steps fuel
  refine ⟨?_, ?_, ?_⟩
  · rintro ⟨t, ht⟩
    rw [h] at ht
    exact outcome.noConfusion ht
  · rintro ⟨msg, hm⟩
    rw [h] at hm
    exact outcome.noConfusion hm
  · intro n
    obtain ⟨_, _, _, _, h5, h6, _⟩ := reentry_state_util
    exact reentry_walk_never_ends n _ 0 2 1 h5 (by
      rw [util_set_irreducible, h6]; simp)

/-! ### The structural-limit error -/

theorem tag_loop_header_loop_no_error :
    ∀ (steps : Nat) (s : util_state) (node header : Nat) (msg : String),
      tag_loop_header_loop steps s node header ≠ .error msg := by
  intro steps
  induction steps with
  | zero => intro s node header msg h; simp [tag_loop_header_loop] at h
  | succ steps ih =>
    intro s node header msg h
    simp only [tag_loop_header_loop] at h
    cases hn : (s.util node).iloop_header with
    | none => rw [hn] at h; simp at h
    | some c =>
      rw [hn] at h
      simp only at h
      split_ifs at h
      · exact ih _ _ _ _ h
      · exact ih _ _ _ _ h

theorem _tag_loop_header_no_error (steps : Nat) (s : util_state) (node : Nat)
    (header : Option Nat) (msg : String) : _tag_loop_header steps s node header ≠ .error msg := by
  unfold _tag_loop_header
  cases header with
  | none => simp
  | some hd =>
    simp only
    split_ifs
    · simp
    · exact tag_loop_header_loop_no_error steps s node hd msg

theorem reentry_walk_no_error :
    ∀ (steps : Nat) (s : util_state) (node header0 : Nat) (msg : String),
      reentry_walk steps s node header0 ≠ .error msg := by
  intro steps
  induction steps with
  | zero => intro s node header msg h; simp [reentry_walk] at h
  | succ steps ih =>
    intro s node header0 msg h
    simp only [reentry_walk] at h
    cases hn : (s.util header0).iloop_header with
    | none => rw [hn] at h; simp at h
    | some c =>
      rw [hn] at h
      simp only at h
      split_ifs at h
      · exact _tag_loop_header_no_error _ _ _ _ _ h
      · exact ih _ _ _ _ h

/-- One iteration of the successor loop raises an error exactly when the
recursive call raises it, or the edge is a re-entry edge that fails a
structural-limit test. -/
theorem visit_loops_edge_error (lay : util_layout)
    (visit : util_state → Nat → outcome (util_state × Option Nat)) (steps node i : Nat)
    (e : cfg_reverse_edge_t) (s : util_state) (msg : String) :
    visit_loops_edge lay visit steps node i e s = .error msg ↔
      ((s.util e.node).preorder_i = none ∧ visit s e.node = .error msg) ∨
      (reentry_edge s e ∧ too_many lay i e msg) := by
  unfold visit_loops_edge reentry_edge too_many
  simp only
  by_cases hpre : (s.util e.node).preorder_i = none
  · rw [if_pos hpre]
    simp only [hpre, ne_eq, not_true_eq_false, false_and, or_false, true_and]
    cases hv : visit s e.node with
    | ok p =>
      simp only [reduceCtorEq, iff_false]
      exact _tag_loop_header_no_error _ _ _ _ _
    | error m => simp
    | assert_fail => simp
    | out_of_fuel => simp
  · rw [if_neg hpre]
    simp only [hpre, false_and, false_or, ne_eq, not_false_eq_true, true_and]
    by_cases hpost : (s.util e.node).postorder_i = none
    · rw [if_pos hpost]
      simp only [hpost, not_true_eq_false, false_and, iff_false]
      exact _tag_loop_header_no_error _ _ _ _ _
    · rw [if_neg hpost]
      simp only [hpost, not_false_eq_true, true_and]
      cases hh : (s.util e.node).iloop_header with
      | none => simp
      | some header =>
        simp only [Option.some.injEq, exists_eq_left']
        by_cases hhp : (s.util header).postorder_i = none
        · rw [if_pos hhp]
          simp only [hhp, not_true_eq_false, false_and, iff_false]
          split_ifs
          · simp
          · exact _tag_loop_header_no_error _ _ _ _ _
        · rw [if_neg hhp]
          simp only [hhp, not_false_eq_true, true_and]
          by_cases h1 : lay.reentry_out_bits ≤ i
          · rw [if_pos h1]
            simp only [outcome.error.injEq]
            constructor
            · intro h; exact Or.inl ⟨h1, h.symm⟩
            · rintro (⟨_, h⟩ | ⟨h, _⟩)
              · exact h.symm
              · omega
          · rw [if_neg h1]
            by_cases h2 : lay.reentry_in_bits ≤ e.index
            · rw [if_pos h2]
              simp only [outcome.error.injEq]
              constructor
              · intro h; exact Or.inr ⟨by omega, h2, h.symm⟩
              · rintro (⟨h, _⟩ | ⟨_, _, h⟩)
                · exact absurd h h1
                · exact h.symm
            · rw [if_neg h2]
              constructor
              · intro h; exact absurd h (reentry_walk_no_error _ _ _ _ _)
              · rintro (⟨h, _⟩ | ⟨_, h, _⟩)
                · exact absurd h h1
                · exact absurd h h2

theorem visit_loops_succs_error (lay : util_layout) (ir : ir_t)
    (visit : util_state → Nat → outcome (util_state × Option Nat))
    (hvisit : ∀ s w msg, visit s w = .error msg → limit_exceeded lay ir msg)
    (steps node : Nat) :
    ∀ (l : List (Nat × cfg_reverse_edge_t)) (s : util_state) (msg : String),
      (∀ p ∈ l, (ir.cfg node).output_vec[p.1]? = some p.2) →
      visit_loops_succs lay visit steps node l s = .error msg → limit_exceeded lay ir msg := by
  intro l
  induction l with
  | nil => intro s msg _ h; simp [visit_loops_succs] at h
  | cons p rest ih =>
    intro s msg hl h
    obtain ⟨i, e⟩ := p
    simp only [visit_loops_succs] at h
    cases he : visit_loops_edge lay visit steps node i e s with
    | ok s1 =>
      rw [he] at h
      exact ih s1 msg (fun p hp => hl p (List.mem_cons_of_mem _ hp)) h
    | error m =>
      rw [he] at h
      simp only [outcome.error.injEq] at h
      rw [h] at he
      rcases (visit_loops_edge_error lay visit steps node i e s msg).1 he with h1 | h1
      · exact hvisit _ _ _ h1.2
      · exact ⟨node, i, e, s, hl (i, e) (List.mem_cons_self _ _), h1.1, h1.2⟩
    | assert_fail => rw [he] at h; simp at h
    | out_of_fuel => rw [he] at h; simp at h

theorem mem_enum_getElem? (l : List cfg_reverse_edge_t) (p : Nat × cfg_reverse_edge_t)
    (h : p ∈ l.enum) : l[p.1]? = some p.2 := by
  obtain ⟨i, e⟩ := p
  exact List.mk_mem_enum_iff_getElem?.1 h

theorem _visit_loops_error (lay : util_layout) (ir : ir_t) (steps : Nat) :
    ∀ (fuel : Nat) (s : util_state) (node : Nat) (msg : String),
      _visit_loops lay ir steps fuel s node = .error msg → limit_exceeded lay ir msg := by
  intro fuel
  induction fuel with
  | zero => intro s node msg h; simp [_visit_loops] at h
  | succ fuel ih =>
    intro s node msg h
    simp only [_visit_loops] at h
    cases hl : visit_loops_succs lay (_visit_loops lay ir steps fuel) steps node
        ((ir.cfg node).output_vec.enum) (push_preorder s node) with
    | ok s2 => rw [hl] at h; simp at h
    | error m =>
      rw [hl] at h
      simp only [outcome.error.injEq] at h
      rw [h] at hl
      exact visit_loops_succs_error lay ir _ ih steps node _ _ msg
        (fun p hp => mem_enum_getElem? _ p hp) hl
    | assert_fail => rw [hl] at h; simp at h
    | out_of_fuel => rw [hl] at h; simp at h

theorem build_loops_error (lay : util_layout) (steps fuel : Nat) (ir : ir_t) (s : util_state)
    (msg : String) (h : build_loops_and_order lay steps fuel ir s = .error msg) :
    limit_exceeded lay ir msg := by
  unfold build_loops_and_order at h
  cases hv : _visit_loops lay ir steps fuel (loops_reset s) ir.root with
  | ok p => rw [hv] at h; simp at h
  | error m =>
    rw [hv] at h
    simp only [outcome.error.injEq] at h
    rw [h] at hv
    exact _visit_loops_error lay ir steps fuel _ _ msg hv
  | assert_fail => rw [hv] at h; simp at h
  | out_of_fuel => rw [hv] at h; simp at h

/-- The structural-limit error in the irreducible scenario: with one bit of
`reentry_out` the crossing edge `root → Y`, successor edge number 1 of the root,
raises "too many outputs"; with no bit of `reentry_in` it raises "too many
inputs". -/
theorem too_many_edges_scenario :
    build_loops_and_order ⟨64, 1⟩ 10 10 irreducible_ir util_state.init =
      .error "CFG node has too many outputs." ∧
    build_loops_and_order ⟨0, 64⟩ 10 10 irreducible_ir util_state.init =
      .error "CFG node has too many inputs." :=
  ⟨rfl, rfl⟩

/-- C12. The structural-limit error of `build_loops_and_order`. Whenever the
run raises an error, the error is one of the two structural-limit messages and
it is raised at a successor edge of the graph that is a re-entry edge and whose
number is not less than the width of `reentry_out`, or whose position in the
predecessor list of its target is not less than the width of `reentry_in`; when
every edge of the graph is within both widths no error is raised; one iteration
of the successor loop raises an error exactly when the recursive call does or
the edge is a re-entry edge that fails one of the two tests. The run need not
complete on the other graphs: on `reentry_ir`, whose edges are all within the
64 bits, it never returns. -/
theorem too_many_edges_error (lay : util_layout) (steps fuel : Nat) (ir : ir_t)
    (s : util_state) :
    (∀ msg, build_loops_and_order lay steps fuel ir s = .error msg →
      limit_exceeded lay ir msg) ∧
    ((∀ (node i : Nat) (e : cfg_reverse_edge_t), (ir.cfg node).output_vec[i]? = some e →
        i < lay.reentry_out_bits ∧ e.index < lay.reentry_in_bits) →
      ∀ msg, build_loops_and_order lay steps fuel ir s ≠ .error msg) ∧
    (∀ (visit : util_state → Nat → outcome (util_state × Option Nat)) (node i : Nat)
        (e : cfg_reverse_edge_t) (st : util_state) (msg : String),
      visit_loops_edge lay visit steps node i e st = .error msg ↔
        ((st.util e.node).preorder_i = none ∧ visit st e.node = .error msg) ∨
        (reentry_edge st e ∧ too_many lay i e msg)) ∧
    ((∀ (node i : Nat) (e : cfg_reverse_edge_t),
        (reentry_ir.cfg node).output_vec[i]? = some e →
        i < layout64.reentry_out_bits ∧ e.index < layout64.reentry_in_bits) ∧
      ∀ t, build_loops_and_order layout64 steps fuel reentry_ir util_state.init ≠ .ok t) := by
  refine ⟨fun msg h => build_loops_error lay steps fuel ir s msg h, ?_,
    fun visit node i e st msg => visit_loops_edge_error lay visit steps node i e st msg, ?_, ?_⟩
  · intro hwide msg h
    obtain ⟨node, i, e, st, he, _, hm⟩ := build_loops_error lay steps fuel ir s msg h
    have := hwide node i e he
    rcases hm with ⟨h1, _⟩ | ⟨_, h2, _⟩
    · omega
    · omega
  · intro node i e he
    have hn : node < 4 := by
      by_contra hc
      have : reentry_ir.cfg node = ⟨[], []⟩ := cfg_of_size_le reentry_ir node (not_lt.1 hc)
      rw [this] at he
      simp at he
    have hi := getElem?_lt_length _ _ _ he
    interval_cases node
    · have hi2 : i < 2 := hi
      interval_cases i <;> · injection he with he; rw [← he]; decide
    · have hi2 : i < 1 := hi
      interval_cases i
      injection he with he; rw [← he]; decide
    · have hi2 : i < 1 := hi
      interval_cases i
      injection he with he; rw [← he]; decide
    · have hi2 : i < 2 := hi
      interval_cases i <;> · injection he with he; rw [← he]; decide
  · intro t ht
    rw [reentry_ir_out_of_fuel] at ht
    exact outcome.noConfusion ht

end Nesfab

namespace Nesfab

/-! ## The header-weaving step -/

/-- The loop of `_tag_loop_header` is the repetition of its iteration. -/
theorem tag_loop_header_loop_iterate :
    ∀ (steps : Nat) (s : util_state) (node header : Nat),
      tag_loop_header_loop steps s node header = tag_loop_header_iterate steps s node header := by
  intro steps
  induction steps with
  | zero => intro s node header; rfl
  | succ steps ih =>
    intro s node header
    simp only [tag_loop_header_loop, tag_loop_header_iterate, tag_loop_header_iter]
    cases hn : (s.util node).iloop_header with
    | none => rfl
    | some c =>
      simp only
      split_ifs
      all_goals first
        | rfl
        | exact ih _ _ _

/-- The iteration in `weave_state`: the candidate header `0` is on the DFS
path and has an earlier preorder number than the current immediate header `1`
of block `2`, which is on the DFS path too, yet the iteration does not swap the
roles: it leaves the state as it is and goes on up the chain from block `1` with
the same candidate. Accordingly the loop pass over `two_loops_ir`, in which this
call occurs, leaves block `1` as immediate header of block `2` and the root as
that of block `1`. -/
theorem weave_state_scenario :
    (weave_state.util 2).iloop_header = some 1 ∧
    (weave_state.util 0).preorder_i ≠ none ∧ (weave_state.util 0).postorder_i = none ∧
    (weave_state.util 1).preorder_i ≠ none ∧ (weave_state.util 1).postorder_i = none ∧
    order_lt (weave_state.util 0).preorder_i (weave_state.util 1).preorder_i = true ∧
    tag_loop_header_iter weave_state 2 0 = .ok (weave_state, some (1, 0)) ∧
    (∃ t, tag_loop_header_loop 2 weave_state 2 0 = .ok t ∧
      (t.util 2).iloop_header = some 1 ∧ (t.util 1).iloop_header = some 0) ∧
    ∃ t, build_loops_and_order layout64 8 3 two_loops_ir util_state.init = .ok t ∧
      (t.util 2).iloop_header = some 1 ∧ (t.util 1).iloop_header = some 0 ∧
      (t.util 0).iloop_header = none :=
  ⟨rfl, by decide, rfl, by decide, rfl, rfl, rfl, ⟨_, rfl, rfl, rfl⟩, _, rfl, rfl, rfl, rfl⟩

/-- The test of `ir_util.cpp:86-87` as it stands. In
`_tag_loop_header(node, header)`, when `node` has
an immediate loop header `c` that differs from the candidate `header` and both
assertions hold (`c` is on the DFS path, the candidate has been visited): the
iteration swaps the roles (stores the candidate as immediate header of `node`
and goes on with `node := header`, `header := c`) exactly when the candidate has
its postorder number assigned and `c` has an earlier preorder number than the
candidate; otherwise it leaves the state unchanged and goes on up the chain
with `node := c` and the same candidate. -/
theorem weave_step (s : util_state) (node header c : Nat)
    (hc : (s.util node).iloop_header = some c) (hne : c ≠ header)
    (hpath : (s.util c).preorder_i ≠ none ∧ (s.util c).postorder_i = none)
    (hvis : (s.util header).preorder_i ≠ none) :
    (tag_loop_header_iter s node header =
        .ok (s.set_util node { s.util node with iloop_header := some header },
          some (header, c)) ↔
      ((s.util header).postorder_i ≠ none ∧
        order_lt (s.util c).preorder_i (s.util header).preorder_i = true)) ∧
    (tag_loop_header_iter s node header = .ok (s, some (c, header)) ↔
      ¬ ((s.util header).postorder_i ≠ none ∧
        order_lt (s.util c).preorder_i (s.util header).preorder_i = true)) := by
  unfold tag_loop_header_iter
  rw [hc]
  simp only
  rw [if_neg hne, if_neg (not_not.2 hpath), if_neg hvis]
  by_cases hcond : (s.util header).postorder_i ≠ none ∧
      order_lt (s.util c).preorder_i (s.util header).preorder_i = true
  · rw [if_pos hcond]
    refine ⟨⟨fun _ => hcond, fun _ => rfl⟩, ⟨fun h => ?_, fun h => absurd hcond h⟩⟩
    simp only [outcome.ok.injEq, Prod.mk.injEq, Option.some.injEq] at h
    exact absurd h.2.1.symm hne
  · rw [if_neg hcond]
    refine ⟨⟨fun h => ?_, fun h => absurd h hcond⟩, ⟨fun _ => hcond, fun _ => rfl⟩⟩
    simp only [outcome.ok.injEq, Prod.mk.injEq, Option.some.injEq] at h
    exact absurd h.2.1 hne

/-- An instance of `weave_step`: `weave_state` with block `1` as candidate for
block `2`
under the header `0`. -/
theorem weave_step_instance :
    (tag_loop_header_iter (weave_state.set_util 2
          { weave_state.util 2 with iloop_header := some 0 }) 2 1 =
        .ok ((weave_state.set_util 2 { weave_state.util 2 with iloop_header := some 0 }).set_util
            2 { (weave_state.set_util 2
              { weave_state.util 2 with iloop_header := some 0 }).util 2 with
                iloop_header := some 1 },
          some (1, 0)) ↔
      (((weave_state.set_util 2 { weave_state.util 2 with iloop_header := some 0 }).util
          1).postorder_i ≠ none ∧
        order_lt ((weave_state.set_util 2
            { weave_state.util 2 with iloop_header := some 0 }).util 0).preorder_i
          ((weave_state.set_util 2
            { weave_state.util 2 with iloop_header := some 0 }).util 1).preorder_i = true)) ∧
    (tag_loop_header_iter (weave_state.set_util 2
          { weave_state.util 2 with iloop_header := some 0 }) 2 1 =
        .ok (weave_state.set_util 2 { weave_state.util 2 with iloop_header := some 0 },
          some (0, 1)) ↔
      ¬ (((weave_state.set_util 2 { weave_state.util 2 with iloop_header := some 0 }).util
          1).postorder_i ≠ none ∧
        order_lt ((weave_state.set_util 2
            { weave_state.util 2 with iloop_header := some 0 }).util 0).preorder_i
          ((weave_state.set_util 2
            { weave_state.util 2 with iloop_header := some 0 }).util 1).preorder_i = true)) :=
  weave_step (weave_state.set_util 2 { weave_state.util 2 with iloop_header := some 0 }) 2 1 0
    rfl (by decide) ⟨by decide, rfl⟩ (by decide)

end Nesfab

namespace Nesfab

/-! ## Postorder numbers of successors -/

theorem edge_inv_push_preorder (ir : ir_t) (s : util_state) (h : Nat) (hs : order_inv ir s)
    (hun : (s.util h).preorder_i = none) (he : edge_inv ir s) :
    edge_inv ir (push_preorder s h) := by
  intro v j hv w hw
  have hvh : v ≠ h := by
    intro e
    rw [e, util_push_preorder] at hv
    simp only [if_true] at hv
    exact hs.post_pre h (by rw [hv]; simp) hun
  have ev : (push_preorder s h).util v = s.util v := by
    rw [util_push_preorder]; simp only [hvh, if_false]
  rw [ev] at hv
  have hwh : w ≠ h := by
    intro e
    rw [e] at hw
    exact hs.closed v (by rw [hv]; simp) h hw hun
  have ew : (push_preorder s h).util w = s.util w := by
    rw [util_push_preorder]; simp only [hwh, if_false]
  rw [ev, ew]
  exact he v j hv w hw

theorem edge_inv_push_postorder (ir : ir_t) (s : util_state) (h a : Nat) (hs : order_inv ir s)
    (hpre : (s.util h).preorder_i = some a) (hpost : (s.util h).postorder_i = none)
    (hall : ∀ w ∈ ir.outputs h, (s.util w).preorder_i ≠ none)
    (hlater : ∀ v b, (s.util v).preorder_i = some b → a < b → (s.util v).postorder_i ≠ none)
    (he : edge_inv ir s) : edge_inv ir (push_postorder s h) := by
  have hidx : ∀ v i, (s.util v).postorder_i = some i → i < s.postorder.length :=
    fun v i hv => getElem?_lt_length _ _ _ ((hs.post_iff v i).1 hv)
  have hutil : ∀ v, v ≠ h → (push_postorder s h).util v = s.util v := by
    intro v hv
    rw [util_push_postorder]; simp only [hv, if_false]
  have hutilh : (push_postorder s h).util h =
      { s.util h with postorder_i := some s.postorder.length } := by
    rw [util_push_postorder]; simp only [if_true]
  intro v j hv w hw
  by_cases hvh : v = h
  · rw [hvh] at hw
    rw [hvh, hutilh] at hv
    simp only [Option.some.injEq] at hv
    rw [hvh, hutilh]
    by_cases hwh : w = h
    · right
      rw [hwh, hutilh]
      refine ⟨a, a, hpre, hpre, le_refl _, ?_⟩
      intro i hi
      simp only [Option.some.injEq] at hi
      omega
    · rw [hutil w hwh]
      cases hpw : (s.util w).postorder_i with
      | some i =>
        left
        exact ⟨i, rfl, by have := hidx w i hpw; omega⟩
      | none =>
        right
        obtain ⟨aw, haw⟩ := Option.ne_none_iff_exists'.1 (hall w hw)
        refine ⟨aw, a, haw, hpre, ?_, fun i hi => Option.noConfusion hi⟩
        by_contra hc
        exact hlater w aw haw (by omega) hpw
  · rw [hutil v hvh] at hv ⊢
    have hj := hidx v j hv
    rcases he v j hv w hw with ⟨i, hi, hij⟩ | ⟨aw, b, h1, h2, h3, h4⟩
    · left
      have hwh : w ≠ h := by
        intro e; rw [e, hpost] at hi; exact Option.noConfusion hi
      rw [hutil w hwh]
      exact ⟨i, hi, hij⟩
    · right
      by_cases hwh : w = h
      · rw [hwh, hutilh]
        rw [hwh] at h1
        refine ⟨aw, b, h1, h2, h3, ?_⟩
        intro i hi
        simp only [Option.some.injEq] at hi
        omega
      · rw [hutil w hwh]
        exact ⟨aw, b, h1, h2, h3, h4⟩

theorem visit_order_succs_edges (ir : ir_t) (visit : util_state → Nat → Option util_state)
    (ih : ∀ s w t, visit_order_pre ir s w → visit s w = some t → visit_order_post ir s w t)
    (ihe : ∀ s w t, visit_order_pre ir s w → edge_inv ir s → visit s w = some t →
      edge_inv ir t)
    (h a : Nat) (hreach : ir.reachable ir.root h) :
    ∀ (l : List Nat) (s t : util_state), (∀ w ∈ l, w ∈ ir.outputs h) → order_inv ir s →
      (s.util h).preorder_i = some a → (s.util h).postorder_i = none → edge_inv ir s →
      visit_order_succs visit l s = some t → edge_inv ir t := by
  intro l
  induction l with
  | nil =>
    intro s t _ _ _ _ he hrun
    simp only [visit_order_succs] at hrun
    injection hrun with hrun
    rw [← hrun]; exact he
  | cons w rest ihl =>
    intro s t hl hs hpre hpost he hrun
    simp only [visit_order_succs] at hrun
    have hrest : ∀ x ∈ rest, x ∈ ir.outputs h := fun x hx => hl x (List.mem_cons_of_mem _ hx)
    by_cases hw : (s.util w).preorder_i = none
    · rw [if_pos hw] at hrun
      cases hv : visit s w with
      | none => rw [hv] at hrun; exact absurd hrun (by simp)
      | some s1 =>
        rw [hv] at hrun
        simp only at hrun
        have hwreach : ir.reachable ir.root w :=
          Relation.ReflTransGen.tail hreach (hl w (List.mem_cons_self _ _))
        have hwpre : visit_order_pre ir s w :=
          ⟨hs, hw, hwreach, Or.inr ⟨h, a, hl w (List.mem_cons_self _ _), hpre, hpost⟩⟩
        obtain ⟨hstep1, _, _, _⟩ := ih s w s1 hwpre hv
        have he1 := ihe s w s1 hwpre he hv
        have hframe := hstep1.frame h (by rw [hpre]; simp)
        exact ihl s1 t hrest hstep1.inv (by rw [hframe]; exact hpre)
          (by rw [hframe]; exact hpost) he1 hrun
    · rw [if_neg hw] at hrun
      exact ihl s t hrest hs hpre hpost he hrun

theorem _visit_order_edges (ir : ir_t) :
    ∀ (fuel : Nat) (s : util_state) (h : Nat) (t : util_state), visit_order_pre ir s h →
      edge_inv ir s → _visit_order ir fuel s h = some t → edge_inv ir t := by
  intro fuel
  induction fuel with
  | zero => intro s h t _ _ hrun; simp [_visit_order] at hrun
  | succ fuel ihf =>
    intro s h t hpre he hrun
    obtain ⟨hs, hun, hreach, hpar⟩ := hpre
    simp only [_visit_order] at hrun
    cases hloop : visit_order_succs (_visit_order ir fuel) (ir.outputs h) (push_preorder s h) with
    | none => rw [hloop] at hrun; exact absurd hrun (by simp)
    | some s2 =>
      rw [hloop] at hrun
      simp only at hrun
      injection hrun with hrun
      rw [← hrun]
      have hs1 := order_inv_push_preorder ir s h hs hun hreach hpar
      have hpost : (s.util h).postorder_i = none := by
        by_contra hc; exact hs.post_pre h hc hun
      have hpre1 : ((push_preorder s h).util h).preorder_i = some s.preorder.length := by
        rw [util_push_preorder]; simp
      have hpost1 : ((push_preorder s h).util h).postorder_i = none := by
        rw [util_push_preorder]; simpa using hpost
      have he1 := edge_inv_push_preorder ir s h hs hun he
      obtain ⟨hstep, hall⟩ := visit_order_succs_spec ir (_visit_order ir fuel)
        (_visit_order_spec ir fuel) h s.preorder.length hreach (ir.outputs h)
        (push_preorder s h) s2 (fun _ hw => hw) hs1 hpre1 hpost1 hloop
      have he2 := visit_order_succs_edges ir (_visit_order ir fuel) (_visit_order_spec ir fuel)
        (ihf) h s.preorder.length hreach (ir.outputs h) (push_preorder s h) s2
        (fun _ hw => hw) hs1 hpre1 hpost1 he1 hloop
      have hframe := hstep.frame h (by rw [hpre1]; simp)
      have hpre2 : (s2.util h).preorder_i = some s.preorder.length := by rw [hframe]; exact hpre1
      have hpost2 : (s2.util h).postorder_i = none := by rw [hframe]; exact hpost1
      have hlater : ∀ v b, (s2.util v).preorder_i = some b → s.preorder.length < b →
          (s2.util v).postorder_i ≠ none := by
        intro v b hv hb
        apply hstep.fin v _ (by rw [hv]; simp)
        by_contra hc
        rw [hstep.frame v hc] at hv
        have := lt_length_of_getElem? ((hs1.pre_iff v b).1 hv)
        rw [preorder_push_preorder] at this
        simp at this
        omega
      exact edge_inv_push_postorder ir s2 h _ hstep.inv hpre2 hpost2 hall hlater he2

theorem edge_inv_reset (ir : ir_t) (s : util_state) : edge_inv ir (order_reset s) := by
  intro v j hv
  exact Option.noConfusion hv

/-- The first reading of C20 fails on a back edge: in `loop_ir` the body `2` is
reachable and has the header `1` as successor, and `build_order` numbers the
header after the body (`postorder_i` 2 against 0). -/
theorem postorder_successors_counterexample :
    ∃ t, build_order 4 loop_ir util_state.init = some t ∧
      loop_ir.reachable loop_ir.root 2 ∧ 1 ∈ loop_ir.outputs 2 ∧
      (t.util 1).postorder_i = some 2 ∧ (t.util 2).postorder_i = some 0 ∧
      order_lt (t.util 1).postorder_i (t.util 2).postorder_i = false := by
  refine ⟨_, rfl, ?_, by decide, rfl, rfl, rfl⟩
  have h01 : (1 : Nat) ∈ loop_ir.outputs 0 := by decide
  have h12 : (2 : Nat) ∈ loop_ir.outputs 1 := by decide
  exact Relation.ReflTransGen.tail (Relation.ReflTransGen.single h01) h12

/-- C20, amended. After `build_order` (which returns once the fuel covers the
number of blocks), for every reachable block `b` and every successor `s` of
`b`, both have their order numbers, and either `s` got its postorder number
before `b` (`postorder_i(s) < postorder_i(b)`), or the edge retreats: `s` was
visited no later than `b` and does not finish before it
(`preorder_i(s) ≤ preorder_i(b)` and `postorder_i(b) ≤ postorder_i(s)`). -/
theorem postorder_successors (ir : ir_t) (hwf : ir.wf) (s : util_state) (fuel : Nat)
    (hfuel : ir.cfg_size ≤ fuel) :
    ∃ t, build_order fuel ir s = some t ∧
      ∀ b, ir.reachable ir.root b → ∀ w ∈ ir.outputs b,
        ∃ i j a c, (t.util w).postorder_i = some i ∧ (t.util b).postorder_i = some j ∧
          (t.util w).preorder_i = some a ∧ (t.util b).preorder_i = some c ∧
          (i < j ∨ (a ≤ c ∧ j ≤ i)) := by
  obtain ⟨t, ht, hpost⟩ := build_order_returns ir hwf s fuel hfuel
  have hd := build_order_done ir s t fuel ht
  have hreach := order_done_reach ir t hd
  have he : edge_inv ir t :=
    _visit_order_edges ir fuel (order_reset s) ir.root t (visit_order_pre_reset ir s)
      (edge_inv_reset ir s) ht
  refine ⟨t, ht, ?_⟩
  intro b hb w hw
  have hwr : ir.reachable ir.root w := Relation.ReflTransGen.tail hb hw
  obtain ⟨j, hj⟩ := Option.ne_none_iff_exists'.1 ((hreach b).2 hb)
  obtain ⟨i, hi⟩ := Option.ne_none_iff_exists'.1 ((hreach w).2 hwr)
  obtain ⟨c, hc⟩ := Option.ne_none_iff_exists'.1 (hd.1.post_pre b (by rw [hj]; simp))
  obtain ⟨a, ha⟩ := Option.ne_none_iff_exists'.1 (hd.1.post_pre w (by rw [hi]; simp))
  refine ⟨i, j, a, c, hi, hj, ha, hc, ?_⟩
  rcases he b j hj w hw with ⟨i', hi', hlt⟩ | ⟨a', c', ha', hc', hle, hge⟩
  · rw [hi] at hi'
    injection hi' with hi'
    left; omega
  · rw [ha] at ha'
    rw [hc] at hc'
    injection ha' with ha'
    injection hc' with hc'
    right
    exact ⟨by omega, hge i hi⟩

/-- Witness for C20: the loop scenario. -/
theorem postorder_successors_witness :
    ∃ t, build_order 4 loop_ir util_state.init = some t ∧
      ∀ b, loop_ir.reachable loop_ir.root b → ∀ w ∈ loop_ir.outputs b,
        ∃ i j a c, (t.util w).postorder_i = some i ∧ (t.util b).postorder_i = some j ∧
          (t.util w).preorder_i = some a ∧ (t.util b).preorder_i = some c ∧
          (i < j ∨ (a ≤ c ∧ j ≤ i)) :=
  postorder_successors loop_ir (by decide) util_state.init 4 (by decide)

end Nesfab

namespace Nesfab

/-! ## Bit operations as arithmetic -/

theorem and_shifted_mask (x i m : Nat) : x &&& (2 ^ i * m) = 2 ^ i * ((x / 2 ^ i) &&& m) := by
  apply Nat.eq_of_testBit_eq
  intro j
  rw [Nat.testBit_and, Nat.testBit_mul_pow_two, Nat.testBit_mul_pow_two, Nat.testBit_and,
    ← Nat.shiftRight_eq_div_pow, Nat.testBit_shiftRight]
  by_cases hj : i ≤ j
  · have e : i + (j - i) = j := by omega
    simp [hj, e]
  · simp [hj]

theorem and_15 (x : Nat) : x &&& 15 = x % 16 := Nat.and_pow_two_sub_one_eq_mod x 4

theorem and_240 (x : Nat) : x &&& 240 = 16 * (x / 16 % 16) := by
  have h := and_shifted_mask x 4 15
  rw [and_15] at h
  exact h

theorem and_12 (x : Nat) : x &&& 12 = 4 * (x / 4 % 4) := by
  have h := and_shifted_mask x 2 3
  rw [Nat.and_pow_two_sub_one_eq_mod (x / 2 ^ 2) 2] at h
  exact h

theorem or_16 (a b : Nat) (hb : b < 16) : (16 * a) ||| b = 16 * a + b :=
  (Nat.mul_add_lt_is_or (by exact hb : b < 2 ^ 4) a).symm

theorem or_256 (a b : Nat) (hb : b < 256) : (256 * a) ||| b = 256 * a + b :=
  (Nat.mul_add_lt_is_or (by exact hb : b < 2 ^ 8) a).symm

/-! ## Integer constants -/

theorem of_uint32_value (v : Nat) :
    (ssa_value_t.of_uint32 v).value = 2 ^ 40 * (v % 2 ^ 24) + 1 := by
  unfold ssa_value_t.of_uint32 uint_type_bits
  simp only
  rw [Nat.shiftLeft_eq]
  have h : (v % 2 ^ 32 * 2 ^ 40) % 2 ^ 64 = 2 ^ 40 * (v % 2 ^ 24) := by
    norm_num
    omega
  rw [h]
  exact (Nat.mul_add_lt_is_or (by norm_num : 1 < 2 ^ 40) _).symm

/-- Every integer constant is tagged as a constant, and `whole` returns the low
24 bits of the integer it was built from. -/
theorem of_uint32_spec (v : Nat) :
    (ssa_value_t.of_uint32 v).is_const = true ∧ (ssa_value_t.of_uint32 v).is_ptr = false ∧
      (ssa_value_t.of_uint32 v).whole = v % 2 ^ 24 := by
  unfold ssa_value_t.is_const ssa_value_t.is_ptr ssa_value_t.whole
  rw [of_uint32_value, Nat.and_one_is_mod, Nat.shiftRight_eq_div_pow]
  have h1 : (2 ^ 40 * (v % 2 ^ 24) + 1) % 2 = 1 := by norm_num; omega
  have h2 : (2 ^ 40 * (v % 2 ^ 24) + 1) / 2 ^ 40 % 2 ^ 32 = v % 2 ^ 24 := by norm_num; omega
  rw [h1, h2]
  exact ⟨rfl, rfl, rfl⟩

/-- C21 as stated fails for the 32-bit integer `2 ^ 24`: the constant built from
it is the constant built from `0`, so `whole` returns `0` and the two constants
compare equal although the integers differ. -/
theorem int_round_trip_counterexample :
    16777216 < 2 ^ 32 ∧ (ssa_value_t.of_uint32 16777216).whole = 0 ∧
    (ssa_value_t.of_uint32 16777216).whole ≠ 16777216 ∧
    (ssa_value_t.of_uint32 16777216).eq (ssa_value_t.of_uint32 0) = true := by
  refine ⟨by norm_num, by decide, by decide, by decide⟩

/-- C21, amended. For every integer `v` below `2 ^ 24`, `ssa_value_t(v)` is
tagged as a constant (`is_const` true, `is_ptr` false) and its `whole()` is `v`;
two such constants compare equal exactly when their integers are equal. -/
theorem int_round_trip (v w : Nat) (hv : v < 2 ^ 24) (hw : w < 2 ^ 24) :
    (ssa_value_t.of_uint32 v).is_const = true ∧ (ssa_value_t.of_uint32 v).is_ptr = false ∧
      (ssa_value_t.of_uint32 v).whole = v ∧
      ((ssa_value_t.of_uint32 v).eq (ssa_value_t.of_uint32 w) = true ↔ v = w) := by
  obtain ⟨h1, h2, h3⟩ := of_uint32_spec v
  refine ⟨h1, h2, ?_, ?_⟩
  · rw [h3]; exact Nat.mod_eq_of_lt hv
  · unfold ssa_value_t.eq
    rw [of_uint32_value, of_uint32_value, Nat.mod_eq_of_lt hv, Nat.mod_eq_of_lt hw]
    simp

/-- Witness for C21: the integers `16777215` and `5`. -/
theorem int_round_trip_witness :
    (ssa_value_t.of_uint32 16777215).is_const = true ∧
      (ssa_value_t.of_uint32 16777215).is_ptr = false ∧
      (ssa_value_t.of_uint32 16777215).whole = 16777215 ∧
      ((ssa_value_t.of_uint32 16777215).eq (ssa_value_t.of_uint32 5) = true ↔
        16777215 = 5) :=
  int_round_trip 16777215 5 (by norm_num) (by norm_num)

/-! ## Cartridge header -/

/-- The bytes that `write_ines_header` has written when it returns, and what
the tests it has passed say about the fields. -/
theorem write_ines_header_ok (env : mapper_env) (mapper : mapper_t) (bytes : List Nat)
    (h : write_ines_header env mapper = .ok bytes) :
    ∃ flags6 chr_shift,
      bytes = [0x4E, 0x45, 0x53, 0x1A, env.num_16k_banks mapper % 256,
        mapper.num_8k_chr_rom % 256, flags6,
        16 * (mapper.type % 2 ^ 32 / 16 % 16) + 8, mapper.type % 2 ^ 32 / 256 % 16,
        16 * (mapper.num_8k_chr_rom / 256 % 16) + env.num_16k_banks mapper / 256 % 16, 0,
        chr_shift, 0, 0, 0, 0] ∧
      flags6 / 16 = mapper.type % 16 ∧ flags6 < 256 ∧ chr_shift ≤ 15 ∧
      env.num_16k_banks mapper < 4096 ∧ mapper.num_8k_chr_rom < 4096 ∧
      ((mapper.num_8k_chr_ram * 0x2000) % 2 ^ 32 ≠ 0 →
        64 * 2 ^ chr_shift = (mapper.num_8k_chr_ram * 0x2000) % 2 ^ 32) := by
  unfold write_ines_header at h
  simp only at h
  generalize hcs : (if mapper.num_8k_chr_ram * 0x2000 % 2 ^ 32 / 64 ≠ 0 then
    (env.rclz (mapper.num_8k_chr_ram * 0x2000 % 2 ^ 32 / 64) + (2 ^ 32 - 1)) % 2 ^ 32
    else 0) = chr_shift at h
  split_ifs at h with h1 h2 h3 h4 h5
  simp only [outcome.ok.injEq] at h
  rw [Nat.shiftRight_eq_div_pow] at h1 h2
  have hn16 : env.num_16k_banks mapper < 4096 := by
    have := not_lt.1 h1
    norm_num at this
    omega
  have hrom : mapper.num_8k_chr_rom < 4096 := by
    have := not_lt.1 h2
    norm_num at this
    omega
  have hshift := not_lt.1 h5
  have hf7 : (0b00001000 ||| (mapper.type % 2 ^ 32 &&& 0b11110000)) % 256 =
      16 * (mapper.type % 2 ^ 32 / 16 % 16) + 8 := by
    rw [and_240, Nat.or_comm, or_16 _ 8 (by norm_num)]
    omega
  have hf8 : (0 ||| ((mapper.type % 2 ^ 32) >>> 8 &&& 0b1111)) % 256 =
      mapper.type % 2 ^ 32 / 256 % 16 := by
    rw [Nat.zero_or, and_15, Nat.shiftRight_eq_div_pow]
    omega
  have hhi : ((0 ||| (env.num_16k_banks mapper >>> 8 &&& 0b1111)) % 256 |||
        (mapper.num_8k_chr_rom >>> 4 &&& 0b11110000)) % 256 =
      16 * (mapper.num_8k_chr_rom / 256 % 16) + env.num_16k_banks mapper / 256 % 16 := by
    rw [Nat.zero_or, and_15, and_240, Nat.shiftRight_eq_div_pow, Nat.shiftRight_eq_div_pow,
      Nat.or_comm]
    have e1 : env.num_16k_banks mapper / 2 ^ 8 % 16 % 256 =
        env.num_16k_banks mapper / 256 % 16 := by omega
    have e2 : mapper.num_8k_chr_rom / 2 ^ 4 / 16 % 16 = mapper.num_8k_chr_rom / 256 % 16 := by
      omega
    rw [e1, e2, or_16 _ _ (by omega)]
    omega
  have hf6 : (0 ||| ((mapper.type % 2 ^ 32) <<< 4) % 2 ^ 32) % 256 =
      16 * (mapper.type % 16) := by
    rw [Nat.zero_or, Nat.shiftLeft_eq]
    omega
  rw [hf7, hf8, hhi, hf6] at h
  have hshift_and : ∀ c, c ≤ 15 → c &&& 0b1111 = c := by
    intro c hc
    rw [and_15]
    omega
  rw [hshift_and _ hshift] at h
  refine ⟨_, _, h.symm, ?_, ?_, hshift, hn16, hrom, ?_⟩
  · cases mapper.mirroring with
    | MIRROR_H => simp only; omega
    | MIRROR_V =>
      simp only
      rw [or_16 _ _ (by decide)]
      have e : 1 <<< 0 = 1 := by decide
      rw [e]
      omega
    | MIRROR_4 =>
      simp only
      rw [or_16 _ _ (by decide)]
      have e : 1 <<< 3 = 8 := by decide
      rw [e]
      omega
  · cases mapper.mirroring with
    | MIRROR_H => simp only; omega
    | MIRROR_V => simp only; omega
    | MIRROR_4 => simp only; omega
  · intro hne
    have hchunks : mapper.num_8k_chr_ram * 0x2000 % 2 ^ 32 / 64 ≠ 0 := by
      omega
    rcases h4 with e | e
    · exact absurd e hchunks
    · rw [Nat.shiftLeft_eq] at e
      rw [← e]
      have hpow : 2 ^ chr_shift ≤ 2 ^ 15 := Nat.pow_le_pow_right (by norm_num) hshift
      have : 64 * 2 ^ chr_shift < 2 ^ 32 := by
        calc 64 * 2 ^ chr_shift ≤ 64 * 2 ^ 15 := Nat.mul_le_mul_left _ hpow
          _ < 2 ^ 32 := by norm_num
      exact (Nat.mod_eq_of_lt this).symm

/-- The header decoded under the NES 2.0 layout, for every mapper on which
`write_ines_header` returns: the mapper number read back is `mapper.type`
modulo 4096, and the CHR-RAM size read back is the product of line 96 as a
32-bit number. -/
theorem write_ines_header_decode (env : mapper_env) (mapper : mapper_t) (bytes : List Nat)
    (h : write_ines_header env mapper = .ok bytes) :
    bytes.length = 16 ∧ bytes.take 4 = [0x4E, 0x45, 0x53, 0x1A] ∧
    (bytes.getD 7 0 &&& 0x0C) = 0x08 ∧
    ((bytes.getD 6 0 >>> 4) ||| (bytes.getD 7 0 &&& 0xF0) |||
      ((bytes.getD 8 0 &&& 0x0F) <<< 8)) = mapper.type % 4096 ∧
    (bytes.getD 4 0 ||| ((bytes.getD 9 0 &&& 0x0F) <<< 8)) = env.num_16k_banks mapper ∧
    (bytes.getD 5 0 ||| ((bytes.getD 9 0 >>> 4) <<< 8)) = mapper.num_8k_chr_rom ∧
    ((mapper.num_8k_chr_ram * 0x2000) % 2 ^ 32 ≠ 0 →
      64 <<< bytes.getD 11 0 = (mapper.num_8k_chr_ram * 0x2000) % 2 ^ 32) := by
  obtain ⟨flags6, chr_shift, hb, hf6, hf6lt, hshift, hn16, hrom, hram⟩ :=
    write_ines_header_ok env mapper bytes h
  rw [hb]
  simp only [List.length_cons, List.length_nil, List.take_succ_cons, List.take_zero,
    List.getD_cons_succ, List.getD_cons_zero, true_and]
  refine ⟨?_, ?_, ?_, ?_, ?_⟩
  · rw [and_12]
    omega
  · rw [and_240, and_15, Nat.shiftRight_eq_div_pow, Nat.shiftLeft_eq, hf6]
    have e1 : (16 * (mapper.type % 2 ^ 32 / 16 % 16) + 8) / 16 % 16 =
        mapper.type % 2 ^ 32 / 16 % 16 := by omega
    have e2 : mapper.type % 2 ^ 32 / 256 % 16 % 16 * 2 ^ 8 =
        256 * (mapper.type % 2 ^ 32 / 256 % 16) := by omega
    rw [e1, e2, Nat.or_comm (mapper.type % 16), or_16 _ _ (by omega), Nat.or_comm,
      or_256 _ _ (by omega)]
    omega
  · rw [and_15, Nat.shiftLeft_eq]
    have e : (16 * (mapper.num_8k_chr_rom / 256 % 16) + env.num_16k_banks mapper / 256 % 16) %
        16 * 2 ^ 8 = 256 * (env.num_16k_banks mapper / 256 % 16) := by omega
    rw [e, Nat.or_comm, or_256 _ _ (by omega)]
    omega
  · rw [Nat.shiftRight_eq_div_pow, Nat.shiftLeft_eq]
    have e : (16 * (mapper.num_8k_chr_rom / 256 % 16) + env.num_16k_banks mapper / 256 % 16) /
        2 ^ 4 * 2 ^ 8 = 256 * (mapper.num_8k_chr_rom / 256 % 16) := by omega
    rw [e, Nat.or_comm, or_256 _ _ (by omega)]
    omega
  · intro hne
    rw [Nat.shiftLeft_eq]
    exact hram hne

/-- C22 as stated fails for the mapper number 4096: `write_ines_header` returns
(nothing in it tests `mapper.type`), and the mapper number decoded from the
bytes 6, 7 and 8 is `0`. -/
theorem ines_header_counterexample :
    write_ines_header usual_env ⟨4096, .MIRROR_H, 1, 1, 0⟩ =
      .ok [0x4E, 0x45, 0x53, 0x1A, 2, 1, 0, 8, 0, 0, 0, 0, 0, 0, 0, 0] ∧
    (((0 : Nat) >>> 4) ||| ((8 : Nat) &&& 0xF0) ||| (((0 : Nat) &&& 0x0F) <<< 8)) = 0 ∧
    (⟨4096, .MIRROR_H, 1, 1, 0⟩ : mapper_t).type ≠ 0 :=
  ⟨rfl, by decide, by decide⟩

/-- The product of line 96 wraps in 32 bits: with `2 ^ 19` CHR-RAM banks it is
`0`, `write_ines_header` returns, and byte 11 is `0`, which decodes to 64 bytes. -/
theorem chr_ram_wrap_scenario :
    write_ines_header usual_env ⟨0, .MIRROR_H, 1, 1, 524288⟩ =
      .ok [0x4E, 0x45, 0x53, 0x1A, 2, 1, 0, 8, 0, 0, 0, 0, 0, 0, 0, 0] ∧
    64 <<< 0 ≠ 524288 * 0x2000 :=
  ⟨rfl, by decide⟩

/-- C22, amended. Whenever `write_ines_header` returns without throwing, for a
mapper whose `type` is below 4096 and whose `num_8k_chr_ram * 0x2000` fits in
32 bits, the 16 bytes decode back to the mapper's fields under the NES 2.0
layout: bytes 0-3 are `4E 45 53 1A`, `(at[7] & 0x0C) == 0x08`, the mapper number
`(at[6] >> 4) | (at[7] & 0xF0) | ((at[8] & 0x0F) << 8)` is `mapper.type`, the PRG
count `at[4] | ((at[9] & 0x0F) << 8)` is `num_16k_banks()`, the CHR-ROM count
`at[5] | ((at[9] >> 4) << 8)` is `num_8k_chr_rom`, and when `num_8k_chr_ram` is
non-zero `64 << at[11]` is `num_8k_chr_ram * 0x2000`. -/
theorem ines_header_decodes (env : mapper_env) (mapper : mapper_t) (bytes : List Nat)
    (h : write_ines_header env mapper = .ok bytes) (htype : mapper.type < 4096)
    (hram : mapper.num_8k_chr_ram * 0x2000 < 2 ^ 32) :
    bytes.length = 16 ∧ bytes.take 4 = [0x4E, 0x45, 0x53, 0x1A] ∧
    (bytes.getD 7 0 &&& 0x0C) = 0x08 ∧
    ((bytes.getD 6 0 >>> 4) ||| (bytes.getD 7 0 &&& 0xF0) |||
      ((bytes.getD 8 0 &&& 0x0F) <<< 8)) = mapper.type ∧
    (bytes.getD 4 0 ||| ((bytes.getD 9 0 &&& 0x0F) <<< 8)) = env.num_16k_banks mapper ∧
    (bytes.getD 5 0 ||| ((bytes.getD 9 0 >>> 4) <<< 8)) = mapper.num_8k_chr_rom ∧
    (mapper.num_8k_chr_ram ≠ 0 →
      64 <<< bytes.getD 11 0 = mapper.num_8k_chr_ram * 0x2000) := by
  obtain ⟨h1, h2, h3, h4, h5, h6, h7⟩ := write_ines_header_decode env mapper bytes h
  refine ⟨h1, h2, h3, ?_, h5, h6, ?_⟩
  · rw [h4]; exact Nat.mod_eq_of_lt htype
  · intro hne
    rw [Nat.mod_eq_of_lt hram] at h7
    apply h7
    intro e
    rcases Nat.mul_eq_zero.1 e with e | e
    · exact hne e
    · exact absurd e (by norm_num)

/-- Witness for C22: the mapper built by `gtrom` with mapper number 111 and 16
banks, the three absent functions with their usual meaning. -/
theorem ines_header_decodes_witness :
    write_ines_header usual_env (mapper_t.gtrom 111 16) =
      .ok [0x4E, 0x45, 0x53, 0x1A, 32, 0, 248, 104, 0, 0, 0, 8, 0, 0, 0, 0] ∧
    ((248 : Nat) >>> 4 ||| ((104 : Nat) &&& 0xF0) ||| (((0 : Nat) &&& 0x0F) <<< 8)) = 111 ∧
    ((32 : Nat) ||| (((0 : Nat) &&& 0x0F) <<< 8)) = usual_env.num_16k_banks (mapper_t.gtrom 111 16) ∧
    (64 : Nat) <<< 8 = (mapper_t.gtrom 111 16).num_8k_chr_ram * 0x2000 := by
  have h : write_ines_header usual_env (mapper_t.gtrom 111 16) =
      .ok [0x4E, 0x45, 0x53, 0x1A, 32, 0, 248, 104, 0, 0, 0, 8, 0, 0, 0, 0] := rfl
  obtain ⟨_, _, _, h4, h5, _, h7⟩ := ines_header_decodes usual_env (mapper_t.gtrom 111 16) _ h
    (by decide) (by decide)
  exact ⟨h, h4, h5, h7 (by decide)⟩

end Nesfab
